import Mathlib

/-!
# EarCanvas native filters: a shallow embedding

The three C routines of `src/main/java/NativeFilter` (channel balancer, ten band
graphic equaliser, lookahead limiter) are embedded as Lean functions.

Conventions of the embedding:

* a C `double` is an element of a linearly ordered field `K` (exact arithmetic, no
  rounding, no NaN or infinity); the definitions are generic in `K`, so they run
  over `ℚ` and the theorems hold over `ℝ`; where binary64 differs in kind and not by
  a rounding error, namely where `pow` or `exp` underflow to `0`, the difference is
  modelled by the second instance `underflowLibm` of the `<math.h>` functions;
* a C `int` is an `Int`; `/` and `%` on `int` are the truncating `Int.tdiv` and
  `Int.tmod`;
* a `double*` buffer is a `List K`; a read or write outside the list is the fault
  `outOfBounds` instead of undefined behaviour;
* `floor(x)` is the integer floor `⌊x⌋` of a `FloorRing` and the conversion `(int)` of
  it is `doubleToInt`, the identity on the range of a 32-bit `int`; the other
  functions of `<math.h>` are a parameter `Libm K`, instantiated over `ℝ` by `realLibm`;
* loops whose counter advances by a run time stride take a fuel argument and fault
  with `outOfFuel` when it is used up.
-/

set_option linter.unusedVariables false

namespace EarCanvas

/-- The ways a run of the C code can fail to return normally. -/
inductive Fault where
  | outOfBounds
  | divByZero
  | outOfFuel
  deriving DecidableEq, Repr

section Memory

variable {K : Type}

/-- Read `buf[i]` through a C pointer: a fault outside the allocated cells. -/
def loadAt (buf : List K) (i : Int) : Except Fault K :=
  if 0 ≤ i then
    match buf[i.toNat]? with
    | some v => .ok v
    | none => .error .outOfBounds
  else .error .outOfBounds

/-- Write `buf[i] = v` through a C pointer: a fault outside the allocated cells. -/
def storeAt (buf : List K) (i : Int) (v : K) : Except Fault (List K) :=
  if 0 ≤ i ∧ i.toNat < buf.length then .ok (buf.set i.toNat v)
  else .error .outOfBounds

end Memory

section ChannelBalancer

variable {K : Type} [LinearOrderedField K]

/-- `computeGains` of `NativeFilter_ChannelBalancer.c`; the two out parameters are
returned as the pair `(leftGain, rightGain)`. -/
def computeGains (preference : K) : K × K :=
  let x := preference - 0.5
  if x < 0 then
    (1.0, 1.0 + 2.0 * x)
  else
    (1.0 - 2.0 * x, 1.0)

/-- The `for (frame = ...; frame < frames; frame++)` loop of
`channel_balancer_process`, with `remaining = frames - frame` iterations to go. -/
def balancerLoop (numChannels : Int) (leftGain rightGain : K) :
    Nat → Int → List K → Except Fault (List K)
  | 0, _, buffer => .ok buffer
  | remaining + 1, frame, buffer => do
    let idx := frame * numChannels
    let l ← loadAt buffer (idx + 0)
    let buffer ← storeAt buffer (idx + 0) (l * leftGain)
    let r ← loadAt buffer (idx + 1)
    let buffer ← storeAt buffer (idx + 1) (r * rightGain)
    balancerLoop numChannels leftGain rightGain remaining (frame + 1) buffer

/-- `channel_balancer_process` of `NativeFilter_ChannelBalancer.c`; the result is the
buffer after the call. -/
def channel_balancer_process (buffer : List K) (numChannels numSamples : Int)
    (sampleRate preference : K) : Except Fault (List K) :=
  if sampleRate ≤ 0 ∨ numSamples ≤ 0 then .ok buffer
  else if numChannels = 1 then .ok buffer
  else if preference < 0.0 ∨ preference > 1.0 then .ok buffer
  else
    let gains := computeGains preference
    if numChannels = 0 then .error .divByZero
    else
      let frames := Int.tdiv numSamples numChannels
      balancerLoop numChannels gains.1 gains.2 frames.toNat 0 buffer

/-- The value `channel_balancer_process` leaves at index `j` of a buffer with `c`
channels where it held `v`, once the frames `k ≤ f < k + n` are processed. -/
def balancedAt (c k n : Nat) (l r : K) (j : Nat) (v : K) : K :=
  if k ≤ j / c ∧ j / c < k + n then
    (if j % c = 0 then v * l else if j % c = 1 then v * r else v)
  else v

end ChannelBalancer


section Math

/-- The functions of `<math.h>` called by the limiter and the equaliser. -/
structure Libm (K : Type) where
  pow : K → K → K
  exp : K → K
  sqrt : K → K
  sin : K → K
  cos : K → K

/-- The functions of `<math.h>` over the real numbers: exact `pow`, `exp`, `sqrt`,
`sin` and `cos`, which have no executable counterpart. -/
noncomputable def realLibm : Libm ℝ where
  pow := fun x y => x ^ y
  exp := Real.exp
  sqrt := Real.sqrt
  sin := Real.sin
  cos := Real.cos

/-- The functions of `<math.h>` as binary64 returns them at the small end: a positive
result of `pow` or `exp` below `2 ^ (-1075)`, half the least positive binary64 number,
is returned as `0` (underflow); every other result is the real one. So
`pow(10.0, -350.0)` and `exp(-10000.0)` are `0`, as they are in the C program. -/
noncomputable def underflowLibm : Libm ℝ where
  pow := fun x y => if x ^ y < 1 / 2 ^ 1075 then 0 else x ^ y
  exp := fun x => if Real.exp x < 1 / 2 ^ 1075 then 0 else Real.exp x
  sqrt := Real.sqrt
  sin := Real.sin
  cos := Real.cos

end Math

section Limiter

variable {K : Type} [LinearOrderedField K]

/-- `#define MAX_CHANNELS 8` -/
def MAX_CHANNELS : Int := 8

/-- `#define MAX_LOOKAHEAD_SAMPLES 4096` -/
def MAX_LOOKAHEAD_SAMPLES : Int := 4096

/-- The file scope `static` variables of `NativeFilter_Limiter.c`;
`delay_buffer ch pos` is the cell `delay_buffer[ch][pos]`. -/
structure LimiterState (K : Type) where
  current_gain : K
  delay_buffer : Nat → Nat → K
  write_pos : Int
  current_lookahead_samples : Int
  state_initialized : Bool

/-- The static initialisers: gain `1.0`, zeroed delay lines, cursor `0`, lookahead `0`,
not yet initialised. -/
def LimiterState.initial : LimiterState K where
  current_gain := 1.0
  delay_buffer := fun _ _ => 0
  write_pos := 0
  current_lookahead_samples := 0
  state_initialized := false

/-- Read `delay_buffer[ch][pos]`: a fault outside `[0, 8) × [0, 4096)`. -/
def delayLoad (db : Nat → Nat → K) (ch pos : Int) : Except Fault K :=
  if 0 ≤ ch ∧ ch < MAX_CHANNELS ∧ 0 ≤ pos ∧ pos < MAX_LOOKAHEAD_SAMPLES then
    .ok (db ch.toNat pos.toNat)
  else .error .outOfBounds

/-- Write `delay_buffer[ch][pos] = v`: a fault outside `[0, 8) × [0, 4096)`. -/
def delayStore (db : Nat → Nat → K) (ch pos : Int) (v : K) :
    Except Fault (Nat → Nat → K) :=
  if 0 ≤ ch ∧ ch < MAX_CHANNELS ∧ 0 ≤ pos ∧ pos < MAX_LOOKAHEAD_SAMPLES then
    .ok (fun c q => if c = ch.toNat ∧ q = pos.toNat then v else db c q)
  else .error .outOfBounds

/-- The peak detector: the first `for (ch ...)` loop of a frame, with
`remaining = numChannels - ch` iterations to go. -/
def peakLoop (data : List K) (i : Int) : Nat → Int → K → Except Fault K
  | 0, _, peak_level => .ok peak_level
  | remaining + 1, ch, peak_level => do
    let sample ← loadAt data (i + ch)
    let current_sample_abs := |sample|
    peakLoop data i remaining (ch + 1)
      (if current_sample_abs > peak_level then current_sample_abs else peak_level)

/-- The delay line exchange: the second `for (ch ...)` loop of a frame. -/
def delayLoop (read_pos write_pos : Int) (current_gain : K) (i : Int) :
    Nat → Int → (Nat → Nat → K) → List K → Except Fault ((Nat → Nat → K) × List K)
  | 0, _, db, data => .ok (db, data)
  | remaining + 1, ch, db, data => do
    let delayed_sample ← delayLoad db ch read_pos
    let input ← loadAt data (i + ch)
    let db ← delayStore db ch write_pos input
    let output_sample := delayed_sample * current_gain
    let data ← storeAt data (i + ch) output_sample
    delayLoop read_pos write_pos current_gain i remaining (ch + 1) db data

/-- The target gain and the attack/release smoothing step of a frame: the new value of
`current_gain` from the frame's peak level and the previous gain. -/
def smoothGain (threshold_linear attack_coeff release_coeff peak_level current_gain : K) :
    K :=
  let target_gain := if peak_level > threshold_linear then threshold_linear / peak_level
    else 1.0
  if target_gain < current_gain then
    (1.0 - attack_coeff) * target_gain + attack_coeff * current_gain
  else
    (1.0 - release_coeff) * target_gain + release_coeff * current_gain

/-- What a call of the limiter leaves behind: the static state, the buffer, and (a
ghost record) the value of `current_gain` after the smoothing step of every frame. -/
structure LimiterRun (K : Type) where
  state : LimiterState K
  data : List K
  gains : List K

/-- The body of the main processing loop for the frame that starts at index `i`:
peak detection, gain smoothing, delay line exchange and cursor advance. -/
def limiterFrame (numChannels : Int) (threshold_linear attack_coeff release_coeff : K)
    (i : Int) (st : LimiterState K) (data : List K) :
    Except Fault (LimiterState K × List K) := do
  let peak_level ← peakLoop data i numChannels.toNat 0 0.0
  let current_gain :=
    smoothGain threshold_linear attack_coeff release_coeff peak_level st.current_gain
  let read_pos := Int.tmod
    (st.write_pos - st.current_lookahead_samples + MAX_LOOKAHEAD_SAMPLES)
    MAX_LOOKAHEAD_SAMPLES
  let (db, data) ← delayLoop read_pos st.write_pos current_gain i numChannels.toNat 0
    st.delay_buffer data
  .ok ({ st with
          current_gain := current_gain
          delay_buffer := db
          write_pos := Int.tmod (st.write_pos + 1) MAX_LOOKAHEAD_SAMPLES }, data)

/-- The main processing loop `for (i = ...; i < numSamples; i += numChannels)`; `gains`
collects the value of `current_gain` at the end of every frame. -/
def limiterFrameLoop (numChannels numSamples : Int)
    (threshold_linear attack_coeff release_coeff : K) :
    Nat → Int → LimiterState K → List K → List K → Except Fault (LimiterRun K)
  | 0, _, _, _, _ => .error .outOfFuel
  | fuel + 1, i, st, data, gains =>
    if i < numSamples then do
      let (st, data) ←
        limiterFrame numChannels threshold_linear attack_coeff release_coeff i st data
      limiterFrameLoop numChannels numSamples threshold_linear attack_coeff release_coeff
        fuel (i + numChannels) st data (gains ++ [st.current_gain])
    else .ok ⟨st, data, gains⟩

/-- The least value of a 32-bit `int`. -/
def INT_MIN : Int := -2147483648

/-- The greatest value of a 32-bit `int`. -/
def INT_MAX : Int := 2147483647

/-- The conversion `(int)x` of a `double` whose value is the integer `z`: `z` itself
when it fits a 32-bit `int`. Outside that range C leaves the conversion undefined; the
model takes what the conversion instruction of x86-64 returns there, `INT_MIN`. -/
def doubleToInt (z : Int) : Int :=
  if INT_MIN ≤ z ∧ z ≤ INT_MAX then z else INT_MIN

/-- The lookahead length in samples: `(int)floor(lookahead_ms * samplerate / 1000.0)`
followed by the two clamping `if`s. -/
def lookaheadSamples [FloorRing K] (lookahead_ms samplerate : K) : Int :=
  let new_lookahead_samples : Int := doubleToInt ⌊lookahead_ms * samplerate / 1000.0⌋
  let new_lookahead_samples := if new_lookahead_samples < 0 then 0
    else new_lookahead_samples
  if new_lookahead_samples ≥ MAX_LOOKAHEAD_SAMPLES then MAX_LOOKAHEAD_SAMPLES - 1
  else new_lookahead_samples

/-- The state after the reset block of `limiter_processData`. -/
def LimiterState.reset (new_lookahead_samples : Int) : LimiterState K where
  current_gain := 1.0
  delay_buffer := fun _ _ => 0
  write_pos := 0
  current_lookahead_samples := new_lookahead_samples
  state_initialized := true

/-- `limiter_processData` of `NativeFilter_Limiter.c`, with the static variables passed
in as `st` and returned in the result. -/
def limiter_processData [FloorRing K] (m : Libm K) (fuel : Nat) (st : LimiterState K)
    (data : List K) (numChannels numSamples : Int)
    (samplerate attack_ms release_ms threshold_db lookahead_ms : K) :
    Except Fault (LimiterRun K) :=
  if samplerate ≤ 0 ∨ release_ms ≤ 0 then .ok ⟨st, data, []⟩
  else if numChannels > MAX_CHANNELS then .ok ⟨st, data, []⟩
  else
    let new_lookahead_samples := lookaheadSamples lookahead_ms samplerate
    let st :=
      if !st.state_initialized || new_lookahead_samples != st.current_lookahead_samples
      then LimiterState.reset new_lookahead_samples
      else st
    let threshold_linear := m.pow 10.0 (threshold_db / 20.0)
    let attack_coeff :=
      if attack_ms > 0.0 then m.exp (-1.0 / (attack_ms * samplerate / 1000.0)) else 0.0
    let release_coeff := m.exp (-1.0 / (release_ms * samplerate / 1000.0))
    limiterFrameLoop numChannels numSamples threshold_linear attack_coeff release_coeff
      fuel 0 st data []

/-- The peak level of frame `f` of a buffer with `c` channels: `peak` bounds the
absolute value of every sample of the frame and is `0` or attained by one of them. -/
def IsFramePeak (data : List K) (c f : Nat) (peak : K) : Prop :=
  (∀ ch, ch < c → ∀ v, data[f * c + ch]? = some v → |v| ≤ peak) ∧
  (peak = 0 ∨ ∃ ch, ch < c ∧ ∃ v, data[f * c + ch]? = some v ∧ peak = |v|)

/-- What one frame of the limiter does to the state and the buffer, for frame `f` of a
buffer with `c` channels: the gain is smoothed towards the target of the frame's peak,
the cursor advances, every channel's output is its delayed sample times the new gain,
and every channel's input is stored at the old cursor. -/
structure FrameSpec (c f : Nat) (T a r : K) (st : LimiterState K) (data : List K)
    (st' : LimiterState K) (data' : List K) : Prop where
  gain : ∃ peak, IsFramePeak data c f peak ∧
    st'.current_gain = smoothGain T a r peak st.current_gain
  write_pos : st'.write_pos = (st.write_pos + 1) % 4096
  lookahead : st'.current_lookahead_samples = st.current_lookahead_samples
  initialized : st'.state_initialized = st.state_initialized
  length : data'.length = data.length
  outside : ∀ j, j < f * c ∨ f * c + c ≤ j → data'[j]? = data[j]?
  output : ∀ ch, ch < c → data'[f * c + ch]? = some
    (st.delay_buffer ch
      ((st.write_pos - st.current_lookahead_samples + 4096) % 4096).toNat
      * st'.current_gain)
  delay_keep : ∀ ch q, ¬ (ch < c ∧ q = st.write_pos.toNat) →
    st'.delay_buffer ch q = st.delay_buffer ch q
  delay_store : ∀ ch, ch < c →
    data[f * c + ch]? = some (st'.delay_buffer ch st.write_pos.toNat)

/-- The claim's peak of frame `f`: the maximum of `|sample|` over the first `n` channels
of the frame (and `0`). -/
def specPeak (data : List K) (c f : Nat) : Nat → K
  | 0 => 0
  | n + 1 => max (specPeak data c f n) |data.getD (f * c + n) 0|

/-- The claim's gain update: target `1` if `peak ≤ T`, else `T / peak`; attack blend
when the target is below the gain, release blend otherwise. -/
def specGainStep (T a r peak gain : K) : K :=
  let target := if peak ≤ T then 1 else T / peak
  if target < gain then (1 - a) * target + a * gain else (1 - r) * target + r * gain

/-- The claim's gain after `f` frames of `data`, starting from `g0`. -/
def specGains (T a r : K) (data : List K) (c : Nat) (g0 : K) : Nat → K
  | 0 => g0
  | f + 1 => specGainStep T a r (specPeak data c f c) (specGains T a r data c g0 f)

/-- The limiter states a program can observe: the static initialisers, and the state
left by a call with at least one channel that returned, from such a state. -/
inductive LimiterReachable [FloorRing K] (m : Libm K) : LimiterState K → Prop
  | initial : LimiterReachable m LimiterState.initial
  | call {st : LimiterState K} (fuel : Nat) (data : List K) (numChannels numSamples : Int)
      (samplerate attack_ms release_ms threshold_db lookahead_ms : K) (run : LimiterRun K) :
      LimiterReachable m st → 1 ≤ numChannels →
      limiter_processData m fuel st data numChannels numSamples samplerate attack_ms
        release_ms threshold_db lookahead_ms = .ok run →
      LimiterReachable m run.state

end Limiter

section GraphicEqualizer

variable {K : Type} [LinearOrderedField K]

/-- `#define PI 3.14159265358979323846` -/
def PI : K := 3.14159265358979323846

/-- `const int bands = 10` -/
def bands : Nat := 10

/-- The centre frequencies `f0[10]`. -/
def f0 (i : Nat) : K :=
  [31, 63, 125, 250, 500, 1000, 2000, 4000, 8000, 16000].getD i 0

/-- The cells `b0[i]`, `b1[i]`, `b2[i]`, `a0[i]`, `a1[i]`, `a2[i]` of one band. -/
structure Biquad (K : Type) where
  b0 : K
  b1 : K
  b2 : K
  a0 : K
  a1 : K
  a2 : K

/-- The cells `norm_b0[i]`, ..., `norm_a2[i]` of one band. -/
structure NormBiquad (K : Type) where
  norm_b0 : K
  norm_b1 : K
  norm_b2 : K
  norm_a1 : K
  norm_a2 : K

/-- The cells `x_n1[i][c]`, `x_n2[i][c]`, `y_n1[i][c]`, `y_n2[i][c]` of one band and
channel. -/
structure BiquadState (K : Type) where
  x_n1 : K
  x_n2 : K
  y_n1 : K
  y_n2 : K

/-- The body of the coefficient loop for band `i` with `bandGains[i] = gain`. -/
def bandCoeffs (m : Libm K) (Fs Q gain : K) (i : Nat) : Biquad K :=
  let A := m.pow 10 (0.15 * gain)
  let w0 := (2.0 * PI * f0 i) / Fs
  let cos_w0 := m.cos w0
  let sin_w0 := m.sin w0
  let alpha := sin_w0 / (2.0 * Q)
  if i = 0 then
    let sqrt_A := m.sqrt A
    { b0 := A * ((A + 1) - (A - 1) * cos_w0 + 2 * sqrt_A * alpha)
      b1 := 2 * A * ((A - 1) - (A + 1) * cos_w0)
      b2 := A * ((A + 1) - (A - 1) * cos_w0 - 2 * sqrt_A * alpha)
      a0 := (A + 1) + (A - 1) * cos_w0 + 2 * sqrt_A * alpha
      a1 := -2 * ((A - 1) + (A + 1) * cos_w0)
      a2 := (A + 1) + (A - 1) * cos_w0 - 2 * sqrt_A * alpha }
  else if i = bands - 1 then
    let sqrt_A := m.sqrt A
    { b0 := A * ((A + 1) + (A - 1) * cos_w0 + 2 * sqrt_A * alpha)
      b1 := -2 * A * ((A - 1) + (A + 1) * cos_w0)
      b2 := A * ((A + 1) + (A - 1) * cos_w0 - 2 * sqrt_A * alpha)
      a0 := (A + 1) - (A - 1) * cos_w0 + 2 * sqrt_A * alpha
      a1 := 2 * ((A - 1) - (A + 1) * cos_w0)
      a2 := (A + 1) - (A - 1) * cos_w0 - 2 * sqrt_A * alpha }
  else
    { b0 := 1 + alpha * A
      b1 := -2 * cos_w0
      b2 := 1 - alpha * A
      a0 := 1 + alpha / A
      a1 := -2 * cos_w0
      a2 := 1 - alpha / A }

/-- The coefficient loop `for (i = ...; i < bands; i++)`, reading `bandGains[i]`. -/
def coeffLoop (m : Libm K) (Fs Q : K) (bandGains : List K) :
    Nat → Nat → (Nat → Biquad K) → Except Fault (Nat → Biquad K)
  | 0, _, coeffs => .ok coeffs
  | remaining + 1, i, coeffs => do
    let gain ← loadAt bandGains (i : Int)
    coeffLoop m Fs Q bandGains remaining (i + 1)
      (fun j => if j = i then bandCoeffs m Fs Q gain i else coeffs j)

/-- The body of the normalisation loop. -/
def normalize (c : Biquad K) : NormBiquad K where
  norm_b0 := c.b0 / c.a0
  norm_b1 := c.b1 / c.a0
  norm_b2 := c.b2 / c.a0
  norm_a1 := c.a1 / c.a0
  norm_a2 := c.a2 / c.a0

/-- The cascade `for (i = ...; i < bands; i++)` applied to one sample of channel `c`. -/
def bandLoop (norm : Nat → NormBiquad K) (c : Nat) :
    Nat → Nat → (Nat → Nat → BiquadState K) → K → (Nat → Nat → BiquadState K) × K
  | 0, _, st, sample_in => (st, sample_in)
  | remaining + 1, i, st, sample_in =>
    let x_n := sample_in
    let y_n := (norm i).norm_b0 * x_n + (norm i).norm_b1 * (st i c).x_n1
      + (norm i).norm_b2 * (st i c).x_n2
      - (norm i).norm_a1 * (st i c).y_n1 - (norm i).norm_a2 * (st i c).y_n2
    let cell : BiquadState K :=
      { x_n2 := (st i c).x_n1, x_n1 := x_n, y_n2 := (st i c).y_n1, y_n1 := y_n }
    bandLoop norm c remaining (i + 1)
      (fun j d => if j = i ∧ d = c then cell else st j d) y_n

/-- The channel loop `for (c = ...; c < numChannels; c++)` of one frame. -/
def eqChannelLoop (norm : Nat → NormBiquad K) (s : Int) :
    Nat → Nat → (Nat → Nat → BiquadState K) → List K →
      Except Fault ((Nat → Nat → BiquadState K) × List K)
  | 0, _, st, samples => .ok (st, samples)
  | remaining + 1, c, st, samples => do
    let sample_in ← loadAt samples (s + c)
    let (st, sample_out) := bandLoop norm c bands 0 st sample_in
    let samples ← storeAt samples (s + c) sample_out
    eqChannelLoop norm s remaining (c + 1) st samples

/-- The frame loop `for (s = ...; s < numSamples; s += numChannels)`. -/
def eqFrameLoop (norm : Nat → NormBiquad K) (numSamples numChannels : Int) :
    Nat → Int → (Nat → Nat → BiquadState K) → List K → Except Fault (List K)
  | 0, _, _, _ => .error .outOfFuel
  | fuel + 1, s, st, samples =>
    if s < numSamples then do
      let (st, samples) ← eqChannelLoop norm s numChannels.toNat 0 st samples
      eqFrameLoop norm numSamples numChannels fuel (s + numChannels) st samples
    else .ok samples

/-- `processGraphicEQ` of `NativeFilter_GraphicEqualizer.c`; the result is the sample
buffer after the call. -/
def processGraphicEQ (m : Libm K) (fuel : Nat) (samples : List K)
    (numSamples numChannels : Int) (sampleRate : K) (bandGains : List K) (qFactor : K) :
    Except Fault (List K) := do
  let Q := qFactor
  let Fs := sampleRate
  let zero : BiquadState K := { x_n1 := 0.0, x_n2 := 0.0, y_n1 := 0.0, y_n2 := 0.0 }
  let coeffs ← coeffLoop m Fs Q bandGains bands 0 (fun _ => ⟨0, 0, 0, 0, 0, 0⟩)
  let norm := fun i => normalize (coeffs i)
  eqFrameLoop norm numSamples numChannels fuel 0 (fun _ _ => zero) samples

/-- A normalised band whose feed forward taps repeat its feedback taps:
`norm_b0 = 1`, `norm_b1 = norm_a1`, `norm_b2 = norm_a2`. -/
def NormBiquad.Flat (nb : NormBiquad K) : Prop :=
  nb.norm_b0 = 1 ∧ nb.norm_b1 = nb.norm_a1 ∧ nb.norm_b2 = nb.norm_a2

/-- A filter memory whose input history equals its output history. -/
def BiquadState.Balanced (s : BiquadState K) : Prop :=
  s.x_n1 = s.y_n1 ∧ s.x_n2 = s.y_n2

/-- The direct form I difference equation of one band on its memory. -/
def biquadOut (nb : NormBiquad K) (s : BiquadState K) (x : K) : K :=
  nb.norm_b0 * x + nb.norm_b1 * s.x_n1 + nb.norm_b2 * s.x_n2
    - nb.norm_a1 * s.y_n1 - nb.norm_a2 * s.y_n2

/-- The low shelf biquad of the RBJ audio EQ cookbook, from `A`, `cos w0`, `alpha` and
`sqrt A`. -/
def rbjLowShelf (A cos_w0 alpha sqrt_A : K) : Biquad K where
  b0 := A * ((A + 1) - (A - 1) * cos_w0 + 2 * sqrt_A * alpha)
  b1 := 2 * A * ((A - 1) - (A + 1) * cos_w0)
  b2 := A * ((A + 1) - (A - 1) * cos_w0 - 2 * sqrt_A * alpha)
  a0 := (A + 1) + (A - 1) * cos_w0 + 2 * sqrt_A * alpha
  a1 := -2 * ((A - 1) + (A + 1) * cos_w0)
  a2 := (A + 1) + (A - 1) * cos_w0 - 2 * sqrt_A * alpha

/-- The high shelf biquad of the RBJ audio EQ cookbook. -/
def rbjHighShelf (A cos_w0 alpha sqrt_A : K) : Biquad K where
  b0 := A * ((A + 1) + (A - 1) * cos_w0 + 2 * sqrt_A * alpha)
  b1 := -2 * A * ((A - 1) + (A + 1) * cos_w0)
  b2 := A * ((A + 1) + (A - 1) * cos_w0 - 2 * sqrt_A * alpha)
  a0 := (A + 1) - (A - 1) * cos_w0 + 2 * sqrt_A * alpha
  a1 := 2 * ((A - 1) - (A + 1) * cos_w0)
  a2 := (A + 1) - (A - 1) * cos_w0 - 2 * sqrt_A * alpha

/-- The peaking EQ biquad of the RBJ audio EQ cookbook. -/
def rbjPeaking (A cos_w0 alpha : K) : Biquad K where
  b0 := 1 + alpha * A
  b1 := -2 * cos_w0
  b2 := 1 - alpha * A
  a0 := 1 + alpha / A
  a1 := -2 * cos_w0
  a2 := 1 - alpha / A

/-- The band's biquad as the claim words it: RBJ low shelf for band `0`, RBJ high
shelf for band `9`, RBJ peaking in between, with `A = 10 ^ (0.15 g)`,
`w0 = 2 PI f0 / Fs` and `alpha = sin w0 / (2 Q)`. -/
noncomputable def rbjBand (Fs Q g : ℝ) (i : Nat) : Biquad ℝ :=
  let A : ℝ := (10 : ℝ) ^ (0.15 * g)
  let w0 : ℝ := 2 * PI * f0 i / Fs
  let alpha : ℝ := Real.sin w0 / (2 * Q)
  if i = 0 then rbjLowShelf A (Real.cos w0) alpha (Real.sqrt A)
  else if i = 9 then rbjHighShelf A (Real.cos w0) alpha (Real.sqrt A)
  else rbjPeaking A (Real.cos w0) alpha

/-- The samples of channel `ch` of an interleaved buffer with `c` channels. -/
def channelSamples (samples : List K) (c ch : Nat) : List K :=
  (List.range (samples.length / c)).map (fun f => samples.getD (f * c + ch) 0)

end GraphicEqualizer

section MemoryLemmas

variable {K : Type}

/-- A read at an index inside the list returns the cell. -/
theorem loadAt_natCast (buf : List K) (j : Nat) (v : K) (h : buf[j]? = some v) :
    loadAt buf (j : Int) = .ok v := by
  simp [loadAt, h]

/-- A write at an index inside the list updates the cell. -/
theorem storeAt_natCast (buf : List K) (j : Nat) (v : K) (h : j < buf.length) :
    storeAt buf (j : Int) v = .ok (buf.set j v) := by
  simp [storeAt, h]

/-- A list that is cell by cell the image of another has the same length. -/
theorem length_eq_of_getElem?_map (out buf : List K) (g : Nat → K → K)
    (h : ∀ j, out[j]? = (buf[j]?).map (g j)) : out.length = buf.length := by
  apply le_antisymm
  · have := h buf.length
    rw [List.getElem?_eq_none (le_refl _)] at this
    exact List.getElem?_eq_none_iff.mp this
  · have := h out.length
    rw [List.getElem?_eq_none (le_refl _)] at this
    have h2 : buf[out.length]? = none := by
      cases hb : buf[out.length]? with
      | none => rfl
      | some v => rw [hb] at this; simp at this
    exact List.getElem?_eq_none_iff.mp h2

end MemoryLemmas

section BalancerProofs

variable {K : Type} [LinearOrderedField K]

/-- The balancer loop over the frames `k ≤ f < k + n` of a buffer with `c ≥ 2` channels
returns normally and leaves `balancedAt` of the input in every cell. -/
theorem balancerLoop_spec (c : Nat) (hc : 2 ≤ c) (l r : K) :
    ∀ (n k : Nat) (buf : List K), (k + n) * c ≤ buf.length →
      ∃ out, balancerLoop (c : Int) l r n (k : Int) buf = .ok out ∧
        ∀ j, out[j]? = (buf[j]?).map (balancedAt c k n l r j) := by
  intro n
  induction n with
  | zero =>
    intro k buf _
    refine ⟨buf, rfl, fun j => ?_⟩
    have : balancedAt c k 0 l r j = id := by
      funext v; simp [balancedAt]
    rw [this]; simp
  | succ n ih =>
    intro k buf hlen
    have hkc : k * c + 1 < buf.length := by
      have : (k + (n + 1)) * c = k * c + (n + 1) * c := by ring
      have h2 : c ≤ (n + 1) * c := Nat.le_mul_of_pos_left c (Nat.succ_pos n)
      omega
    have h0 : k * c < buf.length := by omega
    set buf1 := buf.set (k * c) (buf[k * c] * l) with hbuf1
    have hlen1 : buf1.length = buf.length := by simp [hbuf1]
    have hget1 : buf1[k * c + 1]? = some buf[k * c + 1] := by
      rw [hbuf1, List.getElem?_set_ne (by omega)]
      exact List.getElem?_eq_getElem hkc
    set buf2 := buf1.set (k * c + 1) (buf[k * c + 1] * r) with hbuf2
    have hlen2 : buf2.length = buf.length := by simp [hbuf2, hlen1]
    obtain ⟨out, hout, hspec⟩ := ih (k + 1) buf2 (by rw [hlen2]; convert hlen using 1; ring)
    refine ⟨out, ?_, ?_⟩
    · have e0 : ((k : Int) * (c : Int) + 0) = ((k * c : Nat) : Int) := by push_cast; ring
      have e1 : ((k : Int) * (c : Int) + 1) = ((k * c + 1 : Nat) : Int) := by push_cast; ring
      simp only [balancerLoop]
      rw [e0, e1, loadAt_natCast buf (k * c) _ (List.getElem?_eq_getElem h0)]
      simp only [bind, Except.bind]
      rw [storeAt_natCast buf (k * c) _ h0]
      simp only []
      rw [loadAt_natCast _ (k * c + 1) _ hget1]
      simp only []
      rw [storeAt_natCast _ (k * c + 1) _ (by rw [hlen1]; exact hkc)]
      simp only []
      have : ((k : Int) + 1) = ((k + 1 : Nat) : Int) := by push_cast; ring
      rw [this]
      exact hout
    · intro j
      rw [hspec j]
      have hdm := Nat.div_add_mod j c
      have hcpos : 0 < c := by omega
      by_cases hj0 : j = k * c
      · subst hj0
        have hd : k * c / c = k := Nat.mul_div_cancel k hcpos
        have hm : k * c % c = 0 := Nat.mul_mod_left k c
        rw [hbuf2, List.getElem?_set_ne (by omega), hbuf1, List.getElem?_set_self (by simpa using h0),
          List.getElem?_eq_getElem h0]
        simp [balancedAt, hd, hm]
      · by_cases hj1 : j = k * c + 1
        · subst hj1
          have hm : (k * c + 1) % c = 1 := by
            rw [Nat.add_comm, Nat.add_mul_mod_self_right]; exact Nat.mod_eq_of_lt (by omega)
          have hd : (k * c + 1) / c = k := by
            rw [Nat.add_comm, Nat.add_mul_div_right _ _ hcpos, Nat.div_eq_of_lt (by omega)]; simp
          rw [hbuf2, List.getElem?_set_self (by rw [hlen1]; exact hkc), List.getElem?_eq_getElem hkc]
          simp [balancedAt, hd, hm]
        · rw [hbuf2, List.getElem?_set_ne (by omega), hbuf1, List.getElem?_set_ne (by omega)]
          cases hb : buf[j]? with
          | none => rfl
          | some v =>
            simp only [Option.map_some', Option.some.injEq, balancedAt]
            by_cases hq : j / c = k
            · have hm0 : j % c ≠ 0 := by
                intro h0'; apply hj0; rw [← hdm, hq, h0']; ring
              have hm1 : j % c ≠ 1 := by
                intro h1'; apply hj1; rw [← hdm, hq, h1']; ring
              simp [hm0, hm1]
            · have e : (k + 1 ≤ j / c ∧ j / c < k + 1 + n) ↔ (k ≤ j / c ∧ j / c < k + (n + 1)) := by
                omega
              simp only [e]


/-- On valid input `channel_balancer_process` runs the loop over all
`buffer.length / c` frames. -/
theorem channel_balancer_process_valid (buffer : List K) (c : Nat) (sr p : K)
    (hsr : 0 < sr) (hns : 0 < buffer.length) (hc : 2 ≤ c) (hp0 : 0 ≤ p) (hp1 : p ≤ 1) :
    ∃ out, channel_balancer_process buffer (c : Int) (buffer.length : Int) sr p = .ok out ∧
      ∀ j, out[j]? = (buffer[j]?).map
        (balancedAt c 0 (buffer.length / c) (computeGains p).1 (computeGains p).2 j) := by
  have h1 : ¬ (sr ≤ 0 ∨ (buffer.length : Int) ≤ 0) := by
    push_neg; exact ⟨hsr, by exact_mod_cast hns⟩
  have h2 : ¬ ((c : Int) = 1) := by omega
  have h3 : ¬ (p < 0.0 ∨ p > 1.0) := by
    push_neg; constructor <;> norm_num <;> assumption
  have h4 : ¬ ((c : Int) = 0) := by omega
  have hfr : (Int.tdiv (buffer.length : Int) (c : Int)).toNat = buffer.length / c := by
    rw [Int.tdiv_eq_ediv (by omega) (by omega)]
    norm_cast
  unfold channel_balancer_process
  rw [if_neg h1, if_neg h2, if_neg h3]
  simp only [if_neg h4, hfr]
  have := balancerLoop_spec c hc (computeGains p).1 (computeGains p).2 (buffer.length / c) 0
    buffer (by rw [Nat.zero_add]; exact Nat.div_mul_le_self _ _)
  simpa using this

/-- C1: on valid input (positive rate, positive sample count equal to the buffer
length, at least two channels, preference in `[0, 1]`) the call returns normally, so
every index it touches is inside the buffer; for every frame `f` below
`numSamples / numChannels` the cells `f * numChannels` and `f * numChannels + 1` hold
the input times `leftGain` and times `rightGain`, and every other cell is unchanged. -/
theorem channel_balancer_process_frames (buffer : List K) (c : Nat) (sr p : K)
    (hsr : 0 < sr) (hns : 0 < buffer.length) (hc : 2 ≤ c) (hp0 : 0 ≤ p) (hp1 : p ≤ 1) :
    ∃ out, channel_balancer_process buffer (c : Int) (buffer.length : Int) sr p = .ok out ∧
      out.length = buffer.length ∧
      (∀ f, f < buffer.length / c → f * c + 1 < buffer.length ∧
        out[f * c]? = (buffer[f * c]?).map (fun v => v * (computeGains p).1) ∧
        out[f * c + 1]? = (buffer[f * c + 1]?).map (fun v => v * (computeGains p).2)) ∧
      (∀ j, (∀ f, f < buffer.length / c → j ≠ f * c ∧ j ≠ f * c + 1) →
        out[j]? = buffer[j]?) := by
  obtain ⟨out, hout, hspec⟩ := channel_balancer_process_valid buffer c sr p hsr hns hc hp0 hp1
  have hcpos : 0 < c := by omega
  refine ⟨out, hout, ?_, ?_, ?_⟩
  · exact length_eq_of_getElem?_map _ _ _ hspec
  · intro f hf
    have hle : (f + 1) * c ≤ buffer.length :=
      le_trans (Nat.mul_le_mul_right c hf) (Nat.div_mul_le_self _ _)
    have hb : f * c + 1 < buffer.length := by
      have : (f + 1) * c = f * c + c := by ring
      omega
    have hd0 : f * c / c = f := Nat.mul_div_cancel f hcpos
    have hm0 : f * c % c = 0 := Nat.mul_mod_left f c
    have hm1 : (f * c + 1) % c = 1 := by
      rw [Nat.add_comm, Nat.add_mul_mod_self_right]; exact Nat.mod_eq_of_lt (by omega)
    have hd1 : (f * c + 1) / c = f := by
      rw [Nat.add_comm, Nat.add_mul_div_right _ _ hcpos, Nat.div_eq_of_lt (by omega)]; simp
    refine ⟨hb, ?_, ?_⟩
    · rw [hspec]; congr 1; funext v; simp [balancedAt, hd0, hm0, hf]
    · rw [hspec]; congr 1; funext v; simp [balancedAt, hd1, hm1, hf]
  · intro j hj
    rw [hspec]
    cases hb : buffer[j]? with
    | none => rfl
    | some v =>
      simp only [Option.map_some', Option.some.injEq, balancedAt]
      by_cases hq : j / c < buffer.length / c
      · have hdm := Nat.div_add_mod j c
        have hm0 : j % c ≠ 0 := by
          intro h0; apply (hj _ hq).1; rw [h0] at hdm; rw [Nat.mul_comm]; omega
        have hm1 : j % c ≠ 1 := by
          intro h1; apply (hj _ hq).2; rw [h1] at hdm; rw [Nat.mul_comm]; omega
        simp [hm0, hm1]
      · simp [hq]

/-- C10: with preference `0` on a two channel buffer of positive even length every
even index keeps its sample and every odd index becomes `0`; in particular
`[1,1,1,1,1,1,1,1]` becomes `[1,0,1,0,1,0,1,0]`. -/
theorem channel_balancer_process_hard_left (buffer : List K) (sr : K)
    (hsr : 0 < sr) (hns : 0 < buffer.length) (heven : 2 ∣ buffer.length) :
    (∃ out, channel_balancer_process buffer 2 (buffer.length : Int) sr 0 = .ok out ∧
      out.length = buffer.length ∧
      ∀ j, j < buffer.length →
        out[j]? = if j % 2 = 0 then buffer[j]? else some 0) ∧
    channel_balancer_process [1, 1, 1, 1, 1, 1, 1, 1] 2 8 sr 0
      = .ok [1, 0, 1, 0, 1, 0, 1, 0] := by
  constructor
  · obtain ⟨out, hout, hspec⟩ :=
      channel_balancer_process_valid buffer 2 sr 0 hsr hns (le_refl 2) (le_refl 0) zero_le_one
    refine ⟨out, hout, length_eq_of_getElem?_map _ _ _ hspec, ?_⟩
    intro j hj
    have hg : computeGains (0 : K) = (1, 0) := by simp [computeGains]; norm_num
    have hjl : j < buffer.length := hj
    have hq : j / 2 < buffer.length / 2 := by omega
    rw [hspec, hg, List.getElem?_eq_getElem hjl]
    rcases Nat.mod_two_eq_zero_or_one j with h | h <;> simp [balancedAt, h, hq]
  · have h1 : ¬ (sr ≤ 0) := not_le.mpr hsr
    have hg : computeGains (0 : K) = (1, 0) := by simp [computeGains]; norm_num
    simp [channel_balancer_process, h1, hg, balancerLoop, loadAt, storeAt, bind, Except.bind]
    norm_num

theorem channel_balancer_process_frames_witness :
    ∃ out, channel_balancer_process [1, 2, 3, 4, 5, 6, 7] ((3 : Nat) : Int)
        (([1, 2, 3, 4, 5, 6, 7] : List ℚ).length : Int) (44100 : ℚ) (3 / 4) = .ok out ∧
      out.length = ([1, 2, 3, 4, 5, 6, 7] : List ℚ).length ∧
      (∀ f, f < ([1, 2, 3, 4, 5, 6, 7] : List ℚ).length / 3 →
        f * 3 + 1 < ([1, 2, 3, 4, 5, 6, 7] : List ℚ).length ∧
        out[f * 3]? = (([1, 2, 3, 4, 5, 6, 7] : List ℚ)[f * 3]?).map
          (fun v => v * (computeGains (3 / 4 : ℚ)).1) ∧
        out[f * 3 + 1]? = (([1, 2, 3, 4, 5, 6, 7] : List ℚ)[f * 3 + 1]?).map
          (fun v => v * (computeGains (3 / 4 : ℚ)).2)) ∧
      (∀ j, (∀ f, f < ([1, 2, 3, 4, 5, 6, 7] : List ℚ).length / 3 →
          j ≠ f * 3 ∧ j ≠ f * 3 + 1) →
        out[j]? = ([1, 2, 3, 4, 5, 6, 7] : List ℚ)[j]?) :=
  channel_balancer_process_frames [1, 2, 3, 4, 5, 6, 7] 3 (44100 : ℚ) (3 / 4)
    (by norm_num) (by decide) (by decide) (by norm_num) (by norm_num)

theorem channel_balancer_process_hard_left_witness :
    (∃ out, channel_balancer_process [3, 5, 7, 9] 2
        (([3, 5, 7, 9] : List ℚ).length : Int) (48000 : ℚ) 0 = .ok out ∧
      out.length = ([3, 5, 7, 9] : List ℚ).length ∧
      ∀ j, j < ([3, 5, 7, 9] : List ℚ).length →
        out[j]? = if j % 2 = 0 then ([3, 5, 7, 9] : List ℚ)[j]? else some 0) ∧
    channel_balancer_process [1, 1, 1, 1, 1, 1, 1, 1] 2 8 (48000 : ℚ) 0
      = .ok [1, 0, 1, 0, 1, 0, 1, 0] :=
  channel_balancer_process_hard_left [3, 5, 7, 9] (48000 : ℚ) (by norm_num) (by decide)
    (by decide)

/-- C2: `computeGains p`, with `x = p - 0.5`, is `(1, 1 + 2x)` when `x < 0` and
`(1 - 2x, 1)` otherwise; at `0`, `1` and `0.5` it is `(1, 0)`, `(0, 1)` and `(1, 1)`. -/
theorem computeGains_spec (p : K) :
    computeGains p =
      (if p - 1 / 2 < 0 then (1, 1 + 2 * (p - 1 / 2)) else (1 - 2 * (p - 1 / 2), 1)) ∧
    computeGains (0 : K) = (1, 0) ∧ computeGains (1 : K) = (0, 1) ∧
    computeGains (1 / 2 : K) = (1, 1) := by
  refine ⟨?_, ?_, ?_, ?_⟩
  · simp only [computeGains]; norm_num
  · simp [computeGains]; norm_num
  · simp [computeGains]; norm_num
  · simp [computeGains]; norm_num

/-- C8: `channel_balancer_process` returns the buffer unmodified whenever the sample
rate is not positive, the sample count is not positive, the frame count
`numSamples / numChannels` is not positive, there is exactly one channel, or the
preference lies outside `[0, 1]`. -/
theorem channel_balancer_process_noop (buffer : List K) (numChannels numSamples : Int)
    (sampleRate preference : K)
    (h : sampleRate ≤ 0 ∨ numSamples ≤ 0 ∨
      (numChannels ≠ 0 ∧ Int.tdiv numSamples numChannels ≤ 0) ∨ numChannels = 1 ∨
      preference < 0 ∨ 1 < preference) :
    channel_balancer_process buffer numChannels numSamples sampleRate preference
      = .ok buffer := by
  unfold channel_balancer_process
  by_cases h1 : sampleRate ≤ 0 ∨ numSamples ≤ 0
  · rw [if_pos h1]
  · rw [if_neg h1]
    by_cases h2 : numChannels = 1
    · rw [if_pos h2]
    · rw [if_neg h2]
      by_cases h3 : preference < 0.0 ∨ preference > 1.0
      · rw [if_pos h3]
      · rw [if_neg h3]
        rcases h with h | h | h | h | h | h
        · exact absurd (Or.inl h) h1
        · exact absurd (Or.inr h) h1
        · have h5 : (Int.tdiv numSamples numChannels).toNat = 0 := by
            have := h.2
            omega
          simp only [if_neg h.1, h5, balancerLoop]
        · exact absurd h h2
        · exact absurd (Or.inl (by norm_num; exact h)) h3
        · exact absurd (Or.inr (by norm_num; exact h)) h3

theorem channel_balancer_process_noop_witness :
    ((44100 : ℚ) ≤ 0 ∨ (4 : Int) ≤ 0 ∨ ((2 : Int) ≠ 0 ∧ Int.tdiv 4 2 ≤ 0) ∨
      (2 : Int) = 1 ∨ (3 / 2 : ℚ) < 0 ∨ 1 < (3 / 2 : ℚ)) ∧
    channel_balancer_process [1, 2, 3, 4] 2 4 (44100 : ℚ) (3 / 2) = .ok [1, 2, 3, 4] :=
  ⟨by norm_num,
   channel_balancer_process_noop [1, 2, 3, 4] 2 4 (44100 : ℚ) (3 / 2) (by norm_num)⟩

end BalancerProofs

section EqualizerProofs

variable {K : Type} [LinearOrderedField K]

/-- The coefficient loop over the bands `i ≤ j < i + n` fills in `bandCoeffs` of the
gains it reads. -/
theorem coeffLoop_spec (m : Libm K) (Fs Q : K) (bandGains : List K) (G : Nat → K) :
    ∀ (n i : Nat) (acc : Nat → Biquad K),
      (∀ j, i ≤ j → j < i + n → bandGains[j]? = some (G j)) →
      coeffLoop m Fs Q bandGains n i acc
        = .ok (fun j => if i ≤ j ∧ j < i + n then bandCoeffs m Fs Q (G j) j else acc j) := by
  intro n
  induction n with
  | zero =>
    intro i acc _
    simp only [coeffLoop]
    congr 1; funext j
    rw [if_neg]; omega
  | succ n ih =>
    intro i acc h
    simp only [coeffLoop]
    rw [loadAt_natCast _ _ _ (h i (le_refl _) (by omega))]
    simp only [bind, Except.bind]
    rw [ih (i + 1) _ (fun j h1 h2 => h j (by omega) (by omega))]
    congr 1; funext j
    by_cases hj : j = i
    · subst hj; simp
    · by_cases h1 : i + 1 ≤ j ∧ j < i + 1 + n
      · rw [if_pos h1, if_pos (by omega)]
      · rw [if_neg h1, if_neg hj, if_neg (by omega)]

/-- At gain `0` dB and `Q = 0.707` every band normalises to a flat band: `A = 1`,
`b = a`, and `a0 > 0` because `sin ≥ -1` and `2 Q > 1`. -/
theorem bandCoeffs_flat (Fs : ℝ) (i : Nat) :
    (normalize (bandCoeffs realLibm Fs 0.707 0 i)).Flat := by
  have hA : realLibm.pow 10 (0.15 * 0) = 1 := by simp [realLibm]
  have hs : realLibm.sqrt 1 = 1 := by simp [realLibm]
  set w := (2.0 * PI * f0 i) / Fs with hw
  have hsin : -1 ≤ realLibm.sin w := Real.neg_one_le_sin w
  have hpos : 0 < 1 + realLibm.sin w / (2.0 * 0.707) := by
    have : realLibm.sin w / (2.0 * 0.707) ≥ -1 / (2.0 * 0.707) := by
      apply div_le_div_of_nonneg_right hsin; norm_num
    have h2 : (-1 : ℝ) / (2.0 * 0.707) > -1 := by norm_num
    linarith
  simp only [bandCoeffs, hA, hs, ← hw]
  split_ifs with h0 h9
  · simp only [normalize, NormBiquad.Flat]
    refine ⟨?_, ?_, ?_⟩
    · rw [div_eq_one_iff_eq (by nlinarith)]; ring
    · congr 1; ring
    · congr 1; ring
  · simp only [normalize, NormBiquad.Flat]
    refine ⟨?_, ?_, ?_⟩
    · rw [div_eq_one_iff_eq (by nlinarith)]; ring
    · congr 1; ring
    · congr 1; ring
  · simp only [normalize, NormBiquad.Flat]
    refine ⟨?_, ?_, ?_⟩
    · rw [div_eq_one_iff_eq (by simp only [div_one, mul_one]; linarith)]; simp
    · trivial
    · simp

end EqualizerProofs

section LimiterProofs

variable {K : Type} [LinearOrderedField K]

/-- The peak detector over the channels `c ≤ ch < c + n` of the frame at index `s`
returns the largest of the start value and the absolute values it reads. -/
theorem peakLoop_spec (data : List K) (s : Nat) :
    ∀ (n c : Nat) (p : K), s + c + n ≤ data.length →
      ∃ peak, peakLoop data (s : Int) n (c : Int) p = .ok peak ∧ p ≤ peak ∧
        (∀ ch, c ≤ ch → ch < c + n → ∀ v, data[s + ch]? = some v → |v| ≤ peak) ∧
        (peak = p ∨ ∃ ch, c ≤ ch ∧ ch < c + n ∧ ∃ v, data[s + ch]? = some v ∧ peak = |v|) := by
  intro n
  induction n with
  | zero =>
    intro c p _
    exact ⟨p, rfl, le_refl _, fun ch h1 h2 => by omega, Or.inl rfl⟩
  | succ n ih =>
    intro c p hlen
    have hlt : s + c < data.length := by omega
    have e : ((s : Int) + (c : Int)) = ((s + c : Nat) : Int) := by push_cast; ring
    have e1 : ((c : Int) + 1) = ((c + 1 : Nat) : Int) := by push_cast; ring
    obtain ⟨peak, hrun, hle, hall, hex⟩ := ih (c + 1)
      (if |data[s + c]| > p then |data[s + c]| else p) (by omega)
    have hp : p ≤ peak ∧ |data[s + c]| ≤ peak := by
      split_ifs at hle with h
      · exact ⟨le_trans (le_of_lt h) hle, hle⟩
      · exact ⟨hle, le_trans (not_lt.mp h) hle⟩
    refine ⟨peak, ?_, hp.1, ?_, ?_⟩
    · simp only [peakLoop]
      rw [e, loadAt_natCast _ _ _ (List.getElem?_eq_getElem hlt)]
      simp only [bind, Except.bind]
      rw [e1]; exact hrun
    · intro ch h1 h2 v hv
      by_cases hch : ch = c
      · subst hch
        rw [List.getElem?_eq_getElem hlt] at hv
        cases hv; exact hp.2
      · exact hall ch (by omega) (by omega) v hv
    · rcases hex with h | ⟨ch, h1, h2, v, hv, hpk⟩
      · split_ifs at h with hgt
        · exact Or.inr ⟨c, le_refl _, by omega, _, List.getElem?_eq_getElem hlt, h⟩
        · exact Or.inl h
      · exact Or.inr ⟨ch, by omega, by omega, v, hv, hpk⟩

/-- The delay line exchange over the channels `c ≤ ch < c + n`: each output is the
cell at `rp` times the gain, each input lands in the cell at `wp`, nothing else
changes. -/
theorem delayLoop_spec (rp wp : Int) (hrp : 0 ≤ rp ∧ rp < 4096) (hwp : 0 ≤ wp ∧ wp < 4096)
    (g : K) (s : Nat) :
    ∀ (n c : Nat) (db : Nat → Nat → K) (data : List K),
      c + n ≤ 8 → s + c + n ≤ data.length →
      ∃ db' data', delayLoop rp wp g (s : Int) n (c : Int) db data = .ok (db', data') ∧
        data'.length = data.length ∧
        (∀ j, j < s + c ∨ s + c + n ≤ j → data'[j]? = data[j]?) ∧
        (∀ ch, c ≤ ch → ch < c + n → data'[s + ch]? = some (db ch rp.toNat * g)) ∧
        (∀ ch q, ¬ (c ≤ ch ∧ ch < c + n ∧ q = wp.toNat) → db' ch q = db ch q) ∧
        (∀ ch, c ≤ ch → ch < c + n → data[s + ch]? = some (db' ch wp.toNat)) := by
  intro n
  induction n with
  | zero =>
    intro c db data _ _
    exact ⟨db, data, rfl, rfl, fun _ _ => rfl, fun ch h1 h2 => by omega, fun _ _ _ => rfl,
      fun ch h1 h2 => by omega⟩
  | succ n ih =>
    intro c db data hc hlen
    have hlt : s + c < data.length := by omega
    have e : ((s : Int) + (c : Int)) = ((s + c : Nat) : Int) := by push_cast; ring
    have e1 : ((c : Int) + 1) = ((c + 1 : Nat) : Int) := by push_cast; ring
    have hcond : ∀ pos : Int, 0 ≤ pos ∧ pos < 4096 →
        (0 ≤ (c : Int) ∧ (c : Int) < MAX_CHANNELS ∧ 0 ≤ pos ∧ pos < MAX_LOOKAHEAD_SAMPLES) := by
      intro pos hpos
      simp only [MAX_CHANNELS, MAX_LOOKAHEAD_SAMPLES]
      omega
    obtain ⟨db', data', hrun, hl, hout, hin, hdb, hdbw⟩ := ih (c + 1)
      (fun ch q => if ch = c ∧ q = wp.toNat then data[s + c] else db ch q)
      (data.set (s + c) (db c rp.toNat * g)) (by omega) (by simp; omega)
    refine ⟨db', data', ?_, ?_, ?_, ?_, ?_, ?_⟩
    · simp only [delayLoop, delayLoad, delayStore, if_pos (hcond rp hrp), if_pos (hcond wp hwp)]
      rw [e, loadAt_natCast _ _ _ (List.getElem?_eq_getElem hlt)]
      simp only [bind, Except.bind, Int.toNat_ofNat]
      rw [storeAt_natCast _ _ _ hlt]
      simp only []
      rw [e1]; exact hrun
    · simpa using hl
    · intro j hj
      rw [hout j (by omega), List.getElem?_set_ne (by omega)]
    · intro ch h1 h2
      by_cases hch : ch = c
      · subst hch
        rw [hout (s + ch) (by omega), List.getElem?_set_self hlt]
      · rw [hin ch (by omega) (by omega)]
        simp [hch]
    · intro ch q hnot
      rw [hdb ch q (by omega)]
      have : ¬ (ch = c ∧ q = wp.toNat) := by omega
      simp only [this, if_false]
    · intro ch h1 h2
      by_cases hch : ch = c
      · subst hch
        rw [hdb ch wp.toNat (by omega)]
        simp [List.getElem?_eq_getElem hlt]
      · rw [← hdbw ch (by omega) (by omega), List.getElem?_set_ne (by omega)]

/-- One frame inside the buffer, from a state with cursor and lookahead inside the
delay line, returns normally and meets `FrameSpec`. -/
theorem limiterFrame_spec (c : Nat) (hc8 : c ≤ 8) (T a r : K) (f : Nat)
    (st : LimiterState K) (data : List K) (hlen : f * c + c ≤ data.length)
    (hwp : 0 ≤ st.write_pos ∧ st.write_pos < 4096)
    (hL : 0 ≤ st.current_lookahead_samples ∧ st.current_lookahead_samples < 4096) :
    ∃ st' data', limiterFrame (c : Int) T a r ((f * c : Nat) : Int) st data = .ok (st', data') ∧
      FrameSpec c f T a r st data st' data' := by
  obtain ⟨peak, hpk, -, hall, hex⟩ := peakLoop_spec data (f * c) c 0 (0.0 : K) (by omega)
  have hpeak : IsFramePeak data c f peak := by
    constructor
    · intro ch hch v hv
      exact hall ch (Nat.zero_le _) (by omega) v hv
    · rcases hex with h | ⟨ch, -, h2, v, hv, hp⟩
      · left; rw [h]; norm_num
      · exact Or.inr ⟨ch, by omega, v, hv, hp⟩
  have hsum : 0 ≤ st.write_pos - st.current_lookahead_samples + 4096 := by omega
  have hrpe : Int.tmod (st.write_pos - st.current_lookahead_samples + 4096) 4096
      = (st.write_pos - st.current_lookahead_samples + 4096) % 4096 :=
    Int.tmod_eq_emod hsum (by norm_num)
  have hrp : 0 ≤ (st.write_pos - st.current_lookahead_samples + 4096) % 4096 ∧
      (st.write_pos - st.current_lookahead_samples + 4096) % 4096 < 4096 := by omega
  have hwp1 : Int.tmod (st.write_pos + 1) 4096 = (st.write_pos + 1) % 4096 :=
    Int.tmod_eq_emod (by omega) (by norm_num)
  obtain ⟨db', data', hrun, hl', hout, hin, hdb, hdbw⟩ := delayLoop_spec
    ((st.write_pos - st.current_lookahead_samples + 4096) % 4096) st.write_pos
    hrp hwp (smoothGain T a r peak st.current_gain) (f * c) c 0 st.delay_buffer data
    (by omega) (by omega)
  have e0 : ((0 : Nat) : Int) = 0 := rfl
  rw [e0] at hpk hrun
  refine ⟨{ st with
      current_gain := smoothGain T a r peak st.current_gain
      delay_buffer := db'
      write_pos := Int.tmod (st.write_pos + 1) 4096 }, data', ?_,
    ⟨⟨peak, hpeak, rfl⟩, ?_, rfl, rfl, hl', ?_, ?_, ?_, ?_⟩⟩
  · simp only [limiterFrame, Int.toNat_ofNat, MAX_LOOKAHEAD_SAMPLES, hpk, bind, Except.bind,
      hrpe, hrun]
  · exact hwp1
  · intro j hj; exact hout j (by omega)
  · intro ch hch; exact hin ch (Nat.zero_le _) (by omega)
  · intro ch q hnot; exact hdb ch q (by omega)
  · intro ch hch; exact hdbw ch (Nat.zero_le _) (by omega)

/-- Invariant rule for the main loop: an invariant `Inv` kept by every frame holds
after the loop; the loop returns given fuel for the remaining `n` frames, keeps the
lookahead length, advances the cursor by `n` modulo `4096`, and records one gain per
frame. -/
theorem limiterFrameLoop_inv (c : Nat) (hc1 : 1 ≤ c) (hc8 : c ≤ 8) (T a r : K) (F : Nat)
    (Inv : Nat → LimiterState K → List K → Prop)
    (hstep : ∀ f st data st' data', f < F → Inv f st data →
      FrameSpec c f T a r st data st' data' → Inv (f + 1) st' data') :
    ∀ (n k fuel : Nat) (st : LimiterState K) (data log : List K),
      k + n = F → n < fuel → data.length = F * c →
      (0 ≤ st.write_pos ∧ st.write_pos < 4096) →
      (0 ≤ st.current_lookahead_samples ∧ st.current_lookahead_samples < 4096) →
      Inv k st data →
      ∃ run, limiterFrameLoop (c : Int) ((F * c : Nat) : Int) T a r fuel
          ((k * c : Nat) : Int) st data log = .ok run ∧
        run.data.length = F * c ∧
        run.state.current_lookahead_samples = st.current_lookahead_samples ∧
        run.state.state_initialized = st.state_initialized ∧
        run.state.write_pos = (st.write_pos + n) % 4096 ∧
        Inv F run.state run.data ∧
        ∃ gs, run.gains = log ++ gs ∧ gs.length = n ∧
          ∀ j, j < n → ∃ st' data', gs[j]? = some st'.current_gain ∧
            Inv (k + j + 1) st' data' := by
  intro n
  induction n with
  | zero =>
    intro k fuel st data log hk hfuel hlen hwp _ hinv
    obtain ⟨fuel, rfl⟩ : ∃ f, fuel = f + 1 := ⟨fuel - 1, by omega⟩
    have hkF : k = F := by omega
    have : ¬ (((k * c : Nat) : Int) < ((F * c : Nat) : Int)) := by
      subst hkF; simp
    refine ⟨⟨st, data, log⟩, by simp only [limiterFrameLoop, if_neg this], hlen, rfl, rfl,
      ?_, hkF ▸ hinv, [], by simp, rfl, fun j hj => by omega⟩
    show st.write_pos = (st.write_pos + ((0 : Nat) : Int)) % 4096
    omega
  | succ n ih =>
    intro k fuel st data log hk hfuel hlen hwp hL hinv
    obtain ⟨fuel, rfl⟩ : ∃ f, fuel = f + 1 := ⟨fuel - 1, by omega⟩
    have hkF : k < F := by omega
    have hkc : (k + 1) * c = k * c + c := by ring
    have hle : (k + 1) * c ≤ F * c := Nat.mul_le_mul_right c hkF
    have hlt : ((k * c : Nat) : Int) < ((F * c : Nat) : Int) := by
      have : k * c < F * c := by omega
      exact_mod_cast this
    obtain ⟨st', data', hframe, hspec⟩ := limiterFrame_spec c hc8 T a r k st data
      (by omega) hwp hL
    have hinv' : Inv (k + 1) st' data' := hstep k st data st' data' hkF hinv hspec
    obtain ⟨run, hrun', h1, h2, h3, h4, h5, gs, hg1, hg2, hg3⟩ := ih (k + 1) fuel st' data'
      (log ++ [st'.current_gain]) (by omega) (by omega) (by rw [hspec.length, hlen])
      (by rw [hspec.write_pos]; omega) (by rw [hspec.lookahead]; exact hL) hinv'
    refine ⟨run, ?_, h1, by rw [h2, hspec.lookahead], by rw [h3, hspec.initialized], ?_, h5,
      st'.current_gain :: gs, ?_, ?_, ?_⟩
    · simp only [limiterFrameLoop, if_pos hlt, hframe, bind, Except.bind]
      have e : ((k * c : Nat) : Int) + (c : Int) = (((k + 1) * c : Nat) : Int) := by
        push_cast; ring
      rw [e]; exact hrun'
    · rw [h4, hspec.write_pos]; push_cast; omega
    · rw [hg1]; simp
    · simp [hg2]
    · intro j hj
      cases j with
      | zero => exact ⟨st', data', by simp, hinv'⟩
      | succ j =>
        obtain ⟨s2, d2, hg, hi⟩ := hg3 j (by omega)
        refine ⟨s2, d2, by simpa using hg, ?_⟩
        have : k + (j + 1) + 1 = k + 1 + j + 1 := by omega
        rw [this]; exact hi

end LimiterProofs

section LimiterContracts

variable {K : Type} [LinearOrderedField K]

/-- A frame at or below the threshold keeps a gain of `1`. -/
theorem smoothGain_quiet_one (T a r peak : K) (h : peak ≤ T) :
    smoothGain T a r peak 1 = 1 := by
  have h1 : ¬ (peak > T) := not_lt.mpr h
  simp only [smoothGain, if_neg h1]
  norm_num

/-- The peak of a frame depends only on the samples of that frame. -/
theorem IsFramePeak_congr (d d' : List K) (c f : Nat) (peak : K)
    (h : ∀ ch, ch < c → d[f * c + ch]? = d'[f * c + ch]?) :
    IsFramePeak d c f peak ↔ IsFramePeak d' c f peak := by
  constructor
  · rintro ⟨h1, h2⟩
    refine ⟨fun ch hch v hv => h1 ch hch v (by rw [h ch hch]; exact hv), ?_⟩
    rcases h2 with h2 | ⟨ch, hch, v, hv, hp⟩
    · exact Or.inl h2
    · exact Or.inr ⟨ch, hch, v, by rw [← h ch hch]; exact hv, hp⟩
  · rintro ⟨h1, h2⟩
    refine ⟨fun ch hch v hv => h1 ch hch v (by rw [← h ch hch]; exact hv), ?_⟩
    rcases h2 with h2 | ⟨ch, hch, v, hv, hp⟩
    · exact Or.inl h2
    · exact Or.inr ⟨ch, hch, v, by rw [h ch hch]; exact hv, hp⟩

/-- The clamped lookahead length lies in `[0, 4096)`. -/
theorem lookaheadSamples_range [FloorRing K] (la sr : K) :
    0 ≤ lookaheadSamples la sr ∧ lookaheadSamples la sr < 4096 := by
  simp only [lookaheadSamples, MAX_LOOKAHEAD_SAMPLES]
  split_ifs <;> omega

/-- For a floor that fits `int`, or lies below its range, the conversion and the two
clamping `if`s compute `max 0 (min 4095 ·)` of the floor. -/
theorem lookaheadSamples_eq [FloorRing K] (la sr : K)
    (h : ⌊la * sr / 1000⌋ ≤ 2147483647) :
    lookaheadSamples la sr = max 0 (min 4095 ⌊la * sr / 1000⌋) := by
  have e : (1000.0 : K) = 1000 := by norm_num
  simp only [lookaheadSamples, doubleToInt, INT_MIN, INT_MAX, MAX_LOOKAHEAD_SAMPLES, e]
  split_ifs <;> omega

/-- For a floor above the range of `int` the conversion gives `INT_MIN` and the first
clamping `if` makes the length `0`. -/
theorem lookaheadSamples_overflow [FloorRing K] (la sr : K)
    (h : 2147483647 < ⌊la * sr / 1000⌋) : lookaheadSamples la sr = 0 := by
  have e : (1000.0 : K) = 1000 := by norm_num
  simp only [lookaheadSamples, doubleToInt, INT_MIN, INT_MAX, MAX_LOOKAHEAD_SAMPLES, e]
  split_ifs <;> omega

/-- The call with valid parameters runs the frame loop from the selected state. -/
theorem limiter_processData_valid [FloorRing K] (m : Libm K) (fuel : Nat)
    (st : LimiterState K) (data : List K) (nc ns : Int) (sr att rel th la : K)
    (hsr : 0 < sr) (hrel : 0 < rel) (hnc : nc ≤ 8) :
    limiter_processData m fuel st data nc ns sr att rel th la
      = limiterFrameLoop nc ns (m.pow 10.0 (th / 20.0))
          (if att > 0.0 then m.exp (-1.0 / (att * sr / 1000.0)) else 0.0)
          (m.exp (-1.0 / (rel * sr / 1000.0))) fuel 0
          (if !st.state_initialized || lookaheadSamples la sr != st.current_lookahead_samples
            then LimiterState.reset (lookaheadSamples la sr) else st) data [] := by
  have h1 : ¬ (sr ≤ 0 ∨ rel ≤ 0) := by push_neg; exact ⟨hsr, hrel⟩
  have h2 : ¬ (nc > MAX_CHANNELS) := by simp only [MAX_CHANNELS]; omega
  simp only [limiter_processData, if_neg h1, if_neg h2]

/-- C7: with invalid parameters (`samplerate ≤ 0`, or `release_ms ≤ 0`, or more than
eight channels) `limiter_processData` is a no-op for every buffer and every state: it
returns the buffer and the five static variables exactly as they were. -/
theorem limiter_processData_invalid [FloorRing K] (m : Libm K) (fuel : Nat)
    (st : LimiterState K) (data : List K) (numChannels numSamples : Int)
    (samplerate attack_ms release_ms threshold_db lookahead_ms : K)
    (h : samplerate ≤ 0 ∨ release_ms ≤ 0 ∨ numChannels > 8) :
    limiter_processData m fuel st data numChannels numSamples samplerate attack_ms
      release_ms threshold_db lookahead_ms = .ok ⟨st, data, []⟩ := by
  unfold limiter_processData
  by_cases h1 : samplerate ≤ 0 ∨ release_ms ≤ 0
  · rw [if_pos h1]
  · rw [if_neg h1]
    have h2 : numChannels > MAX_CHANNELS := by
      rcases h with h | h | h
      · exact absurd (Or.inl h) h1
      · exact absurd (Or.inr h) h1
      · exact h
    rw [if_pos h2]

/-- C6: reset on lookahead change. On a valid call from a state that was never
initialised, or whose stored lookahead length differs from the clamped new one, the
frame loop starts from the reset state (gain `1`, write cursor `0`, delay lines all
zero), and the call returns exactly the run (buffer, state, gains) that the same call
returns from the initial state. -/
theorem limiter_processData_reset [FloorRing K] (m : Libm K) (fuel : Nat)
    (st : LimiterState K) (data : List K) (c F : Nat)
    (samplerate attack_ms release_ms threshold_db lookahead_ms : K)
    (hsr : 0 < samplerate) (hrel : 0 < release_ms) (hc1 : 1 ≤ c) (hc8 : c ≤ 8)
    (hlen : data.length = F * c) (hfuel : F < fuel)
    (hchange : st.state_initialized = false ∨
      lookaheadSamples lookahead_ms samplerate ≠ st.current_lookahead_samples) :
    (∃ T a r, limiter_processData m fuel st data c ((F * c : Nat) : Int) samplerate
        attack_ms release_ms threshold_db lookahead_ms
      = limiterFrameLoop c ((F * c : Nat) : Int) T a r fuel 0
          (LimiterState.reset (lookaheadSamples lookahead_ms samplerate)) data []) ∧
    (LimiterState.reset (lookaheadSamples lookahead_ms samplerate) :
      LimiterState K).current_gain = 1 ∧
    (LimiterState.reset (lookaheadSamples lookahead_ms samplerate) :
      LimiterState K).write_pos = 0 ∧
    (∀ ch pos, (LimiterState.reset (lookaheadSamples lookahead_ms samplerate) :
      LimiterState K).delay_buffer ch pos = 0) ∧
    ∃ run, limiter_processData m fuel st data c ((F * c : Nat) : Int) samplerate
        attack_ms release_ms threshold_db lookahead_ms = .ok run ∧
      limiter_processData m fuel LimiterState.initial data c ((F * c : Nat) : Int) samplerate
        attack_ms release_ms threshold_db lookahead_ms = .ok run := by
  have hc8' : (c : Int) ≤ 8 := by exact_mod_cast hc8
  have hreset : (if !st.state_initialized ||
      lookaheadSamples lookahead_ms samplerate != st.current_lookahead_samples
      then LimiterState.reset (lookaheadSamples lookahead_ms samplerate) else st)
      = LimiterState.reset (lookaheadSamples lookahead_ms samplerate) := by
    rcases hchange with h | h
    · simp [h]
    · simp [h]
  have hinit : (if !(LimiterState.initial : LimiterState K).state_initialized ||
      lookaheadSamples lookahead_ms samplerate
        != (LimiterState.initial : LimiterState K).current_lookahead_samples
      then LimiterState.reset (lookaheadSamples lookahead_ms samplerate)
      else (LimiterState.initial : LimiterState K))
      = LimiterState.reset (lookaheadSamples lookahead_ms samplerate) := by
    simp [LimiterState.initial]
  have e1 := limiter_processData_valid m fuel st data c ((F * c : Nat) : Int) samplerate
    attack_ms release_ms threshold_db lookahead_ms hsr hrel hc8'
  have e2 := limiter_processData_valid m fuel LimiterState.initial data c
    ((F * c : Nat) : Int) samplerate attack_ms release_ms threshold_db lookahead_ms hsr hrel hc8'
  rw [hreset] at e1
  rw [hinit] at e2
  refine ⟨⟨_, _, _, e1⟩, ?_, rfl, fun _ _ => rfl, ?_⟩
  · simp [LimiterState.reset]; norm_num
  · obtain ⟨run, hrun, -⟩ := limiterFrameLoop_inv c hc1 hc8
      (m.pow 10.0 (threshold_db / 20.0))
      (if attack_ms > 0.0 then m.exp (-1.0 / (attack_ms * samplerate / 1000.0)) else 0.0)
      (m.exp (-1.0 / (release_ms * samplerate / 1000.0))) F (fun _ _ _ => True)
      (fun _ _ _ _ _ _ _ _ => trivial) F 0 fuel
      (LimiterState.reset (lookaheadSamples lookahead_ms samplerate)) data []
      (by omega) hfuel hlen (by simp [LimiterState.reset])
      (lookaheadSamples_range lookahead_ms samplerate) trivial
    simp only [Nat.zero_mul, Nat.cast_zero] at hrun
    exact ⟨run, e1.trans hrun, e2.trans hrun⟩

/-- The stored lookahead length. Every valid call, made on a state whose write cursor
lies inside the delay line, returns with the stored lookahead length equal to
`lookaheadSamples`. For a floor `⌊lookahead_ms * samplerate / 1000⌋` that fits `int`
this is the floor clamped to `[0, 4095]`: `0` when the product is negative and `4095`
when the floor is at least `4096`. For a floor above the range of `int` it is `0`. The
write cursor, which starts at `0`, is inside the delay line again after the call. -/
theorem limiter_lookahead_stored [FloorRing K] (m : Libm K) (fuel : Nat)
    (st : LimiterState K) (data : List K) (c F : Nat)
    (samplerate attack_ms release_ms threshold_db lookahead_ms : K)
    (hsr : 0 < samplerate) (hrel : 0 < release_ms) (hc1 : 1 ≤ c) (hc8 : c ≤ 8)
    (hlen : data.length = F * c) (hfuel : F < fuel)
    (hwp : 0 ≤ st.write_pos ∧ st.write_pos < 4096) :
    ∃ run, limiter_processData m fuel st data c ((F * c : Nat) : Int) samplerate
        attack_ms release_ms threshold_db lookahead_ms = .ok run ∧
      run.state.current_lookahead_samples = lookaheadSamples lookahead_ms samplerate ∧
      (⌊lookahead_ms * samplerate / 1000⌋ ≤ 2147483647 →
        run.state.current_lookahead_samples
          = max 0 (min 4095 ⌊lookahead_ms * samplerate / 1000⌋)) ∧
      (lookahead_ms * samplerate / 1000 < 0 → run.state.current_lookahead_samples = 0) ∧
      (4096 ≤ ⌊lookahead_ms * samplerate / 1000⌋ →
        ⌊lookahead_ms * samplerate / 1000⌋ ≤ 2147483647 →
        run.state.current_lookahead_samples = 4095) ∧
      (2147483647 < ⌊lookahead_ms * samplerate / 1000⌋ →
        run.state.current_lookahead_samples = 0) ∧
      (0 ≤ run.state.write_pos ∧ run.state.write_pos < 4096) := by
  have hc8' : (c : Int) ≤ 8 := by exact_mod_cast hc8
  have e1 := limiter_processData_valid m fuel st data c ((F * c : Nat) : Int) samplerate
    attack_ms release_ms threshold_db lookahead_ms hsr hrel hc8'
  have hst : ∃ st' : LimiterState K, (if !st.state_initialized ||
      lookaheadSamples lookahead_ms samplerate != st.current_lookahead_samples
      then LimiterState.reset (lookaheadSamples lookahead_ms samplerate) else st) = st' ∧
      (0 ≤ st'.write_pos ∧ st'.write_pos < 4096) ∧
      st'.current_lookahead_samples = lookaheadSamples lookahead_ms samplerate := by
    by_cases hcond : (!st.state_initialized ||
      lookaheadSamples lookahead_ms samplerate != st.current_lookahead_samples) = true
    · rw [if_pos hcond]
      exact ⟨_, rfl, by simp [LimiterState.reset], rfl⟩
    · rw [if_neg hcond]
      refine ⟨_, rfl, hwp, ?_⟩
      simp at hcond
      exact hcond.2.symm
  obtain ⟨st', hst', hwp', hL⟩ := hst
  rw [hst'] at e1
  obtain ⟨run, hrun, -, hrunL, -, hrunW, -⟩ := limiterFrameLoop_inv c hc1 hc8
    (m.pow 10.0 (threshold_db / 20.0))
    (if attack_ms > 0.0 then m.exp (-1.0 / (attack_ms * samplerate / 1000.0)) else 0.0)
    (m.exp (-1.0 / (release_ms * samplerate / 1000.0))) F (fun _ _ _ => True)
    (fun _ _ _ _ _ _ _ _ => trivial) F 0 fuel st' data []
    (by omega) hfuel hlen hwp'
    (by rw [hL]; exact lookaheadSamples_range lookahead_ms samplerate) trivial
  simp only [Nat.zero_mul, Nat.cast_zero] at hrun
  have hstored : run.state.current_lookahead_samples
      = lookaheadSamples lookahead_ms samplerate := by
    rw [hrunL, hL]
  have hval : ⌊lookahead_ms * samplerate / 1000⌋ ≤ 2147483647 →
      run.state.current_lookahead_samples
        = max 0 (min 4095 ⌊lookahead_ms * samplerate / 1000⌋) := by
    intro h
    rw [hstored, lookaheadSamples_eq _ _ h]
  refine ⟨run, e1.trans hrun, hstored, hval, ?_, ?_, ?_, ?_⟩
  · intro hneg
    have : ⌊lookahead_ms * samplerate / 1000⌋ < 0 := Int.floor_lt.mpr (by simpa using hneg)
    rw [hval (by omega)]; omega
  · intro hbig hfit
    rw [hval hfit]; omega
  · intro hover
    rw [hstored, lookaheadSamples_overflow _ _ hover]
  · rw [hrunW]; omega

end LimiterContracts

section LimiterReal

/-- Below the threshold and with a clamped lookahead length `L ≥ 1`, a call on the
initial state keeps the gain at `1` on every frame and returns the input delayed by
exactly `L` frames: output frame `f` is input frame `f - L` for `f ≥ L` and `0` before. -/
theorem limiter_below_threshold_delay (data : List ℝ) (c F fuel : Nat)
    (samplerate attack_ms release_ms threshold_db lookahead_ms : ℝ)
    (hsr : 0 < samplerate) (hrel : 0 < release_ms) (hc1 : 1 ≤ c) (hc8 : c ≤ 8)
    (hlen : data.length = F * c) (hfuel : F < fuel)
    (hL : 1 ≤ lookaheadSamples lookahead_ms samplerate)
    (hbelow : ∀ v, v ∈ data → |v| ≤ (10 : ℝ) ^ (threshold_db / 20)) :
    ∃ run, limiter_processData realLibm fuel LimiterState.initial data c
        ((F * c : Nat) : Int) samplerate attack_ms release_ms threshold_db lookahead_ms
        = .ok run ∧
      run.gains = List.replicate F 1 ∧
      ∀ f, f < F → ∀ ch, ch < c →
        run.data[f * c + ch]? =
          if (lookaheadSamples lookahead_ms samplerate).toNat ≤ f then
            data[(f - (lookaheadSamples lookahead_ms samplerate).toNat) * c + ch]?
          else some 0 := by
  have hc8' : (c : Int) ≤ 8 := by exact_mod_cast hc8
  have e1 := limiter_processData_valid realLibm fuel LimiterState.initial data c
    ((F * c : Nat) : Int) samplerate attack_ms release_ms threshold_db lookahead_ms hsr hrel hc8'
  have hinit : (if !(LimiterState.initial : LimiterState ℝ).state_initialized ||
      lookaheadSamples lookahead_ms samplerate
        != (LimiterState.initial : LimiterState ℝ).current_lookahead_samples
      then LimiterState.reset (lookaheadSamples lookahead_ms samplerate)
      else (LimiterState.initial : LimiterState ℝ))
      = LimiterState.reset (lookaheadSamples lookahead_ms samplerate) := by
    simp [LimiterState.initial]
  rw [hinit] at e1
  have hT : realLibm.pow 10.0 (threshold_db / 20.0) = (10 : ℝ) ^ (threshold_db / 20) := by
    simp only [realLibm]; norm_num
  have hTpos : (0 : ℝ) < (10 : ℝ) ^ (threshold_db / 20) := Real.rpow_pos_of_pos (by norm_num) _
  rw [hT] at e1
  obtain ⟨hL0, hL1⟩ := lookaheadSamples_range lookahead_ms samplerate
  obtain ⟨L, hLn⟩ : ∃ L : Nat, lookaheadSamples lookahead_ms samplerate = (L : Int) :=
    ⟨(lookaheadSamples lookahead_ms samplerate).toNat, (Int.toNat_of_nonneg hL0).symm⟩
  rw [hLn] at hL hL1 e1 ⊢
  simp only [Int.toNat_ofNat]
  have hLpos : 1 ≤ L := by exact_mod_cast hL
  have hLlt : L < 4096 := by exact_mod_cast hL1
  have hidx : ∀ j f ch, j < f → ch < c → j * c + ch < f * c := by
    intro j f ch hj hch
    have h1 : (j + 1) * c ≤ f * c := Nat.mul_le_mul_right c hj
    have h2 : (j + 1) * c = j * c + c := by ring
    omega
  obtain ⟨run, hrun, -, -, -, -, hfin, gs, hg1, hg2, hg3⟩ := limiterFrameLoop_inv c hc1 hc8
    ((10 : ℝ) ^ (threshold_db / 20))
    (if attack_ms > 0.0 then realLibm.exp (-1.0 / (attack_ms * samplerate / 1000.0)) else 0.0)
    (realLibm.exp (-1.0 / (release_ms * samplerate / 1000.0))) F
    (fun f st d => (∀ j, f * c ≤ j → d[j]? = data[j]?) ∧
      st.current_gain = 1 ∧ st.current_lookahead_samples = (L : Int) ∧
      st.write_pos = ((f % 4096 : Nat) : Int) ∧
      (∀ ch, ch < c → ∀ j, j < f → f ≤ j + 4096 →
        data[j * c + ch]? = some (st.delay_buffer ch (j % 4096))) ∧
      (∀ ch, ch < c → ∀ q, f ≤ q → q < 4096 → st.delay_buffer ch q = 0) ∧
      (∀ j, j < f → ∀ ch, ch < c →
        d[j * c + ch]? = if L ≤ j then data[(j - L) * c + ch]? else some 0))
    (by
      intro f st d st' d' hf hinv hspec
      obtain ⟨hA, hB, hC, hD, hE, hFz, hG⟩ := hinv
      obtain ⟨peak, hpeak, hgain⟩ := hspec.gain
      have hpeak' : IsFramePeak data c f peak := (IsFramePeak_congr d data c f peak
        (fun ch _ => hA _ (by omega))).mp hpeak
      have hpk : peak ≤ (10 : ℝ) ^ (threshold_db / 20) := by
        rcases hpeak'.2 with h | ⟨ch, hch, v, hv, hp⟩
        · rw [h]; exact le_of_lt hTpos
        · rw [hp]; exact hbelow v (List.getElem?_mem hv)
      have hg' : st'.current_gain = 1 := by
        rw [hgain, hB, smoothGain_quiet_one _ _ _ _ hpk]
      have hwpn : st.write_pos.toNat = f % 4096 := by rw [hD]; omega
      have hf1 : (f + 1) * c = f * c + c := by ring
      refine ⟨fun j hj => ?_, hg', by rw [hspec.lookahead, hC], ?_, ?_, ?_, ?_⟩
      · rw [hspec.outside j (by omega)]; exact hA j (by omega)
      · rw [hspec.write_pos, hD]; push_cast; omega
      · intro ch hch j hj hwin
        by_cases hjf : j = f
        · subst hjf
          rw [← hA _ (by omega), hspec.delay_store ch hch, hwpn]
        · have hne : j % 4096 ≠ f % 4096 := by omega
          rw [hspec.delay_keep ch (j % 4096) (by rw [hwpn]; omega)]
          exact hE ch hch j (by omega) (by omega)
      · intro ch hch q hq hq'
        rw [hspec.delay_keep ch q (by rw [hwpn]; omega)]
        exact hFz ch hch q (by omega) hq'
      · intro j hj ch hch
        by_cases hjf : j = f
        · subst hjf
          rw [hspec.output ch hch, hg', mul_one, hC, hD]
          by_cases hLj : L ≤ j
          · rw [if_pos hLj]
            have hrp : ((((j % 4096 : Nat) : Int) - (L : Int) + 4096) % 4096).toNat
                = (j - L) % 4096 := by omega
            rw [hrp]
            exact (hE ch hch (j - L) (by omega) (by omega)).symm
          · rw [if_neg hLj]
            have hrp : j ≤ ((((j % 4096 : Nat) : Int) - (L : Int) + 4096) % 4096).toNat ∧
                ((((j % 4096 : Nat) : Int) - (L : Int) + 4096) % 4096).toNat < 4096 := by
              omega
            rw [hFz ch hch _ hrp.1 hrp.2]
        · have hlt : j < f := by omega
          rw [hspec.outside _ (Or.inl (hidx j f ch hlt hch))]
          exact hG j hlt ch hch)
    F 0 fuel (LimiterState.reset (L : Int)) data []
    (by omega) hfuel hlen (by simp [LimiterState.reset])
    (by simp only [LimiterState.reset]; omega)
    ⟨fun _ _ => rfl, by simp [LimiterState.reset]; norm_num, rfl, by simp [LimiterState.reset],
      fun _ _ j hj => by omega, fun _ _ _ _ _ => rfl, fun j hj => by omega⟩
  simp only [Nat.zero_mul, Nat.cast_zero] at hrun
  simp only [List.nil_append] at hg1
  refine ⟨run, e1.trans hrun, ?_, fun f hf ch hch => hfin.2.2.2.2.2.2 f hf ch hch⟩
  rw [hg1]
  apply List.ext_getElem?
  intro j
  by_cases hj : j < F
  · obtain ⟨s2, d2, hg, hi⟩ := hg3 j hj
    rw [hg, hi.2.1]
    simp [List.getElem?_replicate, hj]
  · rw [List.getElem?_eq_none (by omega), List.getElem?_eq_none (by simp; omega)]

/-- C4 at lookahead `0`: on the initial state the one sample buffer `[1 / 2]`, below
the threshold `10 ^ (0 / 20) = 1`, comes back as `[0]` with gain `1`, not as the input
delayed by `0` frames: the delayed sample is read at `read_pos = write_pos` before the
current sample is stored there. -/
theorem limiter_zero_lookahead_silence :
    (limiter_processData realLibm 2 LimiterState.initial [1 / 2] 1 1 44100 1 50 0 0).map
      (fun run => (run.data, run.gains)) = .ok ([0], [1]) := by
  have h1 : ¬ ((44100 : ℝ) ≤ 0 ∨ (50 : ℝ) ≤ 0) := by norm_num
  have hL : lookaheadSamples (0 : ℝ) 44100 = 0 := by
    simp [lookaheadSamples, doubleToInt, INT_MIN, INT_MAX, MAX_LOOKAHEAD_SAMPLES]
  simp [limiter_processData, h1, MAX_CHANNELS, hL, LimiterState.initial, LimiterState.reset,
    limiterFrameLoop, limiterFrame, peakLoop, delayLoop, delayLoad, delayStore, loadAt, storeAt,
    MAX_LOOKAHEAD_SAMPLES, bind, Except.bind, Except.map]
  have e : (1.0 : ℝ) = 1 := by norm_num
  rw [e]
  apply smoothGain_quiet_one
  have h2 : |(2 : ℝ)⁻¹| = 2⁻¹ := abs_of_pos (by norm_num)
  rw [h2]
  simp only [realLibm]
  norm_num

/-- The delay of one frame on a three sample buffer. -/
theorem limiter_below_threshold_delay_example :
    ∃ run, limiter_processData realLibm 4 LimiterState.initial [1 / 4, 1 / 2, 1 / 3]
        ((1 : Nat) : Int) ((3 * 1 : Nat) : Int) 1000 1 50 0 1 = .ok run ∧
      run.gains = List.replicate 3 1 ∧
      ∀ f, f < 3 → ∀ ch, ch < 1 →
        run.data[f * 1 + ch]? =
          if (lookaheadSamples (1 : ℝ) 1000).toNat ≤ f then
            ([1 / 4, 1 / 2, 1 / 3] : List ℝ)[(f - (lookaheadSamples (1 : ℝ) 1000).toNat) * 1
              + ch]?
          else some 0 :=
  limiter_below_threshold_delay [1 / 4, 1 / 2, 1 / 3] 1 3 4 1000 1 50 0 1
    (by norm_num) (by norm_num) (by decide) (by decide) (by rfl) (by decide)
    (by rw [lookaheadSamples_eq _ _ (by norm_num)]; norm_num)
    (by
      intro v hv
      simp only [List.mem_cons, List.mem_singleton, List.not_mem_nil, or_false] at hv
      rcases hv with h | h | h <;> subst h <;> rw [abs_of_pos (by norm_num)] <;> norm_num)

theorem limiter_processData_invalid_witness :
    ((44100 : ℝ) ≤ 0 ∨ (50 : ℝ) ≤ 0 ∨ (9 : Int) > 8) ∧
    limiter_processData realLibm 5 LimiterState.initial [1, 2, 3] 9 3 44100 1 50 0 1
      = .ok ⟨LimiterState.initial, [1, 2, 3], []⟩ :=
  ⟨Or.inr (Or.inr (by decide)),
   limiter_processData_invalid realLibm 5 LimiterState.initial [1, 2, 3] 9 3 44100 1 50 0 1
    (Or.inr (Or.inr (by decide)))⟩

theorem limiter_processData_reset_witness :
    ∃ run, limiter_processData realLibm 3 ⟨1 / 2, fun _ _ => 7, 3, 100, true⟩ [1, 2]
        ((1 : Nat) : Int) ((2 * 1 : Nat) : Int) 1000 1 50 0 1 = .ok run ∧
      limiter_processData realLibm 3 LimiterState.initial [1, 2]
        ((1 : Nat) : Int) ((2 * 1 : Nat) : Int) 1000 1 50 0 1 = .ok run :=
  (limiter_processData_reset realLibm 3 ⟨1 / 2, fun _ _ => 7, 3, 100, true⟩ [1, 2] 1 2
    1000 1 50 0 1 (by norm_num) (by norm_num) (by decide) (by decide) (by rfl) (by decide)
    (Or.inr (by
      have : lookaheadSamples (1 : ℝ) 1000 = 1 := by
        rw [lookaheadSamples_eq _ _ (by norm_num)]; norm_num
      rw [this]; decide))).2.2.2.2

/-- A lookahead of `5000` samples is stored as `4095`. -/
theorem limiter_lookahead_stored_example :
    ∃ run, limiter_processData realLibm 3 LimiterState.initial [1 / 4, 1 / 4]
        ((1 : Nat) : Int) ((2 * 1 : Nat) : Int) 1000 1 50 0 5000 = .ok run ∧
      run.state.current_lookahead_samples = 4095 := by
  obtain ⟨run, hrun, -, -, -, h, -⟩ := limiter_lookahead_stored realLibm 3
    LimiterState.initial [1 / 4, 1 / 4] 1 2 1000 1 50 0 5000 (by norm_num) (by norm_num)
    (by decide) (by decide) (by rfl) (by decide) (by simp [LimiterState.initial])
  exact ⟨run, hrun, h (by norm_num) (by norm_num)⟩

/-- C9 at a product beyond the range of `int`: with `lookahead_ms = 2147483648` and
`samplerate = 1000` the floor is `2147483648`, which is at least `4096`, and a valid
call on the initial state stores the lookahead length `0`, not `4095`: the conversion
to `int` comes before the clamp and its result there is `INT_MIN`. -/
theorem limiter_lookahead_overflow :
    4096 ≤ ⌊(2147483648 : ℝ) * 1000 / 1000⌋ ∧
    ∃ run, limiter_processData realLibm 2 LimiterState.initial [1 / 4]
        ((1 : Nat) : Int) ((1 * 1 : Nat) : Int) 1000 1 50 0 2147483648 = .ok run ∧
      run.state.current_lookahead_samples = 0 ∧
      run.state.current_lookahead_samples ≠ 4095 := by
  obtain ⟨run, hrun, -, -, -, -, h, -⟩ := limiter_lookahead_stored realLibm 2
    LimiterState.initial [1 / 4] 1 1 1000 1 50 0 2147483648 (by norm_num) (by norm_num)
    (by decide) (by decide) (by rfl) (by decide) (by simp [LimiterState.initial])
  have hz := h (by norm_num)
  exact ⟨by norm_num, run, hrun, hz, by rw [hz]; decide⟩

end LimiterReal

section BalancerCenter

variable {K : Type} [LinearOrderedField K]

/-- C11, amended: with preference `0.5`, for every buffer of at least `numSamples`
samples, every channel count other than `0`, every sample count and every sample
rate, `channel_balancer_process` returns the input buffer; hence applying it twice
equals applying it once. -/
theorem channel_balancer_process_center (buffer : List K) (numChannels numSamples : Int)
    (sampleRate : K) (hnc : numChannels ≠ 0) (hlen : numSamples ≤ (buffer.length : Int)) :
    channel_balancer_process buffer numChannels numSamples sampleRate (1 / 2) = .ok buffer ∧
    (channel_balancer_process buffer numChannels numSamples sampleRate (1 / 2) >>=
        fun out => channel_balancer_process out numChannels numSamples sampleRate (1 / 2))
      = channel_balancer_process buffer numChannels numSamples sampleRate (1 / 2) := by
  have key : ∀ buf : List K, numSamples ≤ (buf.length : Int) →
      channel_balancer_process buf numChannels numSamples sampleRate (1 / 2) = .ok buf := by
    intro buf hl
    unfold channel_balancer_process
    by_cases h1 : sampleRate ≤ 0 ∨ numSamples ≤ 0
    · rw [if_pos h1]
    rw [if_neg h1]
    by_cases h2 : numChannels = 1
    · rw [if_pos h2]
    rw [if_neg h2]
    have h3 : ¬ ((1 / 2 : K) < 0.0 ∨ (1 / 2 : K) > 1.0) := by norm_num
    rw [if_neg h3]
    have hg : computeGains (1 / 2 : K) = (1, 1) := by simp [computeGains]; norm_num
    simp only [if_neg hnc, hg]
    push_neg at h1
    by_cases hneg : numChannels < 0
    · have : Int.tdiv numSamples numChannels ≤ 0 :=
        Int.tdiv_nonpos (le_of_lt h1.2) (le_of_lt hneg)
      have h0 : (Int.tdiv numSamples numChannels).toNat = 0 := by omega
      rw [h0]; rfl
    · obtain ⟨c, hc⟩ : ∃ c : Nat, numChannels = (c : Int) :=
        ⟨numChannels.toNat, by omega⟩
      obtain ⟨s, hs⟩ : ∃ s : Nat, numSamples = (s : Int) :=
        ⟨numSamples.toNat, by omega⟩
      subst hc hs
      have hc2 : 2 ≤ c := by omega
      have hfr : (Int.tdiv (s : Int) (c : Int)).toNat = s / c := by
        rw [Int.tdiv_eq_ediv (by omega) (by omega)]
        norm_cast
      rw [hfr]
      obtain ⟨out, hout, hspec⟩ := balancerLoop_spec c hc2 (1 : K) 1 (s / c) 0 buf
        (by rw [Nat.zero_add]
            have := Nat.div_mul_le_self s c
            omega)
      have e0 : ((0 : Nat) : Int) = 0 := rfl
      rw [e0] at hout
      rw [hout]
      congr 1
      apply List.ext_getElem?
      intro j
      rw [hspec j]
      cases buf[j]? with
      | none => rfl
      | some v => simp [balancedAt]
  have h := key buffer hlen
  refine ⟨h, ?_⟩
  rw [h]
  exact key buffer hlen

theorem channel_balancer_process_center_witness :
    channel_balancer_process ([1, 2, 3, 4, 5] : List ℚ) 2 5 44100 (1 / 2)
      = .ok [1, 2, 3, 4, 5] ∧
    (channel_balancer_process ([1, 2, 3, 4, 5] : List ℚ) 2 5 44100 (1 / 2) >>=
        fun out => channel_balancer_process out 2 5 44100 (1 / 2))
      = channel_balancer_process ([1, 2, 3, 4, 5] : List ℚ) 2 5 44100 (1 / 2) :=
  channel_balancer_process_center [1, 2, 3, 4, 5] 2 5 44100 (by decide) (by decide)

/-- C11 as stated fails at channel count `0`: with a positive rate and sample count the
call divides `numSamples` by `numChannels = 0` and does not return the buffer. -/
theorem channel_balancer_process_center_zero_channels :
    channel_balancer_process ([1, 2] : List ℚ) 0 2 44100 (1 / 2) = .error .divByZero ∧
    channel_balancer_process ([1, 2] : List ℚ) 0 2 44100 (1 / 2) ≠ .ok [1, 2] := by
  have h : channel_balancer_process ([1, 2] : List ℚ) 0 2 44100 (1 / 2)
      = .error .divByZero := by
    have h1 : ¬ ((44100 : ℚ) ≤ 0 ∨ (2 : Int) ≤ 0) := by norm_num
    have h3 : ¬ ((1 / 2 : ℚ) < 0.0 ∨ (1 / 2 : ℚ) > 1.0) := by norm_num
    simp only [channel_balancer_process, if_neg h1, if_neg h3]
    rfl
  exact ⟨h, by rw [h]; exact fun hh => Except.noConfusion hh⟩

end BalancerCenter

section EqualizerStructure

variable {K : Type} [LinearOrderedField K]

/-- With ten readable band gains the call is the frame loop over the normalised
`bandCoeffs`, started from all zero filter memories. -/
theorem processGraphicEQ_unfold (m : Libm K) (fuel : Nat) (samples : List K)
    (numSamples numChannels : Int) (Fs : K) (bandGains : List K) (Q : K) (g : Nat → K)
    (hg : ∀ i, i < 10 → bandGains[i]? = some (g i)) :
    processGraphicEQ m fuel samples numSamples numChannels Fs bandGains Q
      = eqFrameLoop (fun i => normalize (if i < 10 then bandCoeffs m Fs Q (g i) i
            else ⟨0, 0, 0, 0, 0, 0⟩))
          numSamples numChannels fuel 0 (fun _ _ => ⟨0, 0, 0, 0⟩) samples := by
  unfold processGraphicEQ
  dsimp only
  rw [coeffLoop_spec m Fs Q bandGains g bands 0 _
    (fun j _ h => hg j (by simpa [bands] using h))]
  simp only [bind, Except.bind]
  have e : (0.0 : K) = 0 := by norm_num
  simp only [e, Nat.zero_le, true_and, Nat.zero_add, bands]

/-- The cascade over `n + m` bands is the cascade over `n` bands followed by the
cascade over the next `m`. -/
theorem bandLoop_append (norm : Nat → NormBiquad K) (c : Nat) :
    ∀ (n m i : Nat) (st : Nat → Nat → BiquadState K) (x : K),
      bandLoop norm c (n + m) i st x
        = bandLoop norm c m (i + n) (bandLoop norm c n i st x).1 (bandLoop norm c n i st x).2 := by
  intro n
  induction n with
  | zero => intro m i st x; simp [bandLoop]
  | succ n ih =>
    intro m i st x
    have e : n + 1 + m = (n + m) + 1 := by omega
    rw [e]
    simp only [bandLoop]
    rw [ih]
    have e2 : i + 1 + n = i + (n + 1) := by omega
    rw [e2]

/-- Flat bands over balanced memories of channel `c` return their input, keep those
memories balanced and touch nothing else. -/
theorem bandLoop_flat_range (norm : Nat → NormBiquad K) (c : Nat) :
    ∀ (n i : Nat) (st : Nat → Nat → BiquadState K) (x : K),
      (∀ j, i ≤ j → j < i + n → (norm j).Flat) →
      (∀ j, i ≤ j → j < i + n → (st j c).Balanced) →
      (bandLoop norm c n i st x).2 = x ∧
        (∀ j, i ≤ j → j < i + n → ((bandLoop norm c n i st x).1 j c).Balanced) ∧
        (∀ j d, ¬ (i ≤ j ∧ j < i + n ∧ d = c) → (bandLoop norm c n i st x).1 j d = st j d) := by
  intro n
  induction n with
  | zero =>
    intro i st x _ _
    exact ⟨rfl, fun j h1 h2 => by omega, fun _ _ _ => rfl⟩
  | succ n ih =>
    intro i st x hflat hst
    obtain ⟨h0, h1, h2⟩ := hflat i (le_refl _) (by omega)
    obtain ⟨hx1, hx2⟩ := hst i (le_refl _) (by omega)
    have hy : (norm i).norm_b0 * x + (norm i).norm_b1 * (st i c).x_n1
        + (norm i).norm_b2 * (st i c).x_n2
        - (norm i).norm_a1 * (st i c).y_n1 - (norm i).norm_a2 * (st i c).y_n2 = x := by
      rw [h0, h1, h2, hx1, hx2]; ring
    simp only [bandLoop, hy]
    obtain ⟨r1, r2, r3⟩ := ih (i + 1)
      (fun j d => if j = i ∧ d = c then
        ({ x_n2 := (st i c).x_n1, x_n1 := x, y_n2 := (st i c).y_n1, y_n1 := x } : BiquadState K)
        else st j d) x
      (fun j h1 h2 => hflat j (by omega) (by omega))
      (fun j h1 h2 => by
        have hne : j ≠ i := by omega
        show (if j = i ∧ c = c then _ else st j c).Balanced
        rw [if_neg (fun h => hne h.1)]
        exact hst j (by omega) (by omega))
    refine ⟨r1, ?_, ?_⟩
    · intro j hj1 hj2
      by_cases hji : j = i
      · subst hji
        rw [r3 j c (by omega)]
        simp only [and_self, if_true]
        exact ⟨rfl, hx1⟩
      · exact r2 j (by omega) (by omega)
    · intro j d hnot
      rw [r3 j d (by omega)]
      have : ¬ (j = i ∧ d = c) := by omega
      simp only [this, if_false]

/-- A cascade whose bands are flat except band `b` returns the output of band `b`. -/
theorem bandLoop_one_band (norm : Nat → NormBiquad K) (b : Nat) (hb : b < 10)
    (hflat : ∀ j, j < 10 → j ≠ b → (norm j).Flat) (c : Nat)
    (st : Nat → Nat → BiquadState K) (hst : ∀ j, j < 10 → j ≠ b → (st j c).Balanced) (x : K) :
    (bandLoop norm c bands 0 st x).2 = biquadOut (norm b) (st b c) x ∧
      (bandLoop norm c bands 0 st x).1 b c
        = { x_n1 := x, x_n2 := (st b c).x_n1, y_n1 := biquadOut (norm b) (st b c) x,
            y_n2 := (st b c).y_n1 } ∧
      (∀ j, j < 10 → j ≠ b → ((bandLoop norm c bands 0 st x).1 j c).Balanced) ∧
      (∀ j d, d ≠ c → (bandLoop norm c bands 0 st x).1 j d = st j d) := by
  have e : bands = b + (1 + (9 - b)) := by simp only [bands]; omega
  rw [e, bandLoop_append, bandLoop_append]
  obtain ⟨p1, p2, p3⟩ := bandLoop_flat_range norm c b 0 st x
    (fun j _ h2 => hflat j (by omega) (by omega))
    (fun j _ h2 => hst j (by omega) (by omega))
  set st1 := (bandLoop norm c b 0 st x).1 with hst1
  rw [p1]
  have hb1 : st1 b c = st b c := p3 b c (by omega)
  have hstep : bandLoop norm c 1 (0 + b) st1 x
      = ((fun j d => if j = b ∧ d = c then
          ({ x_n2 := (st b c).x_n1, x_n1 := x, y_n2 := (st b c).y_n1,
             y_n1 := biquadOut (norm b) (st b c) x } : BiquadState K)
          else st1 j d), biquadOut (norm b) (st b c) x) := by
    simp only [bandLoop, Nat.zero_add, hb1, biquadOut]
  rw [hstep]
  dsimp only
  obtain ⟨q1, q2, q3⟩ := bandLoop_flat_range norm c (9 - b) (0 + b + 1)
    (fun j d => if j = b ∧ d = c then
          ({ x_n2 := (st b c).x_n1, x_n1 := x, y_n2 := (st b c).y_n1,
             y_n1 := biquadOut (norm b) (st b c) x } : BiquadState K)
          else st1 j d) (biquadOut (norm b) (st b c) x)
    (fun j h1 h2 => hflat j (by omega) (by omega))
    (fun j h1 h2 => by
      have hne : j ≠ b := by omega
      show (if j = b ∧ c = c then _ else st1 j c).Balanced
      rw [if_neg (fun h => hne h.1), p3 j c (by omega)]
      exact hst j (by omega) (by omega))
  refine ⟨q1, ?_, ?_, ?_⟩
  · rw [q3 b c (by omega)]
    simp
  · intro j hj hjb
    by_cases hlt : j < b
    · rw [q3 j c (by omega), if_neg (fun h => hjb h.1)]
      exact p2 j (by omega) (by omega)
    · exact q2 j (by omega) (by omega)
  · intro j d hd
    rw [q3 j d (by omega)]
    rw [if_neg (fun h => hd h.2)]
    exact p3 j d (by omega)

/-- One mono sample through a cascade that is flat except band `b`. -/
theorem eqFrameLoop_mono_one (norm : Nat → NormBiquad K) (b : Nat) (hb : b < 10)
    (hflat : ∀ j, j < 10 → j ≠ b → (norm j).Flat) (x : K) (fuel : Nat) (hfuel : 1 < fuel) :
    eqFrameLoop norm 1 1 fuel 0 (fun _ _ => ⟨0, 0, 0, 0⟩) [x]
      = .ok [(norm b).norm_b0 * x] := by
  obtain ⟨fuel, rfl⟩ : ∃ f, fuel = f + 2 := ⟨fuel - 2, by omega⟩
  obtain ⟨h2, -, -, -⟩ := bandLoop_one_band norm b hb hflat 0 (fun _ _ => ⟨0, 0, 0, 0⟩)
    (fun _ _ _ => ⟨rfl, rfl⟩) x
  have hsnd : (bandLoop norm 0 bands 0 (fun _ _ => ⟨0, 0, 0, 0⟩) x).2
      = (norm b).norm_b0 * x := by
    rw [h2]; simp [biquadOut]
  simp only [eqFrameLoop, eqChannelLoop, loadAt, storeAt, bind, Except.bind]
  simp [hsnd]

/-- Two mono samples through a cascade that is flat except band `b`. -/
theorem eqFrameLoop_mono_two (norm : Nat → NormBiquad K) (b : Nat) (hb : b < 10)
    (hflat : ∀ j, j < 10 → j ≠ b → (norm j).Flat) (x0 x1 : K) (fuel : Nat)
    (hfuel : 2 < fuel) :
    eqFrameLoop norm 2 1 fuel 0 (fun _ _ => ⟨0, 0, 0, 0⟩) [x0, x1]
      = .ok [(norm b).norm_b0 * x0,
          (norm b).norm_b0 * x1 + (norm b).norm_b1 * x0
            - (norm b).norm_a1 * ((norm b).norm_b0 * x0)] := by
  obtain ⟨fuel, rfl⟩ : ∃ f, fuel = f + 3 := ⟨fuel - 3, by omega⟩
  obtain ⟨h2, h3, h4, -⟩ := bandLoop_one_band norm b hb hflat 0 (fun _ _ => ⟨0, 0, 0, 0⟩)
    (fun _ _ _ => ⟨rfl, rfl⟩) x0
  have hsnd : (bandLoop norm 0 bands 0 (fun _ _ => ⟨0, 0, 0, 0⟩) x0).2
      = (norm b).norm_b0 * x0 := by
    rw [h2]; simp [biquadOut]
  obtain ⟨k2, -, -, -⟩ := bandLoop_one_band norm b hb hflat 0
    (bandLoop norm 0 bands 0 (fun _ _ => ⟨0, 0, 0, 0⟩) x0).1 h4 x1
  have hsnd2 : (bandLoop norm 0 bands 0
      (bandLoop norm 0 bands 0 (fun _ _ => ⟨0, 0, 0, 0⟩) x0).1 x1).2
      = (norm b).norm_b0 * x1 + (norm b).norm_b1 * x0
            - (norm b).norm_a1 * ((norm b).norm_b0 * x0) := by
    rw [k2, h3]; simp [biquadOut]
  simp only [eqFrameLoop, eqChannelLoop, loadAt, storeAt, bind, Except.bind]
  simp [hsnd, hsnd2]

end EqualizerStructure

section EqualizerReal

/-- Over `ℝ` the band coefficients of the code are the RBJ biquads. -/
theorem bandCoeffs_eq_rbj (Fs Q g : ℝ) (i : Nat) :
    bandCoeffs realLibm Fs Q g i = rbjBand Fs Q g i := by
  have e2 : (2.0 : ℝ) = 2 := by norm_num
  simp only [bandCoeffs, rbjBand, realLibm, rbjLowShelf, rbjHighShelf, rbjPeaking, bands, e2]

/-- C14: the coefficients `processGraphicEQ` filters with are, for every band `i < 10`
with gain `g i`, the RBJ biquad of that band (low shelf for `0`, high shelf for `9`,
peaking for `1..8`, built from `A = 10 ^ (0.15 g)`, `w0 = 2 PI f0 / Fs` and
`alpha = sin w0 / (2 Q)`) divided by its `a0`; the centre frequencies are
`31, 63, ..., 16000` and the constant `PI` is `π` to twenty decimals. -/
theorem processGraphicEQ_coefficients (fuel : Nat) (samples : List ℝ)
    (numSamples numChannels : Int) (Fs : ℝ) (bandGains : List ℝ) (Q : ℝ) (g : Nat → ℝ)
    (hg : ∀ i, i < 10 → bandGains[i]? = some (g i)) :
    (∃ norm : Nat → NormBiquad ℝ,
      processGraphicEQ realLibm fuel samples numSamples numChannels Fs bandGains Q
        = eqFrameLoop norm numSamples numChannels fuel 0 (fun _ _ => ⟨0, 0, 0, 0⟩) samples ∧
      ∀ i, i < 10 →
        (norm i).norm_b0 = (rbjBand Fs Q (g i) i).b0 / (rbjBand Fs Q (g i) i).a0 ∧
        (norm i).norm_b1 = (rbjBand Fs Q (g i) i).b1 / (rbjBand Fs Q (g i) i).a0 ∧
        (norm i).norm_b2 = (rbjBand Fs Q (g i) i).b2 / (rbjBand Fs Q (g i) i).a0 ∧
        (norm i).norm_a1 = (rbjBand Fs Q (g i) i).a1 / (rbjBand Fs Q (g i) i).a0 ∧
        (norm i).norm_a2 = (rbjBand Fs Q (g i) i).a2 / (rbjBand Fs Q (g i) i).a0 ∧
        ((rbjBand Fs Q (g i) i).a0 ≠ 0 →
          (rbjBand Fs Q (g i) i).a0 / (rbjBand Fs Q (g i) i).a0 = 1)) ∧
    (List.range 10).map (f0 : Nat → ℝ)
      = [31, 63, 125, 250, 500, 1000, 2000, 4000, 8000, 16000] ∧
    ((PI : ℝ) < Real.pi ∧ Real.pi < PI + 1 / 10 ^ 20) := by
  refine ⟨⟨_, processGraphicEQ_unfold realLibm fuel samples numSamples numChannels Fs
    bandGains Q g hg, ?_⟩, ?_, ?_⟩
  · intro i hi
    rw [if_pos hi, bandCoeffs_eq_rbj]
    exact ⟨rfl, rfl, rfl, rfl, rfl, fun h => div_self h⟩
  · simp [f0, List.range, List.range.loop]
  · constructor
    · have := Real.pi_gt_d20
      simpa [PI] using this
    · have := Real.pi_lt_d20
      simp only [PI]
      norm_num at this ⊢
      linarith

/-- C20: DC gain on the unnormalised coefficients. For the low shelf band `0`,
`b0 + b1 + b2 = A ^ 2 * (a0 + a1 + a2)` with `A = 10 ^ (0.15 gain)`, and
`A ^ 2 = 10 ^ (0.3 gain)`; for the bands `1..9`, `b0 + b1 + b2 = a0 + a1 + a2`. -/
theorem bandCoeffs_dc_gain (Fs Q g : ℝ) :
    ((bandCoeffs realLibm Fs Q g 0).b0 + (bandCoeffs realLibm Fs Q g 0).b1
        + (bandCoeffs realLibm Fs Q g 0).b2
      = ((10 : ℝ) ^ (0.15 * g)) ^ 2 *
        ((bandCoeffs realLibm Fs Q g 0).a0 + (bandCoeffs realLibm Fs Q g 0).a1
          + (bandCoeffs realLibm Fs Q g 0).a2)) ∧
    ((10 : ℝ) ^ (0.15 * g)) ^ 2 = (10 : ℝ) ^ (0.3 * g) ∧
    ∀ i, 1 ≤ i → i ≤ 9 →
      (bandCoeffs realLibm Fs Q g i).b0 + (bandCoeffs realLibm Fs Q g i).b1
        + (bandCoeffs realLibm Fs Q g i).b2
      = (bandCoeffs realLibm Fs Q g i).a0 + (bandCoeffs realLibm Fs Q g i).a1
        + (bandCoeffs realLibm Fs Q g i).a2 := by
  refine ⟨?_, ?_, ?_⟩
  · simp only [bandCoeffs, realLibm, if_true]
    ring
  · rw [← Real.rpow_natCast, ← Real.rpow_mul (by norm_num)]
    congr 1
    norm_num
    ring
  · intro i h1 h9
    have h0 : ¬ i = 0 := by omega
    simp only [bandCoeffs, if_neg h0]
    split_ifs <;> ring

/-- The peaking band's first tap `(1 + alpha A) / (1 + alpha / A)` determines `alpha`
when `A > 1`. -/
theorem peaking_b0_injective (A α β : ℝ) (hA : 1 < A) (hα : 0 < α) (hβ : 0 < β)
    (h : (1 + α * A) / (1 + α / A) = (1 + β * A) / (1 + β / A)) : α = β := by
  have hA0 : 0 < A := by linarith
  have h1 : 0 < 1 + α / A := by positivity
  have h2 : 0 < 1 + β / A := by positivity
  rw [div_eq_div_iff (ne_of_gt h1) (ne_of_gt h2)] at h
  have h3 : (α - β) * (A - 1 / A) = 0 := by
    field_simp at h ⊢
    nlinarith
  have h4 : A - 1 / A ≠ 0 := by
    have : 1 / A < 1 := by rw [div_lt_one hA0]; exact hA
    linarith
  rcases mul_eq_zero.mp h3 with h5 | h5
  · linarith
  · exact absurd h5 h4

/-- The gain `6` dB gives `A = 10 ^ 0.9 > 1`. -/
theorem pow_six_gt_one : (1 : ℝ) < realLibm.pow 10 (0.15 * 6) := by
  simp only [realLibm]
  exact Real.one_lt_rpow (by norm_num) (by norm_num)

/-- The angle of the `250` Hz band at `44100` Hz lies in `(0, 1 / 10)`. -/
theorem w0_band3_range :
    0 < (2.0 * PI * f0 3 / 44100 : ℝ) ∧ (2.0 * PI * f0 3 / 44100 : ℝ) < 1 / 10 := by
  simp only [PI, f0, List.getD_cons_succ, List.getD_cons_zero]
  constructor <;> norm_num

/-- The angle of the `500` Hz band is twice that of the `250` Hz band. -/
theorem w0_band4_double :
    (2.0 * PI * f0 4 / 44100 : ℝ) = 2 * (2.0 * PI * f0 3 / 44100 : ℝ) := by
  simp only [PI, f0, List.getD_cons_succ, List.getD_cons_zero]
  norm_num

/-- For a small positive angle `sin` is positive and `cos` exceeds `1 / 2`. -/
theorem sin_cos_small (w : ℝ) (h0 : 0 < w) (h1 : w < 1 / 10) :
    0 < Real.sin w ∧ 1 / 2 < Real.cos w ∧ 0 < Real.sin (2 * w) := by
  have hpi := Real.pi_gt_three
  refine ⟨Real.sin_pos_of_pos_of_lt_pi h0 (by linarith), ?_,
    Real.sin_pos_of_pos_of_lt_pi (by linarith) (by linarith)⟩
  have := Real.one_sub_sq_div_two_le_cos (x := w)
  nlinarith

/-- The taps of a normalised peaking band that the first two outputs depend on. -/
theorem peaking_norm (Fs Q g : ℝ) (i : Nat) (h1 : 1 ≤ i) (h8 : i ≤ 8) :
    (normalize (bandCoeffs realLibm Fs Q g i)).norm_b0
      = (1 + Real.sin (2.0 * PI * f0 i / Fs) / (2.0 * Q) * realLibm.pow 10 (0.15 * g))
        / (1 + Real.sin (2.0 * PI * f0 i / Fs) / (2.0 * Q) / realLibm.pow 10 (0.15 * g)) ∧
    (normalize (bandCoeffs realLibm Fs Q g i)).norm_b1
      = -2 * Real.cos (2.0 * PI * f0 i / Fs)
        / (1 + Real.sin (2.0 * PI * f0 i / Fs) / (2.0 * Q) / realLibm.pow 10 (0.15 * g)) ∧
    (normalize (bandCoeffs realLibm Fs Q g i)).norm_a1
      = (normalize (bandCoeffs realLibm Fs Q g i)).norm_b1 := by
  have h0 : ¬ i = 0 := by omega
  have h9 : ¬ i = bands - 1 := by simp only [bands]; omega
  simp only [bandCoeffs, if_neg h0, if_neg h9, normalize]
  exact ⟨rfl, rfl, trivial⟩

/-- With one band at `6` dB and the others at `0` dB, at `Q = 0.707`, every other band
is flat. -/
theorem one_band_flat (Fs : ℝ) (b : Nat) (g : Nat → ℝ) (hg : ∀ j, j ≠ b → g j = 0) :
    ∀ j, j < 10 → j ≠ b →
      (normalize (if j < 10 then bandCoeffs realLibm Fs 0.707 (g j) j
        else ⟨0, 0, 0, 0, 0, 0⟩)).Flat := by
  intro j hj hjb
  rw [if_pos hj, hg j hjb]
  exact bandCoeffs_flat Fs j

/-- C12: the bands are not interchangeable. At `44100` Hz and `Q = 0.707`, on the one
sample buffer `[1]`, the gain vector with `6` dB on band `3` and its permutation with
the `6` dB on band `4` give different outputs. -/
theorem processGraphicEQ_bands_not_interchangeable :
    List.Perm ([0, 0, 0, 6, 0, 0, 0, 0, 0, 0] : List ℝ) [0, 0, 0, 0, 6, 0, 0, 0, 0, 0] ∧
    ∃ out out' : List ℝ,
      processGraphicEQ realLibm 2 [1] 1 1 44100 [0, 0, 0, 6, 0, 0, 0, 0, 0, 0] 0.707
        = .ok out ∧
      processGraphicEQ realLibm 2 [1] 1 1 44100 [0, 0, 0, 0, 6, 0, 0, 0, 0, 0] 0.707
        = .ok out' ∧
      out ≠ out' := by
  refine ⟨?_, ?_⟩
  · exact List.Perm.cons _ (List.Perm.cons _ (List.Perm.cons _ (List.Perm.swap _ _ _)))
  have hA := pow_six_gt_one
  have hA0 : 0 < realLibm.pow 10 (0.15 * 6) := by linarith
  obtain ⟨hw0, hw1⟩ := w0_band3_range
  obtain ⟨hsin, hcos, hsin2⟩ := sin_cos_small _ hw0 hw1
  -- the call with the gain on band 3
  have e1 := processGraphicEQ_unfold realLibm 2 ([1] : List ℝ) 1 1 44100
    [0, 0, 0, 6, 0, 0, 0, 0, 0, 0] 0.707
    (fun i => ([0, 0, 0, 6, 0, 0, 0, 0, 0, 0] : List ℝ).getD i 0)
    (by intro i hi; interval_cases i <;> rfl)
  rw [eqFrameLoop_mono_one _ 3 (by decide)
    (one_band_flat 44100 3 _ (by
      intro j hj
      rcases Nat.lt_or_ge j 10 with h | h
      · interval_cases j <;> first | rfl | exact absurd rfl hj
      · exact List.getD_eq_default _ _ (by simpa using h))) 1 2 (by decide)] at e1
  -- the call with the gain on band 4
  have e2 := processGraphicEQ_unfold realLibm 2 ([1] : List ℝ) 1 1 44100
    [0, 0, 0, 0, 6, 0, 0, 0, 0, 0] 0.707
    (fun i => ([0, 0, 0, 0, 6, 0, 0, 0, 0, 0] : List ℝ).getD i 0)
    (by intro i hi; interval_cases i <;> rfl)
  rw [eqFrameLoop_mono_one _ 4 (by decide)
    (one_band_flat 44100 4 _ (by
      intro j hj
      rcases Nat.lt_or_ge j 10 with h | h
      · interval_cases j <;> first | rfl | exact absurd rfl hj
      · exact List.getD_eq_default _ _ (by simpa using h))) 1 2 (by decide)] at e2
  refine ⟨_, _, e1, e2, ?_⟩
  intro heq
  have h3 : (3 : Nat) < 10 := by decide
  have h4 : (4 : Nat) < 10 := by decide
  simp only [List.cons.injEq, and_true, mul_one, if_pos h3, if_pos h4] at heq
  have g3 : ([0, 0, 0, 6, 0, 0, 0, 0, 0, 0] : List ℝ).getD 3 0 = 6 := rfl
  have g4 : ([0, 0, 0, 0, 6, 0, 0, 0, 0, 0] : List ℝ).getD 4 0 = 6 := rfl
  rw [g3, g4, (peaking_norm 44100 0.707 6 3 (by decide) (by decide)).1,
    (peaking_norm 44100 0.707 6 4 (by decide) (by decide)).1, w0_band4_double] at heq
  have hq : (0 : ℝ) < 2.0 * 0.707 := by norm_num
  have hα : 0 < Real.sin (2.0 * PI * f0 3 / 44100) / (2.0 * 0.707) := div_pos hsin hq
  have hβ : 0 < Real.sin (2 * (2.0 * PI * f0 3 / 44100)) / (2.0 * 0.707) := div_pos hsin2 hq
  have := peaking_b0_injective _ _ _ hA hα hβ heq
  rw [div_left_inj' (ne_of_gt hq), Real.sin_two_mul] at this
  nlinarith

/-- C15: the filter memories do not persist across calls. Every call runs the frame
loop from all zero `x_n1`, `x_n2`, `y_n1`, `y_n2`; and at `44100` Hz, `Q = 0.707`,
`6` dB on band `3`, the buffer `[1, 0]` processed in one call differs from its two one
sample chunks processed in two consecutive calls. -/
theorem processGraphicEQ_state_not_persistent :
    (∀ (fuel : Nat) (samples : List ℝ) (numSamples numChannels : Int) (Fs : ℝ)
        (bandGains : List ℝ) (Q : ℝ),
      processGraphicEQ realLibm fuel samples numSamples numChannels Fs bandGains Q
        = (coeffLoop realLibm Fs Q bandGains bands 0 (fun _ => ⟨0, 0, 0, 0, 0, 0⟩) >>=
            fun coeffs => eqFrameLoop (fun i => normalize (coeffs i)) numSamples numChannels
              fuel 0 (fun _ _ => ⟨0, 0, 0, 0⟩) samples)) ∧
    ∃ whole first second : List ℝ,
      processGraphicEQ realLibm 3 [1, 0] 2 1 44100 [0, 0, 0, 6, 0, 0, 0, 0, 0, 0] 0.707
        = .ok whole ∧
      processGraphicEQ realLibm 2 [1] 1 1 44100 [0, 0, 0, 6, 0, 0, 0, 0, 0, 0] 0.707
        = .ok first ∧
      processGraphicEQ realLibm 2 [0] 1 1 44100 [0, 0, 0, 6, 0, 0, 0, 0, 0, 0] 0.707
        = .ok second ∧
      whole ≠ first ++ second := by
  constructor
  · intro fuel samples numSamples numChannels Fs bandGains Q
    have e : (0.0 : ℝ) = 0 := by norm_num
    simp only [processGraphicEQ, e]
  have hA := pow_six_gt_one
  have hA0 : 0 < realLibm.pow 10 (0.15 * 6) := by linarith
  obtain ⟨hw0, hw1⟩ := w0_band3_range
  obtain ⟨hsin, hcos, -⟩ := sin_cos_small _ hw0 hw1
  have hgains : ∀ i, i < 10 → ([0, 0, 0, 6, 0, 0, 0, 0, 0, 0] : List ℝ)[i]?
      = some (([0, 0, 0, 6, 0, 0, 0, 0, 0, 0] : List ℝ).getD i 0) := by
    intro i hi; interval_cases i <;> rfl
  have hflat := one_band_flat 44100 3
    (fun i => ([0, 0, 0, 6, 0, 0, 0, 0, 0, 0] : List ℝ).getD i 0) (by
      intro j hj
      rcases Nat.lt_or_ge j 10 with h | h
      · interval_cases j <;> first | rfl | exact absurd rfl hj
      · exact List.getD_eq_default _ _ (by simpa using h))
  have e1 := processGraphicEQ_unfold realLibm 3 ([1, 0] : List ℝ) 2 1 44100
    [0, 0, 0, 6, 0, 0, 0, 0, 0, 0] 0.707 _ hgains
  rw [eqFrameLoop_mono_two _ 3 (by decide) hflat 1 0 3 (by decide)] at e1
  have e2 := processGraphicEQ_unfold realLibm 2 ([1] : List ℝ) 1 1 44100
    [0, 0, 0, 6, 0, 0, 0, 0, 0, 0] 0.707 _ hgains
  rw [eqFrameLoop_mono_one _ 3 (by decide) hflat 1 2 (by decide)] at e2
  have e3 := processGraphicEQ_unfold realLibm 2 ([0] : List ℝ) 1 1 44100
    [0, 0, 0, 6, 0, 0, 0, 0, 0, 0] 0.707 _ hgains
  rw [eqFrameLoop_mono_one _ 3 (by decide) hflat 0 2 (by decide)] at e3
  refine ⟨_, _, _, e1, e2, e3, ?_⟩
  intro heq
  have h3 : (3 : Nat) < 10 := by decide
  simp only [List.cons_append, List.nil_append, List.cons.injEq, and_true, mul_one, mul_zero,
    zero_add, true_and, if_pos h3] at heq
  have g3 : ([0, 0, 0, 6, 0, 0, 0, 0, 0, 0] : List ℝ).getD 3 0 = 6 := rfl
  obtain ⟨p0, p1, pa⟩ := peaking_norm 44100 0.707 6 3 (by decide) (by decide)
  rw [g3, pa, p1, p0] at heq
  have hq : (0 : ℝ) < 2.0 * 0.707 := by norm_num
  have hα : 0 < Real.sin (2.0 * PI * f0 3 / 44100) / (2.0 * 0.707) := div_pos hsin hq
  have hd : 0 < 1 + Real.sin (2.0 * PI * f0 3 / 44100) / (2.0 * 0.707)
      / realLibm.pow 10 (0.15 * 6) := by positivity
  have hnum : 1 + Real.sin (2.0 * PI * f0 3 / 44100) / (2.0 * 0.707)
      / realLibm.pow 10 (0.15 * 6)
      < 1 + Real.sin (2.0 * PI * f0 3 / 44100) / (2.0 * 0.707) * realLibm.pow 10 (0.15 * 6) := by
    have : Real.sin (2.0 * PI * f0 3 / 44100) / (2.0 * 0.707) / realLibm.pow 10 (0.15 * 6)
        < Real.sin (2.0 * PI * f0 3 / 44100) / (2.0 * 0.707) := div_lt_self hα hA
    nlinarith
  have hb0 : 1 < (1 + Real.sin (2.0 * PI * f0 3 / 44100) / (2.0 * 0.707)
      * realLibm.pow 10 (0.15 * 6))
      / (1 + Real.sin (2.0 * PI * f0 3 / 44100) / (2.0 * 0.707)
        / realLibm.pow 10 (0.15 * 6)) := by
    rw [one_lt_div hd]; exact hnum
  have hb1 : -2 * Real.cos (2.0 * PI * f0 3 / 44100)
      / (1 + Real.sin (2.0 * PI * f0 3 / 44100) / (2.0 * 0.707)
        / realLibm.pow 10 (0.15 * 6)) < 0 := by
    apply div_neg_of_neg_of_pos _ hd
    linarith
  nlinarith

end EqualizerReal

section LimiterGain

variable {K : Type} [LinearOrderedField K]

/-- The smoothing step of the code is the claim's gain update. -/
theorem smoothGain_eq_spec (T a r peak g : K) :
    smoothGain T a r peak g = specGainStep T a r peak g := by
  have e : (1.0 : K) = 1 := by norm_num
  simp only [smoothGain, specGainStep, e]
  by_cases h : peak ≤ T
  · rw [if_neg (not_lt.mpr h), if_pos h]
  · rw [if_pos (not_le.mp h), if_neg h]

/-- The claim's peak is not negative. -/
theorem specPeak_nonneg (data : List K) (c f n : Nat) : 0 ≤ specPeak data c f n := by
  induction n with
  | zero => exact le_refl _
  | succ n ih => exact le_trans ih (le_max_left _ _)

/-- The claim's peak bounds every sample it ranges over. -/
theorem specPeak_ge (data : List K) (c f : Nat) :
    ∀ n ch, ch < n → |data.getD (f * c + ch) 0| ≤ specPeak data c f n := by
  intro n
  induction n with
  | zero => intro ch h; omega
  | succ n ih =>
    intro ch h
    by_cases hch : ch = n
    · subst hch; exact le_max_right _ _
    · exact le_trans (ih ch (by omega)) (le_max_left _ _)

/-- The claim's peak is `0` or the absolute value of a sample it ranges over. -/
theorem specPeak_attained (data : List K) (c f : Nat) :
    ∀ n, specPeak data c f n = 0 ∨
      ∃ ch, ch < n ∧ specPeak data c f n = |data.getD (f * c + ch) 0| := by
  intro n
  induction n with
  | zero => exact Or.inl rfl
  | succ n ih =>
    rcases max_cases (specPeak data c f n) |data.getD (f * c + n) 0| with ⟨h, -⟩ | ⟨h, -⟩
    · rcases ih with h0 | ⟨ch, hch, hp⟩
      · left; show max _ _ = 0; rw [h, h0]
      · right; exact ⟨ch, by omega, by show max _ _ = _; rw [h, hp]⟩
    · right; exact ⟨n, by omega, h⟩

/-- The peak the code detects on a frame inside the buffer is the claim's peak. -/
theorem IsFramePeak_eq_specPeak (data : List K) (c f : Nat) (peak : K)
    (hlen : f * c + c ≤ data.length) (h : IsFramePeak data c f peak) :
    peak = specPeak data c f c := by
  have hget : ∀ ch, ch < c → data[f * c + ch]? = some (data.getD (f * c + ch) 0) := by
    intro ch hch
    have hlt : f * c + ch < data.length := by omega
    simp [List.getD, List.getElem?_eq_getElem hlt]
  obtain ⟨h1, h2⟩ := h
  apply le_antisymm
  · rcases h2 with h0 | ⟨ch, hch, v, hv, hp⟩
    · rw [h0]; exact specPeak_nonneg _ _ _ _
    · rw [hget ch hch] at hv
      cases hv
      rw [hp]; exact specPeak_ge data c f c ch hch
  · rcases specPeak_attained data c f c with h0 | ⟨ch, hch, hp⟩
    · rw [h0]
      rcases h2 with h0' | ⟨ch, hch, v, hv, hp⟩
      · rw [h0']
      · rw [hp]; exact abs_nonneg v
    · rw [hp]; exact h1 ch hch _ (hget ch hch)

/-- The smoothing step keeps a gain in `(0, 1]`. -/
theorem smoothGain_bounds (T a r peak g : K) (hT : 0 < T) (ha0 : 0 ≤ a) (ha1 : a < 1)
    (hr0 : 0 ≤ r) (hr1 : r ≤ 1) (hg0 : 0 < g) (hg1 : g ≤ 1) :
    0 < smoothGain T a r peak g ∧ smoothGain T a r peak g ≤ 1 := by
  rw [smoothGain_eq_spec]
  have ht : 0 < (if peak ≤ T then (1 : K) else T / peak) ∧
      (if peak ≤ T then (1 : K) else T / peak) ≤ 1 := by
    split_ifs with h
    · exact ⟨zero_lt_one, le_refl _⟩
    · have hp : T < peak := not_le.mp h
      have hp0 : 0 < peak := lt_trans hT hp
      exact ⟨div_pos hT hp0, le_of_lt ((div_lt_one hp0).mpr hp)⟩
  obtain ⟨t0, t1⟩ := ht
  have key : ∀ t : K, 0 < t → t ≤ 1 →
      0 < (if t < g then (1 - a) * t + a * g else (1 - r) * t + r * g) ∧
      (if t < g then (1 - a) * t + a * g else (1 - r) * t + r * g) ≤ 1 := by
    intro t t0 t1
    split_ifs with h
    · constructor
      · have : 0 < (1 - a) * t := mul_pos (by linarith) t0
        have : 0 ≤ a * g := mul_nonneg ha0 (le_of_lt hg0)
        linarith
      · nlinarith
    · constructor
      · have h1 : 0 ≤ r * g := mul_nonneg hr0 (le_of_lt hg0)
        have h2 : 0 ≤ (1 - r) * t := mul_nonneg (by linarith) (le_of_lt t0)
        rcases eq_or_lt_of_le hr0 with h0 | h0
        · rw [← h0]; simpa using t0
        · have : 0 < r * g := mul_pos h0 hg0
          linarith
      · nlinarith
  exact key _ t0 t1

end LimiterGain

section LimiterPartial

variable {K : Type} [LinearOrderedField K]

/-- A frame that returns has smoothed the gain, advanced the cursor and kept the
lookahead length and the initialised flag. -/
theorem limiterFrame_ok (nc : Int) (T a r : K) (i : Int) (st st' : LimiterState K)
    (data data' : List K) (h : limiterFrame nc T a r i st data = .ok (st', data')) :
    (∃ peak, st'.current_gain = smoothGain T a r peak st.current_gain) ∧
      st'.write_pos = Int.tmod (st.write_pos + 1) 4096 ∧
      st'.current_lookahead_samples = st.current_lookahead_samples ∧
      st'.state_initialized = st.state_initialized := by
  simp only [limiterFrame, bind, Except.bind] at h
  cases hp : peakLoop data i nc.toNat 0 0.0 with
  | error e => rw [hp] at h; exact Except.noConfusion h
  | ok peak =>
    rw [hp] at h
    simp only [] at h
    cases hd : delayLoop (Int.tmod (st.write_pos - st.current_lookahead_samples
        + MAX_LOOKAHEAD_SAMPLES) MAX_LOOKAHEAD_SAMPLES) st.write_pos
        (smoothGain T a r peak st.current_gain) i nc.toNat 0 st.delay_buffer data with
    | error e => rw [hd] at h; exact Except.noConfusion h
    | ok res =>
      rw [hd] at h
      simp only [Except.ok.injEq, Prod.mk.injEq] at h
      obtain ⟨h1, -⟩ := h
      subst h1
      exact ⟨⟨peak, rfl⟩, rfl, rfl, rfl⟩

/-- Partial correctness rule for the main loop: a state property kept by every frame
that returns holds of the final state and of a state behind every recorded gain. -/
theorem limiterFrameLoop_ok_inv (nc ns : Int) (T a r : K) (P : LimiterState K → Prop)
    (hP : ∀ st st' i data data', P st →
      limiterFrame nc T a r i st data = .ok (st', data') → P st') :
    ∀ (fuel : Nat) (i : Int) (st : LimiterState K) (data log : List K) (run : LimiterRun K),
      limiterFrameLoop nc ns T a r fuel i st data log = .ok run → P st →
      P run.state ∧ ∀ g, g ∈ run.gains → g ∈ log ∨ ∃ s, P s ∧ s.current_gain = g := by
  intro fuel
  induction fuel with
  | zero => intro i st data log run h; exact Except.noConfusion h
  | succ fuel ih =>
    intro i st data log run h hst
    simp only [limiterFrameLoop] at h
    by_cases hi : i < ns
    · rw [if_pos hi] at h
      simp only [bind, Except.bind] at h
      cases hf : limiterFrame nc T a r i st data with
      | error e => rw [hf] at h; exact Except.noConfusion h
      | ok res =>
        obtain ⟨st', data'⟩ := res
        rw [hf] at h
        simp only [] at h
        have hst' := hP st st' i data data' hst hf
        obtain ⟨h1, h2⟩ := ih _ _ _ _ _ h hst'
        refine ⟨h1, fun g hg => ?_⟩
        rcases h2 g hg with h3 | h3
        · rcases List.mem_append.mp h3 with h4 | h4
          · exact Or.inl h4
          · simp only [List.mem_singleton] at h4
            exact Or.inr ⟨st', hst', h4.symm⟩
        · exact Or.inr h3
    · rw [if_neg hi] at h
      simp only [Except.ok.injEq] at h
      subst h
      exact ⟨hst, fun g hg => Or.inl hg⟩

/-- With fuel for at most the remaining `n` frames the main loop runs out of fuel. -/
theorem limiterFrameLoop_outOfFuel (c : Nat) (hc1 : 1 ≤ c) (hc8 : c ≤ 8) (T a r : K)
    (F : Nat) :
    ∀ (fuel n k : Nat) (st : LimiterState K) (data log : List K),
      k + n = F → fuel ≤ n → data.length = F * c →
      (0 ≤ st.write_pos ∧ st.write_pos < 4096) →
      (0 ≤ st.current_lookahead_samples ∧ st.current_lookahead_samples < 4096) →
      limiterFrameLoop (c : Int) ((F * c : Nat) : Int) T a r fuel
          ((k * c : Nat) : Int) st data log = .error .outOfFuel := by
  intro fuel
  induction fuel with
  | zero => intro n k st data log _ _ _ _ _; rfl
  | succ fuel ih =>
    intro n k st data log hk hfuel hlen hwp hL
    have hkF : k < F := by omega
    have hkc : (k + 1) * c = k * c + c := by ring
    have hle : (k + 1) * c ≤ F * c := Nat.mul_le_mul_right c hkF
    have hlt : ((k * c : Nat) : Int) < ((F * c : Nat) : Int) := by
      have : k * c < F * c := by omega
      exact_mod_cast this
    obtain ⟨st', data', hframe, hspec⟩ := limiterFrame_spec c hc8 T a r k st data
      (by omega) hwp hL
    simp only [limiterFrameLoop, if_pos hlt, hframe, bind, Except.bind]
    have e : ((k * c : Nat) : Int) + (c : Int) = (((k + 1) * c : Nat) : Int) := by
      push_cast; ring
    rw [e]
    exact ih (n - 1) (k + 1) st' data' _ (by omega) (by omega) (by rw [hspec.length, hlen])
      (by rw [hspec.write_pos]; omega) (by rw [hspec.lookahead]; exact hL)

end LimiterPartial

section LimiterReturns

variable {K : Type} [LinearOrderedField K]

/-- The state the main loop starts from is the reset state or the given one; from a
state with its cursor inside the delay line both have cursor and lookahead length
inside the delay line. -/
theorem limiter_entry_state [FloorRing K] (st : LimiterState K) (la sr : K)
    (hwp : 0 ≤ st.write_pos ∧ st.write_pos < 4096) :
    ∃ st0 : LimiterState K,
      (if !st.state_initialized || lookaheadSamples la sr != st.current_lookahead_samples
        then LimiterState.reset (lookaheadSamples la sr) else st) = st0 ∧
      (0 ≤ st0.write_pos ∧ st0.write_pos < 4096) ∧
      (0 ≤ st0.current_lookahead_samples ∧ st0.current_lookahead_samples < 4096) ∧
      st0.write_pos = (if st.state_initialized = false ∨
          lookaheadSamples la sr ≠ st.current_lookahead_samples then 0 else st.write_pos) ∧
      st0.current_gain = (if st.state_initialized = false ∨
          lookaheadSamples la sr ≠ st.current_lookahead_samples then 1
        else st.current_gain) := by
  by_cases hcond : st.state_initialized = false ∨
      lookaheadSamples la sr ≠ st.current_lookahead_samples
  · have hb : (!st.state_initialized ||
        lookaheadSamples la sr != st.current_lookahead_samples) = true := by
      rcases hcond with h | h <;> simp [h]
    rw [if_pos hb, if_pos hcond, if_pos hcond]
    exact ⟨_, rfl, by simp [LimiterState.reset], lookaheadSamples_range la sr, rfl,
      by simp only [LimiterState.reset]; norm_num⟩
  · have hb : ¬ (!st.state_initialized ||
        lookaheadSamples la sr != st.current_lookahead_samples) = true := by
      push_neg at hcond
      simp [hcond.1, hcond.2]
    rw [if_neg hb, if_neg hcond, if_neg hcond]
    push_neg at hcond
    exact ⟨_, rfl, hwp, by rw [← hcond.2]; exact lookaheadSamples_range _ _, rfl, rfl⟩

/-- A valid call from a state with its cursor inside the delay line returns exactly
when the fuel exceeds the number of frames; it then has run one frame per recorded
gain and advanced the cursor of the entry state by the number of frames. -/
theorem limiter_processData_returns [FloorRing K] (m : Libm K) (fuel : Nat)
    (st : LimiterState K) (data : List K) (c F : Nat)
    (samplerate attack_ms release_ms threshold_db lookahead_ms : K)
    (hsr : 0 < samplerate) (hrel : 0 < release_ms) (hc1 : 1 ≤ c) (hc8 : c ≤ 8)
    (hlen : data.length = F * c) (hwp : 0 ≤ st.write_pos ∧ st.write_pos < 4096) :
    (F < fuel → ∃ run, limiter_processData m fuel st data c ((F * c : Nat) : Int)
        samplerate attack_ms release_ms threshold_db lookahead_ms = .ok run ∧
      run.data.length = F * c ∧ run.gains.length = F ∧
      run.state.write_pos = ((if st.state_initialized = false ∨
          lookaheadSamples lookahead_ms samplerate ≠ st.current_lookahead_samples
        then 0 else st.write_pos) + F) % 4096) ∧
    (fuel ≤ F → limiter_processData m fuel st data c ((F * c : Nat) : Int)
        samplerate attack_ms release_ms threshold_db lookahead_ms = .error .outOfFuel) := by
  have hc8' : (c : Int) ≤ 8 := by exact_mod_cast hc8
  have e1 := limiter_processData_valid m fuel st data c ((F * c : Nat) : Int) samplerate
    attack_ms release_ms threshold_db lookahead_ms hsr hrel hc8'
  obtain ⟨st0, hst0, hwp0, hL0, hw0, -⟩ := limiter_entry_state st lookahead_ms samplerate hwp
  rw [hst0] at e1
  constructor
  · intro hfuel
    obtain ⟨run, hrun, h1, -, -, h4, -, gs, hg1, hg2, -⟩ := limiterFrameLoop_inv c hc1 hc8
      (m.pow 10.0 (threshold_db / 20.0))
      (if attack_ms > 0.0 then m.exp (-1.0 / (attack_ms * samplerate / 1000.0)) else 0.0)
      (m.exp (-1.0 / (release_ms * samplerate / 1000.0))) F (fun _ _ _ => True)
      (fun _ _ _ _ _ _ _ _ => trivial) F 0 fuel st0 data []
      (by omega) hfuel hlen hwp0 hL0 trivial
    simp only [Nat.zero_mul, Nat.cast_zero] at hrun
    refine ⟨run, e1.trans hrun, h1, by rw [hg1]; simpa using hg2, ?_⟩
    rw [h4, hw0]
  · intro hfuel
    have := limiterFrameLoop_outOfFuel c hc1 hc8
      (m.pow 10.0 (threshold_db / 20.0))
      (if attack_ms > 0.0 then m.exp (-1.0 / (attack_ms * samplerate / 1000.0)) else 0.0)
      (m.exp (-1.0 / (release_ms * samplerate / 1000.0))) F fuel F 0 st0 data []
      (by omega) hfuel hlen hwp0 hL0
    simp only [Nat.zero_mul, Nat.cast_zero] at this
    exact e1.trans this

end LimiterReturns

section LimiterInvariant

/-- C13: the per frame gain update. A valid call returns and its gain after frame `f`
is the claim's gain sequence: with `peak` the maximum of `|sample|` over the channels of
the frame and `T = 10 ^ (threshold_db / 20)`, the target is `1` if `peak ≤ T` and
`T / peak` otherwise, blended with the previous gain by `a` when it falls and by `r`
otherwise, where `r = exp (-1 / (release_ms samplerate / 1000))` and `a` is the same
for `attack_ms` when `attack_ms > 0` and `0` otherwise (then a falling gain is exactly
the target). In every frame that one new gain multiplies the delayed sample of every
channel. -/
theorem limiter_gain_update (st : LimiterState ℝ) (data : List ℝ) (c F fuel : Nat)
    (samplerate attack_ms release_ms threshold_db lookahead_ms : ℝ)
    (hsr : 0 < samplerate) (hrel : 0 < release_ms) (hc1 : 1 ≤ c) (hc8 : c ≤ 8)
    (hlen : data.length = F * c) (hfuel : F < fuel)
    (hwp : 0 ≤ st.write_pos ∧ st.write_pos < 4096) :
    ∃ T a r g0 : ℝ,
      T = (10 : ℝ) ^ (threshold_db / 20) ∧
      r = Real.exp (-1 / (release_ms * samplerate / 1000)) ∧
      a = (if 0 < attack_ms then Real.exp (-1 / (attack_ms * samplerate / 1000)) else 0) ∧
      g0 = (if st.state_initialized = false ∨
          lookaheadSamples lookahead_ms samplerate ≠ st.current_lookahead_samples
        then 1 else st.current_gain) ∧
      (∃ run, limiter_processData realLibm fuel st data c ((F * c : Nat) : Int) samplerate
          attack_ms release_ms threshold_db lookahead_ms = .ok run ∧
        run.gains.length = F ∧
        ∀ f, f < F → run.gains[f]? = some (specGains T a r data c g0 (f + 1))) ∧
      (∀ (f : Nat) (s : LimiterState ℝ) (d : List ℝ), f * c + c ≤ d.length →
        (0 ≤ s.write_pos ∧ s.write_pos < 4096) →
        (0 ≤ s.current_lookahead_samples ∧ s.current_lookahead_samples < 4096) →
        ∃ s' d', limiterFrame (c : Int) T a r ((f * c : Nat) : Int) s d = .ok (s', d') ∧
          s'.current_gain = specGainStep T a r (specPeak d c f c) s.current_gain ∧
          ∀ ch, ch < c → d'[f * c + ch]? = some
            (s.delay_buffer ch
              ((s.write_pos - s.current_lookahead_samples + 4096) % 4096).toNat
              * s'.current_gain)) ∧
      (∀ peak g : ℝ, (if peak ≤ T then 1 else T / peak) < g →
        specGainStep T 0 r peak g = if peak ≤ T then 1 else T / peak) := by
  have hc8' : (c : Int) ≤ 8 := by exact_mod_cast hc8
  have e1 := limiter_processData_valid realLibm fuel st data c ((F * c : Nat) : Int)
    samplerate attack_ms release_ms threshold_db lookahead_ms hsr hrel hc8'
  have hT : realLibm.pow 10.0 (threshold_db / 20.0) = (10 : ℝ) ^ (threshold_db / 20) := by
    simp only [realLibm]; norm_num
  have hr : realLibm.exp (-1.0 / (release_ms * samplerate / 1000.0))
      = Real.exp (-1 / (release_ms * samplerate / 1000)) := by
    simp only [realLibm]; norm_num
  have ha : (if attack_ms > 0.0 then
        realLibm.exp (-1.0 / (attack_ms * samplerate / 1000.0)) else 0.0)
      = (if 0 < attack_ms then Real.exp (-1 / (attack_ms * samplerate / 1000)) else 0) := by
    simp only [realLibm]; norm_num
  rw [hT, hr, ha] at e1
  -- the state the loop starts from
  obtain ⟨st0, hst0, hwp0, hL0, hg0⟩ : ∃ st0 : LimiterState ℝ,
      (if !st.state_initialized ||
          lookaheadSamples lookahead_ms samplerate != st.current_lookahead_samples
        then LimiterState.reset (lookaheadSamples lookahead_ms samplerate) else st) = st0 ∧
      (0 ≤ st0.write_pos ∧ st0.write_pos < 4096) ∧
      (0 ≤ st0.current_lookahead_samples ∧ st0.current_lookahead_samples < 4096) ∧
      st0.current_gain = (if st.state_initialized = false ∨
          lookaheadSamples lookahead_ms samplerate ≠ st.current_lookahead_samples
        then 1 else st.current_gain) := by
    by_cases hcond : st.state_initialized = false ∨
        lookaheadSamples lookahead_ms samplerate ≠ st.current_lookahead_samples
    · have hb : (!st.state_initialized ||
          lookaheadSamples lookahead_ms samplerate != st.current_lookahead_samples) = true := by
        rcases hcond with h | h <;> simp [h]
      rw [if_pos hb, if_pos hcond]
      exact ⟨_, rfl, by simp [LimiterState.reset],
        lookaheadSamples_range lookahead_ms samplerate, by simp [LimiterState.reset]; norm_num⟩
    · have hb : ¬ (!st.state_initialized ||
          lookaheadSamples lookahead_ms samplerate != st.current_lookahead_samples) = true := by
        push_neg at hcond
        simp [hcond.1, hcond.2]
      rw [if_neg hb, if_neg hcond]
      push_neg at hcond
      exact ⟨_, rfl, hwp, by rw [← hcond.2]; exact lookaheadSamples_range _ _, rfl⟩
  rw [hst0] at e1
  refine ⟨_, _, _, _, rfl, rfl, rfl, rfl, ?_, ?_, ?_⟩
  · obtain ⟨run, hrun, -, -, -, -, -, gs, hg1, hg2, hg3⟩ := limiterFrameLoop_inv c hc1 hc8
      ((10 : ℝ) ^ (threshold_db / 20))
      (if 0 < attack_ms then Real.exp (-1 / (attack_ms * samplerate / 1000)) else 0)
      (Real.exp (-1 / (release_ms * samplerate / 1000))) F
      (fun f s d => (∀ j, f * c ≤ j → d[j]? = data[j]?) ∧
        s.current_gain = specGains ((10 : ℝ) ^ (threshold_db / 20))
          (if 0 < attack_ms then Real.exp (-1 / (attack_ms * samplerate / 1000)) else 0)
          (Real.exp (-1 / (release_ms * samplerate / 1000))) data c
          (if st.state_initialized = false ∨
              lookaheadSamples lookahead_ms samplerate ≠ st.current_lookahead_samples
            then 1 else st.current_gain) f)
      (by
        intro f s d s' d' hf hinv hspec
        obtain ⟨hagree, hgain⟩ := hinv
        obtain ⟨peak, hpeak, hnew⟩ := hspec.gain
        have hf1 : (f + 1) * c = f * c + c := by ring
        have hle : (f + 1) * c ≤ F * c := Nat.mul_le_mul_right c hf
        have hpeak' : IsFramePeak data c f peak := (IsFramePeak_congr d data c f peak
          (fun ch _ => hagree _ (by omega))).mp hpeak
        have hpk := IsFramePeak_eq_specPeak data c f peak (by omega) hpeak'
        refine ⟨fun j hj => ?_, ?_⟩
        · rw [hspec.outside j (by omega)]
          exact hagree j (by omega)
        · rw [hnew, smoothGain_eq_spec, hpk, hgain]
          rfl)
      F 0 fuel st0 data [] (by omega) hfuel hlen hwp0 hL0
      ⟨fun _ _ => rfl, by rw [hg0]; rfl⟩
    simp only [Nat.zero_mul, Nat.cast_zero] at hrun
    simp only [List.nil_append] at hg1
    refine ⟨run, e1.trans hrun, by rw [hg1, hg2], ?_⟩
    intro f hf
    obtain ⟨s2, d2, hg, hi⟩ := hg3 f hf
    rw [Nat.zero_add] at hi
    rw [hg1, hg, hi.2]
  · intro f s d hd hswp hsL
    obtain ⟨s', d', hframe, hspec⟩ := limiterFrame_spec c hc8
      ((10 : ℝ) ^ (threshold_db / 20))
      (if 0 < attack_ms then Real.exp (-1 / (attack_ms * samplerate / 1000)) else 0)
      (Real.exp (-1 / (release_ms * samplerate / 1000))) f s d hd hswp hsL
    obtain ⟨peak, hpeak, hnew⟩ := hspec.gain
    refine ⟨s', d', hframe, ?_, hspec.output⟩
    rw [hnew, smoothGain_eq_spec, IsFramePeak_eq_specPeak d c f peak hd hpeak]
  · intro peak g h
    simp only [specGainStep, if_pos h]
    ring

end LimiterInvariant

section EqualizerChannels

variable {K : Type} [LinearOrderedField K]

/-- The cascade on channel `d1` of one memory and on channel `d2` of another that agree
on those channels gives the same output and memories that agree again. -/
theorem bandLoop_channel (norm : Nat → NormBiquad K) (d1 d2 : Nat) :
    ∀ (n i : Nat) (st1 st2 : Nat → Nat → BiquadState K) (x : K),
      (∀ j, st1 j d1 = st2 j d2) →
      (bandLoop norm d1 n i st1 x).2 = (bandLoop norm d2 n i st2 x).2 ∧
        ∀ j, (bandLoop norm d1 n i st1 x).1 j d1 = (bandLoop norm d2 n i st2 x).1 j d2 := by
  intro n
  induction n with
  | zero => intro i st1 st2 x h; exact ⟨rfl, h⟩
  | succ n ih =>
    intro i st1 st2 x h
    simp only [bandLoop]
    rw [h i]
    apply ih
    intro j
    by_cases hj : j = i
    · simp [hj]
    · simp [hj, h j]

/-- The cascade on channel `d` leaves the memories of the other channels alone. -/
theorem bandLoop_other (norm : Nat → NormBiquad K) (d : Nat) :
    ∀ (n i : Nat) (st : Nat → Nat → BiquadState K) (x : K) (j d' : Nat), d' ≠ d →
      (bandLoop norm d n i st x).1 j d' = st j d' := by
  intro n
  induction n with
  | zero => intro i st x j d' _; rfl
  | succ n ih =>
    intro i st x j d' hd
    simp only [bandLoop]
    rw [ih _ _ _ _ _ hd]
    simp [hd]

/-- The channel loop of the frame at index `s`, over the channels `c ≤ d < c + n`: it
returns, each of these channels has its sample replaced by the cascade output on the
memory the frame started with, and nothing else changes. -/
theorem eqChannelLoop_spec (norm : Nat → NormBiquad K) (s : Nat) :
    ∀ (n c : Nat) (st : Nat → Nat → BiquadState K) (data : List K),
      s + c + n ≤ data.length →
      ∃ st' data', eqChannelLoop norm (s : Int) n c st data = .ok (st', data') ∧
        data'.length = data.length ∧
        (∀ j, j < s + c ∨ s + c + n ≤ j → data'[j]? = data[j]?) ∧
        (∀ d, c ≤ d → d < c + n → ∀ x, data[s + d]? = some x →
          data'[s + d]? = some (bandLoop norm d bands 0 st x).2 ∧
          ∀ j, st' j d = (bandLoop norm d bands 0 st x).1 j d) ∧
        (∀ j d, ¬ (c ≤ d ∧ d < c + n) → st' j d = st j d) := by
  intro n
  induction n with
  | zero =>
    intro c st data _
    exact ⟨st, data, rfl, rfl, fun _ _ => rfl, fun d h1 h2 => by omega, fun _ _ _ => rfl⟩
  | succ n ih =>
    intro c st data hlen
    have hlt : s + c < data.length := by omega
    have e : ((s : Int) + (c : Int)) = ((s + c : Nat) : Int) := by push_cast; ring
    obtain ⟨st', data', hrun, hl, hout, hin, hst⟩ := ih (c + 1)
      (bandLoop norm c bands 0 st data[s + c]).1
      (data.set (s + c) (bandLoop norm c bands 0 st data[s + c]).2) (by simp; omega)
    refine ⟨st', data', ?_, by simpa using hl, ?_, ?_, ?_⟩
    · simp only [eqChannelLoop]
      rw [e, loadAt_natCast _ _ _ (List.getElem?_eq_getElem hlt)]
      simp only [bind, Except.bind]
      rw [storeAt_natCast _ _ _ hlt]
      exact hrun
    · intro j hj
      rw [hout j (by omega), List.getElem?_set_ne (by omega)]
    · intro d h1 h2 x hx
      by_cases hd : d = c
      · subst hd
        rw [List.getElem?_eq_getElem hlt] at hx
        cases hx
        refine ⟨?_, fun j => ?_⟩
        · rw [hout (s + d) (by omega), List.getElem?_set_self hlt]
        · rw [hst j d (by omega)]
      · have hx' : (data.set (s + c) (bandLoop norm c bands 0 st data[s + c]).2)[s + d]?
            = some x := by
          rw [List.getElem?_set_ne (by omega)]; exact hx
        obtain ⟨r1, r2⟩ := hin d (by omega) (by omega) x hx'
        have hloc := bandLoop_channel norm d d bands 0
          (bandLoop norm c bands 0 st data[s + c]).1 st x
          (fun j => bandLoop_other norm c bands 0 st _ j d hd)
        exact ⟨by rw [r1, hloc.1], fun j => by rw [r2 j, hloc.2 j]⟩
    · intro j d hnot
      rw [hst j d (by omega)]
      exact bandLoop_other norm c bands 0 st _ j d (by omega)

/-- The frame loop on a buffer of `F` frames of `c ≥ 1` channels returns exactly when
the fuel exceeds the number of remaining frames, and keeps the buffer length. -/
theorem eqFrameLoop_returns (norm : Nat → NormBiquad K) (c : Nat) (hc : 1 ≤ c) (F : Nat) :
    ∀ (fuel n k : Nat) (st : Nat → Nat → BiquadState K) (data : List K),
      k + n = F → data.length = F * c →
      (n < fuel → ∃ out, eqFrameLoop norm ((F * c : Nat) : Int) (c : Int) fuel
          ((k * c : Nat) : Int) st data = .ok out ∧ out.length = F * c) ∧
      (fuel ≤ n → eqFrameLoop norm ((F * c : Nat) : Int) (c : Int) fuel
          ((k * c : Nat) : Int) st data = .error .outOfFuel) := by
  intro fuel
  induction fuel with
  | zero =>
    intro n k st data _ _
    exact ⟨fun h => by omega, fun _ => rfl⟩
  | succ fuel ih =>
    intro n k st data hk hlen
    by_cases hkF : k < F
    · have hkc : (k + 1) * c = k * c + c := by ring
      have hle : (k + 1) * c ≤ F * c := Nat.mul_le_mul_right c hkF
      have hlt : ((k * c : Nat) : Int) < ((F * c : Nat) : Int) := by
        have : k * c < F * c := by omega
        exact_mod_cast this
      obtain ⟨st', data', hrun, hl, -⟩ := eqChannelLoop_spec norm (k * c) c 0 st data
        (by omega)
      have e : ((k * c : Nat) : Int) + (c : Int) = (((k + 1) * c : Nat) : Int) := by
        push_cast; ring
      have hstep : eqFrameLoop norm ((F * c : Nat) : Int) (c : Int) (fuel + 1)
          ((k * c : Nat) : Int) st data
          = eqFrameLoop norm ((F * c : Nat) : Int) (c : Int) fuel
            (((k + 1) * c : Nat) : Int) st' data' := by
        simp only [eqFrameLoop, if_pos hlt, Int.toNat_ofNat, hrun, bind, Except.bind]
        rw [e]
      rw [hstep]
      obtain ⟨i1, i2⟩ := ih (n - 1) (k + 1) st' data' (by omega) (by rw [hl, hlen])
      exact ⟨fun h => i1 (by omega), fun h => i2 (by omega)⟩
    · have hkF' : k = F := by omega
      have hnot : ¬ (((k * c : Nat) : Int) < ((F * c : Nat) : Int)) := by
        subst hkF'; simp
      refine ⟨fun _ => ⟨data, by simp only [eqFrameLoop, if_neg hnot], hlen⟩, fun h => by omega⟩

/-- Lockstep of the frame loop on an interleaved buffer with the frame loop on the mono
buffer of its channel `ch`: from memories that agree on that channel and buffers that
agree on its samples, both return and the outputs agree on the channel. -/
theorem eqFrameLoop_channel (norm : Nat → NormBiquad K) (c ch : Nat) (hc : 1 ≤ c)
    (hch : ch < c) (F : Nat) :
    ∀ (n k fuelM fuelm : Nat) (stM stm : Nat → Nat → BiquadState K) (dM dm : List K),
      k + n = F → n < fuelM → n < fuelm → dM.length = F * c → dm.length = F →
      (∀ j, stM j ch = stm j 0) → (∀ f, f < F → dM[f * c + ch]? = dm[f]?) →
      ∃ outM outm,
        eqFrameLoop norm ((F * c : Nat) : Int) (c : Int) fuelM ((k * c : Nat) : Int) stM dM
          = .ok outM ∧
        eqFrameLoop norm (F : Int) ((1 : Nat) : Int) fuelm (k : Int) stm dm = .ok outm ∧
        outM.length = F * c ∧ outm.length = F ∧
        ∀ f, f < F → outM[f * c + ch]? = outm[f]? := by
  intro n
  induction n with
  | zero =>
    intro k fuelM fuelm stM stm dM dm hk hfM hfm hlM hlm _ hd
    obtain ⟨fuelM, rfl⟩ : ∃ f, fuelM = f + 1 := ⟨fuelM - 1, by omega⟩
    obtain ⟨fuelm, rfl⟩ : ∃ f, fuelm = f + 1 := ⟨fuelm - 1, by omega⟩
    have hkF : k = F := by omega
    subst hkF
    have h1 : ¬ (((k * c : Nat) : Int) < ((k * c : Nat) : Int)) := lt_irrefl _
    have h2 : ¬ ((k : Int) < (k : Int)) := lt_irrefl _
    exact ⟨dM, dm, by simp only [eqFrameLoop, if_neg h1],
      by simp only [eqFrameLoop, if_neg h2], hlM, hlm, hd⟩
  | succ n ih =>
    intro k fuelM fuelm stM stm dM dm hk hfM hfm hlM hlm hst hd
    obtain ⟨fuelM, rfl⟩ : ∃ f, fuelM = f + 1 := ⟨fuelM - 1, by omega⟩
    obtain ⟨fuelm, rfl⟩ : ∃ f, fuelm = f + 1 := ⟨fuelm - 1, by omega⟩
    have hkF : k < F := by omega
    have hkc : (k + 1) * c = k * c + c := by ring
    have hle : (k + 1) * c ≤ F * c := Nat.mul_le_mul_right c hkF
    have hltM : ((k * c : Nat) : Int) < ((F * c : Nat) : Int) := by
      have : k * c < F * c := by omega
      exact_mod_cast this
    have hltm : (k : Int) < (F : Int) := by exact_mod_cast hkF
    obtain ⟨stM', dM', hrunM, hlM', houtM, hinM, -⟩ :=
      eqChannelLoop_spec norm (k * c) c 0 stM dM (by omega)
    obtain ⟨stm', dm', hrunm, hlm', houtm, hinm, -⟩ :=
      eqChannelLoop_spec norm k 1 0 stm dm (by omega)
    have hxM : dM[k * c + ch]? = some dM[k * c + ch] :=
      List.getElem?_eq_getElem (by omega)
    have hxm : dm[k + 0]? = some dM[k * c + ch] := by
      rw [Nat.add_zero, ← hd k hkF]; exact hxM
    obtain ⟨oM, sM⟩ := hinM ch (Nat.zero_le _) (by omega) _ hxM
    obtain ⟨om, sm⟩ := hinm 0 (le_refl _) (by omega) _ hxm
    obtain ⟨b1, b2⟩ := bandLoop_channel norm ch 0 bands 0 stM stm dM[k * c + ch] hst
    have idx : ∀ f, f < k → f * c + ch < k * c := by
      intro f hf
      have h1 : (f + 1) * c ≤ k * c := Nat.mul_le_mul_right c hf
      have h2 : (f + 1) * c = f * c + c := by ring
      omega
    have idx2 : ∀ f, k < f → k * c + c ≤ f * c + ch := by
      intro f hf
      have h1 : (k + 1) * c ≤ f * c := Nat.mul_le_mul_right c hf
      omega
    obtain ⟨outM, outm, r1, r2, r3, r4, r5⟩ := ih (k + 1) fuelM fuelm stM' stm' dM' dm'
      (by omega) (by omega) (by omega) (by rw [hlM', hlM]) (by rw [hlm', hlm])
      (fun j => by rw [sM j, sm j, b2 j])
      (fun f hf => by
        rcases Nat.lt_trichotomy f k with h | h | h
        · rw [houtM _ (Or.inl (by have := idx f h; omega)), houtm f (by omega)]
          exact hd f hf
        · subst h
          rw [oM, b1, ← om, Nat.add_zero]
        · rw [houtM _ (Or.inr (by have := idx2 f h; omega)), houtm f (by omega)]
          exact hd f hf)
    refine ⟨outM, outm, ?_, ?_, r3, r4, r5⟩
    · have e : ((k * c : Nat) : Int) + (c : Int) = (((k + 1) * c : Nat) : Int) := by
        push_cast; ring
      simp only [eqFrameLoop, if_pos hltM, Int.toNat_ofNat, hrunM, bind, Except.bind]
      rw [e]; exact r1
    · have e : (k : Int) + ((1 : Nat) : Int) = ((k + 1 : Nat) : Int) := by push_cast; ring
      simp only [eqFrameLoop, if_pos hltm, Int.toNat_ofNat, hrunm, bind, Except.bind]
      rw [e]; exact r2

/-- The channel of a buffer of `F` frames has `F` samples, sample `f` being the cell
`f * c + ch`. -/
theorem channelSamples_spec (samples : List K) (c ch F : Nat) (hc : 1 ≤ c) (hch : ch < c)
    (hlen : samples.length = F * c) :
    (channelSamples samples c ch).length = F ∧
      ∀ f, f < F → samples[f * c + ch]? = (channelSamples samples c ch)[f]? := by
  have hF : samples.length / c = F := by
    rw [hlen]; exact Nat.mul_div_cancel F (by omega)
  refine ⟨by simp [channelSamples, hF], fun f hf => ?_⟩
  have hlt : f * c + ch < samples.length := by
    have h1 : (f + 1) * c ≤ F * c := Nat.mul_le_mul_right c hf
    have h2 : (f + 1) * c = f * c + c := by ring
    omega
  simp [channelSamples, hF, hf, List.getD, List.getElem?_eq_getElem hlt]

/-- C18: channel independence. For `c ≥ 1` channels, a buffer of `F * c` samples and
every channel `ch < c`, the call on the interleaved buffer and the call with one
channel on the samples of channel `ch` both return, and channel `ch` of the former's
output is the latter's output; so two buffers that agree on channel `ch` give outputs
that agree on channel `ch`. -/
theorem processGraphicEQ_channel_independent (m : Libm K) (samples samples' : List K)
    (c ch F fuel : Nat) (Fs Q : K) (bandGains : List K)
    (hc : 1 ≤ c) (hch : ch < c) (hlen : samples.length = F * c)
    (hlen' : samples'.length = F * c) (hfuel : F < fuel) (hg : 10 ≤ bandGains.length)
    (hagree : channelSamples samples' c ch = channelSamples samples c ch) :
    ∃ out out' mono,
      processGraphicEQ m fuel samples ((F * c : Nat) : Int) (c : Int) Fs bandGains Q
        = .ok out ∧
      processGraphicEQ m fuel samples' ((F * c : Nat) : Int) (c : Int) Fs bandGains Q
        = .ok out' ∧
      processGraphicEQ m fuel (channelSamples samples c ch) (F : Int) 1 Fs bandGains Q
        = .ok mono ∧
      channelSamples out c ch = mono ∧
      channelSamples out' c ch = channelSamples out c ch := by
  have hgains : ∀ i, i < 10 → bandGains[i]? = some (bandGains.getD i 0) := by
    intro i hi
    have : i < bandGains.length := by omega
    simp [List.getD, List.getElem?_eq_getElem this]
  obtain ⟨cl, cd⟩ := channelSamples_spec samples c ch F hc hch hlen
  obtain ⟨cl', cd'⟩ := channelSamples_spec samples' c ch F hc hch hlen'
  have e1 := processGraphicEQ_unfold m fuel samples ((F * c : Nat) : Int) (c : Int) Fs
    bandGains Q _ hgains
  have e2 := processGraphicEQ_unfold m fuel samples' ((F * c : Nat) : Int) (c : Int) Fs
    bandGains Q _ hgains
  have e3 := processGraphicEQ_unfold m fuel (channelSamples samples c ch) (F : Int) 1 Fs
    bandGains Q _ hgains
  obtain ⟨out, mono, r1, r2, r3, r4, r5⟩ := eqFrameLoop_channel
    (fun i => normalize (if i < 10 then bandCoeffs m Fs Q (bandGains.getD i 0) i
      else ⟨0, 0, 0, 0, 0, 0⟩)) c ch hc hch F F 0 fuel fuel
    (fun _ _ => ⟨0, 0, 0, 0⟩) (fun _ _ => ⟨0, 0, 0, 0⟩) samples
    (channelSamples samples c ch) (by omega) hfuel hfuel hlen cl (fun _ => rfl) cd
  obtain ⟨out', mono', s1, s2, s3, s4, s5⟩ := eqFrameLoop_channel
    (fun i => normalize (if i < 10 then bandCoeffs m Fs Q (bandGains.getD i 0) i
      else ⟨0, 0, 0, 0, 0, 0⟩)) c ch hc hch F F 0 fuel fuel
    (fun _ _ => ⟨0, 0, 0, 0⟩) (fun _ _ => ⟨0, 0, 0, 0⟩) samples'
    (channelSamples samples c ch) (by omega) hfuel hfuel hlen' cl (fun _ => rfl)
    (fun f hf => by rw [cd' f hf, hagree])
  simp only [Nat.zero_mul, Nat.cast_zero, Nat.cast_one] at r1 r2 s1 s2
  have hmm : mono' = mono := by
    rw [r2] at s2
    exact (Except.ok.inj s2).symm
  have hco : channelSamples out c ch = mono := by
    obtain ⟨ol, od⟩ := channelSamples_spec out c ch F hc hch r3
    apply List.ext_getElem?
    intro f
    by_cases hf : f < F
    · rw [← od f hf, r5 f hf]
    · rw [List.getElem?_eq_none (by omega), List.getElem?_eq_none (by omega)]
  have hco' : channelSamples out' c ch = mono := by
    obtain ⟨ol, od⟩ := channelSamples_spec out' c ch F hc hch s3
    apply List.ext_getElem?
    intro f
    by_cases hf : f < F
    · rw [← od f hf, s5 f hf, hmm]
    · rw [List.getElem?_eq_none (by omega), List.getElem?_eq_none (by omega)]
  exact ⟨out, out', mono, e1.trans r1, e2.trans s1, e3.trans r2, hco, by rw [hco', hco]⟩

end EqualizerChannels

section FrameLoops

variable {K : Type} [LinearOrderedField K]

/-- C19, amended: index safety and termination of the frame loops. For `c ≥ 1`
channels and buffers of `F * c` samples, `processGraphicEQ` (with ten band gains) and,
when `c ≤ 8` and the cursor is inside the delay line, `limiter_processData` return
exactly when the fuel exceeds `F`, that is after exactly `F` frames and without any
access outside the buffers or the delay lines; the limiter leaves the write cursor at
`(entry cursor + F) mod 4096`, where the entry cursor is `0` when the call resets the
state and the old cursor otherwise. -/
theorem frame_loops_safe [FloorRing K] (m : Libm K) (fuel : Nat)
    (samples bandGains : List K) (st : LimiterState K) (data : List K) (c F : Nat)
    (Fs Q samplerate attack_ms release_ms threshold_db lookahead_ms : K)
    (hc1 : 1 ≤ c) (hlen : samples.length = F * c) (hg : 10 ≤ bandGains.length)
    (hdata : data.length = F * c) (hsr : 0 < samplerate) (hrel : 0 < release_ms)
    (hwp : 0 ≤ st.write_pos ∧ st.write_pos < 4096) :
    ((F < fuel → ∃ out, processGraphicEQ m fuel samples ((F * c : Nat) : Int) (c : Int) Fs
        bandGains Q = .ok out ∧ out.length = F * c) ∧
      (fuel ≤ F → processGraphicEQ m fuel samples ((F * c : Nat) : Int) (c : Int) Fs
        bandGains Q = .error .outOfFuel)) ∧
    (c ≤ 8 →
      (F < fuel → ∃ run, limiter_processData m fuel st data c ((F * c : Nat) : Int)
          samplerate attack_ms release_ms threshold_db lookahead_ms = .ok run ∧
        run.data.length = F * c ∧ run.gains.length = F ∧
        run.state.write_pos = ((if st.state_initialized = false ∨
            lookaheadSamples lookahead_ms samplerate ≠ st.current_lookahead_samples
          then 0 else st.write_pos) + F) % 4096 ∧
        (0 ≤ run.state.write_pos ∧ run.state.write_pos < 4096)) ∧
      (fuel ≤ F → limiter_processData m fuel st data c ((F * c : Nat) : Int)
          samplerate attack_ms release_ms threshold_db lookahead_ms
          = .error .outOfFuel)) := by
  have hgains : ∀ i, i < 10 → bandGains[i]? = some (bandGains.getD i 0) := by
    intro i hi
    have : i < bandGains.length := by omega
    simp [List.getD, List.getElem?_eq_getElem this]
  have e1 := processGraphicEQ_unfold m fuel samples ((F * c : Nat) : Int) (c : Int) Fs
    bandGains Q _ hgains
  obtain ⟨q1, q2⟩ := eqFrameLoop_returns
    (fun i => normalize (if i < 10 then bandCoeffs m Fs Q (bandGains.getD i 0) i
      else ⟨0, 0, 0, 0, 0, 0⟩)) c hc1 F fuel F 0 (fun _ _ => ⟨0, 0, 0, 0⟩) samples
    (by omega) hlen
  simp only [Nat.zero_mul, Nat.cast_zero] at q1 q2
  refine ⟨⟨fun h => ?_, fun h => e1.trans (q2 h)⟩, fun hc8 => ?_⟩
  · obtain ⟨out, ho, hl⟩ := q1 h
    exact ⟨out, e1.trans ho, hl⟩
  · obtain ⟨l1, l2⟩ := limiter_processData_returns m fuel st data c F samplerate attack_ms
      release_ms threshold_db lookahead_ms hsr hrel hc1 hc8 hdata hwp
    refine ⟨fun h => ?_, l2⟩
    obtain ⟨run, hr, hd, hgl, hw⟩ := l1 h
    refine ⟨run, hr, hd, hgl, hw, ?_⟩
    rw [hw]; omega

end FrameLoops

section Examples

theorem frame_loops_safe_witness :
    ((2 < 3 → ∃ out, processGraphicEQ realLibm 3 [1, 2, 3, 4] ((2 * 2 : Nat) : Int)
        ((2 : Nat) : Int) 44100 [0, 1, 2, 3, 4, 5, 6, 7, 8, 9] 1 = .ok out ∧
        out.length = 2 * 2) ∧
      (3 ≤ 2 → processGraphicEQ realLibm 3 [1, 2, 3, 4] ((2 * 2 : Nat) : Int)
        ((2 : Nat) : Int) 44100 [0, 1, 2, 3, 4, 5, 6, 7, 8, 9] 1 = .error .outOfFuel)) ∧
    ((2 : Nat) ≤ 8 →
      (2 < 3 → ∃ run, limiter_processData realLibm 3 LimiterState.initial [1, 2, 3, 4]
          ((2 : Nat) : Int) ((2 * 2 : Nat) : Int) 44100 1 50 0 1 = .ok run ∧
        run.data.length = 2 * 2 ∧ run.gains.length = 2 ∧
        run.state.write_pos = ((if (LimiterState.initial : LimiterState ℝ).state_initialized
              = false ∨ lookaheadSamples (1 : ℝ) 44100
              ≠ (LimiterState.initial : LimiterState ℝ).current_lookahead_samples
          then 0 else (LimiterState.initial : LimiterState ℝ).write_pos) + (2 : Nat)) % 4096 ∧
        (0 ≤ run.state.write_pos ∧ run.state.write_pos < 4096)) ∧
      (3 ≤ 2 → limiter_processData realLibm 3 LimiterState.initial [1, 2, 3, 4]
          ((2 : Nat) : Int) ((2 * 2 : Nat) : Int) 44100 1 50 0 1 = .error .outOfFuel)) :=
  frame_loops_safe realLibm 3 [1, 2, 3, 4] [0, 1, 2, 3, 4, 5, 6, 7, 8, 9]
    LimiterState.initial [1, 2, 3, 4] 2 2 44100 1 44100 1 50 0 1
    (by decide) (by rfl) (by simp) (by rfl) (by norm_num) (by norm_num)
    (by simp [LimiterState.initial])

/-- C19 as stated fails on a call that resets: from an initialised state with cursor `5`
and lookahead length `10`, a one frame call with lookahead length `20` leaves the
cursor at `1`, not at `(5 + 1) mod 4096`. -/
theorem limiter_cursor_after_reset :
    ∃ run, limiter_processData realLibm 2 ⟨1, fun _ _ => 0, 5, 10, true⟩ [0]
        ((1 : Nat) : Int) ((1 * 1 : Nat) : Int) 1000 1 50 0 20 = .ok run ∧
      run.state.write_pos = 1 ∧ run.state.write_pos ≠ (5 + 1) % 4096 := by
  have hL : lookaheadSamples (20 : ℝ) 1000 = 20 := by
    rw [lookaheadSamples_eq _ _ (by norm_num)]; norm_num
  obtain ⟨run, hr, -, -, hw⟩ := (limiter_processData_returns realLibm 2
    ⟨1, fun _ _ => 0, 5, 10, true⟩ [0] 1 1 1000 1 50 0 20 (by norm_num) (by norm_num)
    (by decide) (by decide) (by rfl) (by decide)).1 (by decide)
  rw [hL] at hw
  have hw1 : run.state.write_pos = 1 := by
    rw [hw]; simp
  exact ⟨run, hr, hw1, by rw [hw1]; decide⟩

theorem processGraphicEQ_coefficients_witness :
    (∃ norm : Nat → NormBiquad ℝ,
      processGraphicEQ realLibm 3 [1, 2] 2 1 44100 [0, 1, 2, 3, 4, 5, 6, 7, 8, 9] 1
        = eqFrameLoop norm 2 1 3 0 (fun _ _ => ⟨0, 0, 0, 0⟩) [1, 2] ∧
      ∀ i, i < 10 →
        (norm i).norm_b0 = (rbjBand 44100 1 (i : ℝ) i).b0 / (rbjBand 44100 1 (i : ℝ) i).a0 ∧
        (norm i).norm_b1 = (rbjBand 44100 1 (i : ℝ) i).b1 / (rbjBand 44100 1 (i : ℝ) i).a0 ∧
        (norm i).norm_b2 = (rbjBand 44100 1 (i : ℝ) i).b2 / (rbjBand 44100 1 (i : ℝ) i).a0 ∧
        (norm i).norm_a1 = (rbjBand 44100 1 (i : ℝ) i).a1 / (rbjBand 44100 1 (i : ℝ) i).a0 ∧
        (norm i).norm_a2 = (rbjBand 44100 1 (i : ℝ) i).a2 / (rbjBand 44100 1 (i : ℝ) i).a0 ∧
        ((rbjBand 44100 1 (i : ℝ) i).a0 ≠ 0 →
          (rbjBand 44100 1 (i : ℝ) i).a0 / (rbjBand 44100 1 (i : ℝ) i).a0 = 1)) ∧
    (List.range 10).map (f0 : Nat → ℝ)
      = [31, 63, 125, 250, 500, 1000, 2000, 4000, 8000, 16000] ∧
    ((PI : ℝ) < Real.pi ∧ Real.pi < PI + 1 / 10 ^ 20) :=
  processGraphicEQ_coefficients 3 [1, 2] 2 1 44100 [0, 1, 2, 3, 4, 5, 6, 7, 8, 9] 1
    (fun i => (i : ℝ)) (by intro i hi; interval_cases i <;> simp)

theorem bandCoeffs_dc_gain_witness :
    (bandCoeffs realLibm 44100 0.707 6 5).b0 + (bandCoeffs realLibm 44100 0.707 6 5).b1
        + (bandCoeffs realLibm 44100 0.707 6 5).b2
      = (bandCoeffs realLibm 44100 0.707 6 5).a0 + (bandCoeffs realLibm 44100 0.707 6 5).a1
        + (bandCoeffs realLibm 44100 0.707 6 5).a2 :=
  (bandCoeffs_dc_gain 44100 0.707 6).2.2 5 (by decide) (by decide)

theorem limiter_gain_update_witness :
    ∃ T a r g0 : ℝ,
      T = (10 : ℝ) ^ ((0 : ℝ) / 20) ∧
      r = Real.exp (-1 / (50 * 44100 / 1000)) ∧
      a = (if (0 : ℝ) < 1 then Real.exp (-1 / (1 * 44100 / 1000)) else 0) ∧
      g0 = (if (LimiterState.initial : LimiterState ℝ).state_initialized = false ∨
          lookaheadSamples (1 : ℝ) 44100
            ≠ (LimiterState.initial : LimiterState ℝ).current_lookahead_samples
        then 1 else (LimiterState.initial : LimiterState ℝ).current_gain) ∧
      (∃ run, limiter_processData realLibm 3 LimiterState.initial [1, 2, 3, 4]
          ((2 : Nat) : Int) ((2 * 2 : Nat) : Int) 44100 1 50 0 1 = .ok run ∧
        run.gains.length = 2 ∧
        ∀ f, f < 2 → run.gains[f]? = some (specGains T a r [1, 2, 3, 4] 2 g0 (f + 1))) ∧
      (∀ (f : Nat) (s : LimiterState ℝ) (d : List ℝ), f * 2 + 2 ≤ d.length →
        (0 ≤ s.write_pos ∧ s.write_pos < 4096) →
        (0 ≤ s.current_lookahead_samples ∧ s.current_lookahead_samples < 4096) →
        ∃ s' d', limiterFrame ((2 : Nat) : Int) T a r ((f * 2 : Nat) : Int) s d
            = .ok (s', d') ∧
          s'.current_gain = specGainStep T a r (specPeak d 2 f 2) s.current_gain ∧
          ∀ ch, ch < 2 → d'[f * 2 + ch]? = some
            (s.delay_buffer ch
              ((s.write_pos - s.current_lookahead_samples + 4096) % 4096).toNat
              * s'.current_gain)) ∧
      (∀ peak g : ℝ, (if peak ≤ T then 1 else T / peak) < g →
        specGainStep T 0 r peak g = if peak ≤ T then 1 else T / peak) :=
  limiter_gain_update LimiterState.initial [1, 2, 3, 4] 2 2 3 44100 1 50 0 1
    (by norm_num) (by norm_num) (by decide) (by decide) (by rfl) (by decide)
    (by simp [LimiterState.initial])

theorem processGraphicEQ_channel_independent_witness :
    ∃ out out' mono,
      processGraphicEQ realLibm 3 [1, 2, 3, 4] ((2 * 2 : Nat) : Int) ((2 : Nat) : Int)
        44100 [0, 1, 2, 3, 4, 5, 6, 7, 8, 9] 1 = .ok out ∧
      processGraphicEQ realLibm 3 [1, 7, 3, 9] ((2 * 2 : Nat) : Int) ((2 : Nat) : Int)
        44100 [0, 1, 2, 3, 4, 5, 6, 7, 8, 9] 1 = .ok out' ∧
      processGraphicEQ realLibm 3 (channelSamples [1, 2, 3, 4] 2 0) ((2 : Nat) : Int) 1
        44100 [0, 1, 2, 3, 4, 5, 6, 7, 8, 9] 1 = .ok mono ∧
      channelSamples out 2 0 = mono ∧
      channelSamples out' 2 0 = channelSamples out 2 0 :=
  processGraphicEQ_channel_independent realLibm [1, 2, 3, 4] [1, 7, 3, 9] 2 0 2 3 44100 1
    [0, 1, 2, 3, 4, 5, 6, 7, 8, 9] (by decide) (by decide) (by rfl) (by rfl) (by decide)
    (by simp) (by simp [channelSamples, List.range, List.range.loop])

end Examples

section BufferSplit

variable {K : Type}

/-- Reading inside the first part of a buffer does not see what follows it. -/
theorem loadAt_append_left (d S : List K) (i : Int) (h : i.toNat < d.length) :
    loadAt (d ++ S) i = loadAt d i := by
  simp only [loadAt, List.getElem?_append_left h]

/-- Writing inside the first part of a buffer leaves what follows it alone. -/
theorem storeAt_append_left (d S : List K) (i : Int) (v : K) (h : i.toNat < d.length) :
    storeAt (d ++ S) i v = (storeAt d i v).map (fun d' => d' ++ S) := by
  have h2 : i.toNat < (d ++ S).length := by rw [List.length_append]; omega
  by_cases hi : 0 ≤ i
  · simp only [storeAt, hi, h, h2, and_self, if_true, Except.map, List.set_append_left _ _ h]
  · simp only [storeAt, hi, false_and, if_false, Except.map]

/-- Reading behind a leading part `P` is reading the rest at the index less `P.length`. -/
theorem loadAt_append_right (P d : List K) (i : Int) (hi : 0 ≤ i) :
    loadAt (P ++ d) ((P.length : Int) + i) = loadAt d i := by
  have h0 : (0 : Int) ≤ (P.length : Int) + i := by omega
  have e : ((P.length : Int) + i).toNat = P.length + i.toNat := by omega
  have e2 : P.length + i.toNat - P.length = i.toNat := by omega
  simp only [loadAt, if_pos h0, if_pos hi, e,
    List.getElem?_append_right (Nat.le_add_right _ _), e2]

/-- Writing behind a leading part `P` is writing the rest at the index less `P.length`. -/
theorem storeAt_append_right (P d : List K) (i : Int) (v : K) (hi : 0 ≤ i) :
    storeAt (P ++ d) ((P.length : Int) + i) v = (storeAt d i v).map (fun d' => P ++ d') := by
  have h0 : (0 : Int) ≤ (P.length : Int) + i := by omega
  have e : ((P.length : Int) + i).toNat = P.length + i.toNat := by omega
  have e2 : P.length + i.toNat - P.length = i.toNat := by omega
  by_cases h : i.toNat < d.length
  · have h2 : P.length + i.toNat < (P ++ d).length := by rw [List.length_append]; omega
    simp only [storeAt, h0, hi, e, h, h2, and_self, if_true, Except.map,
      List.set_append_right _ _ (Nat.le_add_right _ _), e2]
  · have h2 : ¬ P.length + i.toNat < (P ++ d).length := by rw [List.length_append]; omega
    simp only [storeAt, h0, hi, e, h, h2, and_false, if_false, Except.map]

/-- A write that returns keeps the length of the buffer. -/
theorem storeAt_length (d d' : List K) (i : Int) (v : K) (h : storeAt d i v = .ok d') :
    d'.length = d.length := by
  unfold storeAt at h
  split_ifs at h
  simp only [Except.ok.injEq] at h
  rw [← h, List.length_set]

end BufferSplit

section LimiterStreaming

variable {K : Type} [LinearOrderedField K]

/-- The peak detector of a frame inside the first part of a buffer. -/
theorem peakLoop_append_left (d S : List K) (i : Int) :
    ∀ (n : Nat) (ch : Int) (pk : K), 0 ≤ i + ch → (i + ch).toNat + n ≤ d.length →
      peakLoop (d ++ S) i n ch pk = peakLoop d i n ch pk := by
  intro n
  induction n with
  | zero => intro ch pk _ _; rfl
  | succ n ih =>
    intro ch pk h0 hlen
    have e : (i + (ch + 1)).toNat = (i + ch).toNat + 1 := by omega
    simp only [peakLoop, loadAt_append_left d S (i + ch) (by omega)]
    cases hl : loadAt d (i + ch) with
    | error e => rfl
    | ok v =>
      simp only [bind, Except.bind]
      exact ih (ch + 1) _ (by omega) (by omega)

/-- The peak detector of a frame behind a leading part `P`. -/
theorem peakLoop_append_right (P d : List K) (i : Int) :
    ∀ (n : Nat) (ch : Int) (pk : K), 0 ≤ i + ch →
      peakLoop (P ++ d) ((P.length : Int) + i) n ch pk = peakLoop d i n ch pk := by
  intro n
  induction n with
  | zero => intro ch pk _; rfl
  | succ n ih =>
    intro ch pk h0
    have e : (P.length : Int) + i + ch = (P.length : Int) + (i + ch) := by ring
    simp only [peakLoop, e, loadAt_append_right P d (i + ch) h0]
    cases hl : loadAt d (i + ch) with
    | error e => rfl
    | ok v =>
      simp only [bind, Except.bind]
      exact ih (ch + 1) _ (by omega)

/-- The delay line exchange of a frame inside the first part of a buffer. -/
theorem delayLoop_append_left (rp wp : Int) (g : K) (S : List K) (i : Int) :
    ∀ (n : Nat) (ch : Int) (db : Nat → Nat → K) (d : List K), 0 ≤ i + ch →
      (i + ch).toNat + n ≤ d.length →
      delayLoop rp wp g i n ch db (d ++ S)
        = (delayLoop rp wp g i n ch db d).map (fun p => (p.1, p.2 ++ S)) := by
  intro n
  induction n with
  | zero => intro ch db d _ _; rfl
  | succ n ih =>
    intro ch db d h0 hlen
    simp only [delayLoop, loadAt_append_left d S (i + ch) (by omega),
      storeAt_append_left d S (i + ch) _ (by omega)]
    cases h1 : delayLoad db ch rp with
    | error e => rfl
    | ok ds =>
      cases h2 : loadAt d (i + ch) with
      | error e => rfl
      | ok v =>
        cases h3 : delayStore db ch wp v with
        | error e => simp only [h3, bind, Except.bind, Except.map]
        | ok db' =>
          cases h4 : storeAt d (i + ch) (ds * g) with
          | error e => simp only [h3, h4, bind, Except.bind, Except.map]
          | ok d' =>
            simp only [h3, h4, bind, Except.bind, Except.map]
            have hl := storeAt_length d d' _ _ h4
            exact ih (ch + 1) db' d' (by omega) (by omega)

/-- The delay line exchange of a frame behind a leading part `P`. -/
theorem delayLoop_append_right (rp wp : Int) (g : K) (P : List K) (i : Int) :
    ∀ (n : Nat) (ch : Int) (db : Nat → Nat → K) (d : List K), 0 ≤ i + ch →
      delayLoop rp wp g ((P.length : Int) + i) n ch db (P ++ d)
        = (delayLoop rp wp g i n ch db d).map (fun p => (p.1, P ++ p.2)) := by
  intro n
  induction n with
  | zero => intro ch db d _; rfl
  | succ n ih =>
    intro ch db d h0
    have e : (P.length : Int) + i + ch = (P.length : Int) + (i + ch) := by ring
    simp only [delayLoop, e, loadAt_append_right P d (i + ch) h0,
      storeAt_append_right P d (i + ch) _ h0]
    cases h1 : delayLoad db ch rp with
    | error e => rfl
    | ok ds =>
      cases h2 : loadAt d (i + ch) with
      | error e => rfl
      | ok v =>
        cases h3 : delayStore db ch wp v with
        | error e => simp only [h3, bind, Except.bind, Except.map]
        | ok db' =>
          cases h4 : storeAt d (i + ch) (ds * g) with
          | error e => simp only [h3, h4, bind, Except.bind, Except.map]
          | ok d' =>
            simp only [h3, h4, bind, Except.bind, Except.map]
            exact ih (ch + 1) db' d' (by omega)

/-- A frame inside the first part of a buffer leaves what follows it alone. -/
theorem limiterFrame_append_left (nc : Int) (T a r : K) (i : Int) (st : LimiterState K)
    (d S : List K) (hi : 0 ≤ i) (hlen : i.toNat + nc.toNat ≤ d.length) :
    limiterFrame nc T a r i st (d ++ S)
      = (limiterFrame nc T a r i st d).map (fun p => (p.1, p.2 ++ S)) := by
  simp only [limiterFrame,
    peakLoop_append_left d S i nc.toNat 0 0.0 (by omega) (by simpa using hlen)]
  cases hp : peakLoop d i nc.toNat 0 0.0 with
  | error e => rfl
  | ok peak =>
    simp only [bind, Except.bind,
      delayLoop_append_left _ _ _ S i nc.toNat 0 st.delay_buffer d (by omega)
        (by simpa using hlen)]
    cases hd : delayLoop (Int.tmod (st.write_pos - st.current_lookahead_samples
        + MAX_LOOKAHEAD_SAMPLES) MAX_LOOKAHEAD_SAMPLES) st.write_pos
        (smoothGain T a r peak st.current_gain) i nc.toNat 0 st.delay_buffer d with
    | error e => simp only [Except.map]
    | ok res => simp only [Except.map]

/-- A frame behind a leading part `P` is the frame of the rest at the index less `P.length`. -/
theorem limiterFrame_append_right (nc : Int) (T a r : K) (i : Int) (st : LimiterState K)
    (P d : List K) (hi : 0 ≤ i) :
    limiterFrame nc T a r ((P.length : Int) + i) st (P ++ d)
      = (limiterFrame nc T a r i st d).map (fun p => (p.1, P ++ p.2)) := by
  simp only [limiterFrame, peakLoop_append_right P d i nc.toNat 0 0.0 (by omega)]
  cases hp : peakLoop d i nc.toNat 0 0.0 with
  | error e => rfl
  | ok peak =>
    simp only [bind, Except.bind,
      delayLoop_append_right _ _ _ P i nc.toNat 0 st.delay_buffer d (by omega)]
    cases hd : delayLoop (Int.tmod (st.write_pos - st.current_lookahead_samples
        + MAX_LOOKAHEAD_SAMPLES) MAX_LOOKAHEAD_SAMPLES) st.write_pos
        (smoothGain T a r peak st.current_gain) i nc.toNat 0 st.delay_buffer d with
    | error e => simp only [Except.map]
    | ok res => simp only [Except.map]

/-- The main loop behind a leading part `P`: with the same fuel it is the main loop of the
rest, with indices and sample count less `P.length`; `P` is not touched. -/
theorem limiterFrameLoop_append_right (nc N : Int) (T a r : K) (P log0 : List K)
    (hnc : 0 ≤ nc) :
    ∀ (fuel : Nat) (i : Int) (st : LimiterState K) (d log : List K), 0 ≤ i →
      limiterFrameLoop nc ((P.length : Int) + N) T a r fuel ((P.length : Int) + i) st
          (P ++ d) (log0 ++ log)
        = (limiterFrameLoop nc N T a r fuel i st d log).map
            (fun run => ⟨run.state, P ++ run.data, log0 ++ run.gains⟩) := by
  intro fuel
  induction fuel with
  | zero => intro i st d log _; rfl
  | succ fuel ih =>
    intro i st d log hi
    by_cases h : i < N
    · have h2 : (P.length : Int) + i < (P.length : Int) + N := by omega
      simp only [limiterFrameLoop, if_pos h, if_pos h2,
        limiterFrame_append_right nc T a r i st P d hi]
      cases hf : limiterFrame nc T a r i st d with
      | error e => rfl
      | ok res =>
        obtain ⟨st', d'⟩ := res
        simp only [bind, Except.bind, Except.map]
        have e : (P.length : Int) + i + nc = (P.length : Int) + (i + nc) := by ring
        rw [e, List.append_assoc]
        exact ih (i + nc) st' d' _ (by omega)
    · have h2 : ¬ (P.length : Int) + i < (P.length : Int) + N := by omega
      simp only [limiterFrameLoop, if_neg h, if_neg h2, Except.map]

/-- Fuel beyond the number of remaining frames does not change the main loop. -/
theorem limiterFrameLoop_fuel (c : Nat) (hc1 : 1 ≤ c) (T a r : K) (F : Nat) :
    ∀ (n k fuel1 fuel2 : Nat) (st : LimiterState K) (d log : List K),
      k + n = F → n < fuel1 → n < fuel2 →
      limiterFrameLoop (c : Int) ((F * c : Nat) : Int) T a r fuel1 ((k * c : Nat) : Int)
          st d log
        = limiterFrameLoop (c : Int) ((F * c : Nat) : Int) T a r fuel2
            ((k * c : Nat) : Int) st d log := by
  intro n
  induction n with
  | zero =>
    intro k fuel1 fuel2 st d log hk h1 h2
    obtain ⟨f1, rfl⟩ : ∃ f, fuel1 = f + 1 := ⟨fuel1 - 1, by omega⟩
    obtain ⟨f2, rfl⟩ : ∃ f, fuel2 = f + 1 := ⟨fuel2 - 1, by omega⟩
    have hkF : k = F := by omega
    subst hkF
    simp only [limiterFrameLoop, lt_irrefl, if_false]
  | succ n ih =>
    intro k fuel1 fuel2 st d log hk h1 h2
    obtain ⟨f1, rfl⟩ : ∃ f, fuel1 = f + 1 := ⟨fuel1 - 1, by omega⟩
    obtain ⟨f2, rfl⟩ : ∃ f, fuel2 = f + 1 := ⟨fuel2 - 1, by omega⟩
    have hlt : ((k * c : Nat) : Int) < ((F * c : Nat) : Int) := by
      have : k * c < F * c := Nat.mul_lt_mul_of_pos_right (by omega) (by omega)
      exact_mod_cast this
    have e : ((k * c : Nat) : Int) + (c : Int) = (((k + 1) * c : Nat) : Int) := by
      push_cast; ring
    simp only [limiterFrameLoop, if_pos hlt]
    cases hf : limiterFrame (c : Int) T a r ((k * c : Nat) : Int) st d with
    | error e => rfl
    | ok res =>
      obtain ⟨st', d'⟩ := res
      simp only [bind, Except.bind]
      rw [e]
      exact ih (k + 1) f1 f2 st' d' _ (by omega) (by omega) (by omega)

/-- The delay line exchange keeps the length of the buffer. -/
theorem delayLoop_length (rp wp : Int) (g : K) (i : Int) :
    ∀ (n : Nat) (ch : Int) (db db' : Nat → Nat → K) (d d' : List K),
      delayLoop rp wp g i n ch db d = .ok (db', d') → d'.length = d.length := by
  intro n
  induction n with
  | zero =>
    intro ch db db' d d' h
    simp only [delayLoop, Except.ok.injEq, Prod.mk.injEq] at h
    rw [h.2]
  | succ n ih =>
    intro ch db db' d d' h
    simp only [delayLoop] at h
    cases h1 : delayLoad db ch rp with
    | error e => rw [h1] at h; exact Except.noConfusion h
    | ok ds =>
      cases h2 : loadAt d (i + ch) with
      | error e =>
        simp only [h1, h2, bind, Except.bind] at h
        exact Except.noConfusion h
      | ok v =>
        cases h3 : delayStore db ch wp v with
        | error e =>
          simp only [h1, h2, h3, bind, Except.bind] at h
          exact Except.noConfusion h
        | ok db1 =>
          cases h4 : storeAt d (i + ch) (ds * g) with
          | error e =>
            simp only [h1, h2, h3, h4, bind, Except.bind] at h
            exact Except.noConfusion h
          | ok d1 =>
            simp only [h1, h2, h3, h4, bind, Except.bind] at h
            rw [ih _ _ _ _ _ h, storeAt_length d d1 _ _ h4]

/-- A frame that returns keeps the length of the buffer. -/
theorem limiterFrame_length (nc : Int) (T a r : K) (i : Int) (st st' : LimiterState K)
    (d d' : List K) (h : limiterFrame nc T a r i st d = .ok (st', d')) :
    d'.length = d.length := by
  simp only [limiterFrame, bind, Except.bind] at h
  cases hp : peakLoop d i nc.toNat 0 0.0 with
  | error e => rw [hp] at h; exact Except.noConfusion h
  | ok peak =>
    rw [hp] at h
    simp only [] at h
    cases hd : delayLoop (Int.tmod (st.write_pos - st.current_lookahead_samples
        + MAX_LOOKAHEAD_SAMPLES) MAX_LOOKAHEAD_SAMPLES) st.write_pos
        (smoothGain T a r peak st.current_gain) i nc.toNat 0 st.delay_buffer d with
    | error e => rw [hd] at h; exact Except.noConfusion h
    | ok res =>
      obtain ⟨db1, d1⟩ := res
      rw [hd] at h
      simp only [Except.ok.injEq, Prod.mk.injEq] at h
      rw [← h.2]
      exact delayLoop_length _ _ _ _ _ _ _ _ _ _ hd

/-- The main loop over a buffer `dA ++ B` of `FA + FB` frames is the main loop over the
`FA` frames of `dA` followed by the main loop over the `FB` frames of `B` from the state
the first one leaves; faults of either part are faults of the whole. -/
theorem limiterFrameLoop_split (c : Nat) (hc1 : 1 ≤ c) (T a r : K) (FA FB : Nat)
    (B : List K) (fuelB : Nat) (hfB : FB < fuelB) :
    ∀ (n k fuel fuelA : Nat) (st : LimiterState K) (dA log : List K),
      k + n = FA → n + FB < fuel → n < fuelA → dA.length = FA * c →
      limiterFrameLoop (c : Int) (((FA + FB) * c : Nat) : Int) T a r fuel
          ((k * c : Nat) : Int) st (dA ++ B) log
        = (limiterFrameLoop (c : Int) ((FA * c : Nat) : Int) T a r fuelA
            ((k * c : Nat) : Int) st dA log).bind (fun runA =>
              (limiterFrameLoop (c : Int) ((FB * c : Nat) : Int) T a r fuelB 0
                runA.state B []).map (fun runB =>
                  ⟨runB.state, runA.data ++ runB.data, runA.gains ++ runB.gains⟩)) := by
  intro n
  induction n with
  | zero =>
    intro k fuel fuelA st dA log hk hfuel hfuelA hlen
    obtain ⟨fA, rfl⟩ : ∃ f, fuelA = f + 1 := ⟨fuelA - 1, by omega⟩
    have hkF : k = FA := by omega
    subst hkF
    have e1 : (((k + FB) * c : Nat) : Int) = (dA.length : Int) + ((FB * c : Nat) : Int) := by
      rw [hlen]; push_cast; ring
    have e2 : ((k * c : Nat) : Int) = (dA.length : Int) + 0 := by
      rw [hlen]; simp
    have e3 : log = log ++ [] := by simp
    have hfu := limiterFrameLoop_fuel c hc1 T a r FB FB 0 fuel fuelB st B [] (by omega)
      (by omega) hfB
    simp only [Nat.zero_mul, Nat.cast_zero] at hfu
    have hA : limiterFrameLoop (c : Int) ((k * c : Nat) : Int) T a r (fA + 1)
        ((k * c : Nat) : Int) st dA log = .ok ⟨st, dA, log⟩ := by
      simp only [limiterFrameLoop, lt_irrefl, if_false]
    rw [hA]
    simp only [Except.bind]
    rw [← hfu]
    nth_rewrite 1 [e3]
    rw [e1, e2]
    exact limiterFrameLoop_append_right (c : Int) _ T a r dA log (by omega) fuel 0 st B []
      (le_refl _)
  | succ n ih =>
    intro k fuel fuelA st dA log hk hfuel hfuelA hlen
    obtain ⟨f1, rfl⟩ : ∃ f, fuel = f + 1 := ⟨fuel - 1, by omega⟩
    obtain ⟨fA, rfl⟩ : ∃ f, fuelA = f + 1 := ⟨fuelA - 1, by omega⟩
    have hkc : (k + 1) * c = k * c + c := by ring
    have hle : (k + 1) * c ≤ FA * c := Nat.mul_le_mul_right c (by omega)
    have hlt : ((k * c : Nat) : Int) < ((FA * c : Nat) : Int) := by
      have : k * c < FA * c := by omega
      exact_mod_cast this
    have hlt2 : ((k * c : Nat) : Int) < (((FA + FB) * c : Nat) : Int) := by
      have : FA * c ≤ (FA + FB) * c := Nat.mul_le_mul_right c (by omega)
      have : k * c < (FA + FB) * c := by omega
      exact_mod_cast this
    have e : ((k * c : Nat) : Int) + (c : Int) = (((k + 1) * c : Nat) : Int) := by
      push_cast; ring
    simp only [limiterFrameLoop, if_pos hlt, if_pos hlt2,
      limiterFrame_append_left (c : Int) T a r ((k * c : Nat) : Int) st dA B (by omega)
        (by simp only [Int.toNat_ofNat]; omega)]
    cases hf : limiterFrame (c : Int) T a r ((k * c : Nat) : Int) st dA with
    | error e => rfl
    | ok res =>
      obtain ⟨st', d'⟩ := res
      simp only [bind, Except.bind, Except.map]
      rw [e]
      exact ih (k + 1) f1 fA st' d' _ (by omega) (by omega) (by omega)
        (by rw [limiterFrame_length _ _ _ _ _ _ _ _ _ hf, hlen])

/-- The state the main loop of a valid call starts from is initialised and has the
lookahead length of the call. -/
theorem limiter_entry_initialized [FloorRing K] (st : LimiterState K) (la sr : K) :
    (if !st.state_initialized || lookaheadSamples la sr != st.current_lookahead_samples
      then LimiterState.reset (lookaheadSamples la sr) else st).state_initialized = true ∧
    (if !st.state_initialized || lookaheadSamples la sr != st.current_lookahead_samples
      then LimiterState.reset (lookaheadSamples la sr) else st).current_lookahead_samples
        = lookaheadSamples la sr := by
  by_cases hb : (!st.state_initialized ||
      lookaheadSamples la sr != st.current_lookahead_samples) = true
  · rw [if_pos hb]
    exact ⟨rfl, rfl⟩
  · rw [if_neg hb]
    simp only [Bool.or_eq_true, Bool.not_eq_true', bne_iff_ne, ne_eq, not_or,
      Bool.not_eq_false, not_not] at hb
    exact ⟨hb.1, hb.2.symm⟩

/-- A state that is initialised with the lookahead length of the call is not reset. -/
theorem limiter_entry_keep [FloorRing K] (st : LimiterState K) (la sr : K)
    (h1 : st.state_initialized = true)
    (h2 : st.current_lookahead_samples = lookaheadSamples la sr) :
    (if !st.state_initialized || lookaheadSamples la sr != st.current_lookahead_samples
      then LimiterState.reset (lookaheadSamples la sr) else st) = st := by
  have hb : ¬ (!st.state_initialized ||
      lookaheadSamples la sr != st.current_lookahead_samples) = true := by
    simp [h1, h2]
  rw [if_neg hb]

/-- C17: streaming consistency of the limiter. For every limiter state, valid
parameters (`samplerate > 0`, `release_ms > 0`, `1 ≤ c ≤ 8` channels) and buffers `A` of
`FA` frames and `B` of `FB` frames, one call on `A ++ B` is the call on `A` followed by
the call on `B` with the same parameters from the state the first call leaves: it has
the final state of the second call, the output samples of the first call followed by
those of the second, and the per-frame gains of both (and it faults exactly when one
of the two calls does). From a state with its cursor inside the delay line all three
calls return. -/
theorem limiter_streaming [FloorRing K] (m : Libm K) (st : LimiterState K)
    (A B : List K) (c FA FB fuelA fuelB fuel : Nat)
    (samplerate attack_ms release_ms threshold_db lookahead_ms : K)
    (hsr : 0 < samplerate) (hrel : 0 < release_ms) (hc1 : 1 ≤ c) (hc8 : c ≤ 8)
    (hA : A.length = FA * c) (hB : B.length = FB * c)
    (hfA : FA < fuelA) (hfB : FB < fuelB) (hf : FA + FB < fuel) :
    limiter_processData m fuel st (A ++ B) c (((FA + FB) * c : Nat) : Int) samplerate
        attack_ms release_ms threshold_db lookahead_ms
      = (limiter_processData m fuelA st A c ((FA * c : Nat) : Int) samplerate attack_ms
          release_ms threshold_db lookahead_ms).bind (fun runA =>
            (limiter_processData m fuelB runA.state B c ((FB * c : Nat) : Int) samplerate
              attack_ms release_ms threshold_db lookahead_ms).bind (fun runB =>
                .ok ⟨runB.state, runA.data ++ runB.data, runA.gains ++ runB.gains⟩)) ∧
    ((0 ≤ st.write_pos ∧ st.write_pos < 4096) →
      ∃ runA runB,
        limiter_processData m fuelA st A c ((FA * c : Nat) : Int) samplerate attack_ms
          release_ms threshold_db lookahead_ms = .ok runA ∧
        limiter_processData m fuelB runA.state B c ((FB * c : Nat) : Int) samplerate
          attack_ms release_ms threshold_db lookahead_ms = .ok runB ∧
        limiter_processData m fuel st (A ++ B) c (((FA + FB) * c : Nat) : Int) samplerate
          attack_ms release_ms threshold_db lookahead_ms
          = .ok ⟨runB.state, runA.data ++ runB.data, runA.gains ++ runB.gains⟩ ∧
        runA.data.length = A.length ∧ runB.data.length = B.length) := by
  have hc8' : (c : Int) ≤ 8 := by exact_mod_cast hc8
  have key : limiter_processData m fuel st (A ++ B) c (((FA + FB) * c : Nat) : Int)
        samplerate attack_ms release_ms threshold_db lookahead_ms
      = (limiter_processData m fuelA st A c ((FA * c : Nat) : Int) samplerate attack_ms
          release_ms threshold_db lookahead_ms).bind (fun runA =>
            (limiter_processData m fuelB runA.state B c ((FB * c : Nat) : Int) samplerate
              attack_ms release_ms threshold_db lookahead_ms).bind (fun runB =>
                .ok ⟨runB.state, runA.data ++ runB.data, runA.gains ++ runB.gains⟩)) := by
    rw [limiter_processData_valid m fuel st (A ++ B) c _ samplerate attack_ms release_ms
        threshold_db lookahead_ms hsr hrel hc8',
      limiter_processData_valid m fuelA st A c _ samplerate attack_ms release_ms
        threshold_db lookahead_ms hsr hrel hc8']
    obtain ⟨hi0, hL0⟩ := limiter_entry_initialized st lookahead_ms samplerate
    generalize (if !st.state_initialized ||
        lookaheadSamples lookahead_ms samplerate != st.current_lookahead_samples
      then LimiterState.reset (lookaheadSamples lookahead_ms samplerate) else st) = st0
      at hi0 hL0 ⊢
    have hs := limiterFrameLoop_split c hc1 (m.pow 10.0 (threshold_db / 20.0))
      (if attack_ms > 0.0 then m.exp (-1.0 / (attack_ms * samplerate / 1000.0)) else 0.0)
      (m.exp (-1.0 / (release_ms * samplerate / 1000.0))) FA FB B fuelB hfB FA 0 fuel
      fuelA st0 A [] (by omega) hf hfA hA
    simp only [Nat.zero_mul, Nat.cast_zero] at hs
    rw [hs]
    cases hrA : limiterFrameLoop (c : Int) ((FA * c : Nat) : Int)
        (m.pow 10.0 (threshold_db / 20.0))
        (if attack_ms > 0.0 then m.exp (-1.0 / (attack_ms * samplerate / 1000.0)) else 0.0)
        (m.exp (-1.0 / (release_ms * samplerate / 1000.0))) fuelA 0 st0 A [] with
    | error e => rfl
    | ok runA =>
      have hinv := (limiterFrameLoop_ok_inv (c : Int) ((FA * c : Nat) : Int)
        (m.pow 10.0 (threshold_db / 20.0))
        (if attack_ms > 0.0 then m.exp (-1.0 / (attack_ms * samplerate / 1000.0)) else 0.0)
        (m.exp (-1.0 / (release_ms * samplerate / 1000.0)))
        (fun s => s.state_initialized = true ∧
          s.current_lookahead_samples = lookaheadSamples lookahead_ms samplerate)
        (fun s s' i d d' hs hfr => by
          obtain ⟨-, -, q3, q4⟩ := limiterFrame_ok _ _ _ _ _ _ _ _ _ hfr
          exact ⟨by rw [q4]; exact hs.1, by rw [q3]; exact hs.2⟩)
        fuelA 0 st0 A [] runA hrA ⟨hi0, hL0⟩).1
      simp only [Except.bind]
      rw [limiter_processData_valid m fuelB runA.state B c _ samplerate attack_ms
          release_ms threshold_db lookahead_ms hsr hrel hc8',
        limiter_entry_keep runA.state lookahead_ms samplerate hinv.1 hinv.2]
      cases limiterFrameLoop (c : Int) ((FB * c : Nat) : Int)
        (m.pow 10.0 (threshold_db / 20.0))
        (if attack_ms > 0.0 then m.exp (-1.0 / (attack_ms * samplerate / 1000.0)) else 0.0)
        (m.exp (-1.0 / (release_ms * samplerate / 1000.0))) fuelB 0 runA.state B [] with
      | error e => rfl
      | ok runB => rfl
  refine ⟨key, fun hwp => ?_⟩
  obtain ⟨runA, hrA, hlA, -, hwA⟩ := (limiter_processData_returns m fuelA st A c FA
    samplerate attack_ms release_ms threshold_db lookahead_ms hsr hrel hc1 hc8 hA hwp).1 hfA
  have hwpA : 0 ≤ runA.state.write_pos ∧ runA.state.write_pos < 4096 := by
    rw [hwA]; omega
  obtain ⟨runB, hrB, hlB, -, -⟩ := (limiter_processData_returns m fuelB runA.state B c FB
    samplerate attack_ms release_ms threshold_db lookahead_ms hsr hrel hc1 hc8 hB hwpA).1 hfB
  refine ⟨runA, runB, hrA, hrB, ?_, by rw [hlA, hA], by rw [hlB, hB]⟩
  rw [key, hrA]
  simp only [Except.bind]
  rw [hrB]

end LimiterStreaming

section StreamingExample

theorem limiter_streaming_witness :
    limiter_processData realLibm 3 LimiterState.initial ([1, 2] ++ [3, 4]) ((2 : Nat) : Int)
        (((1 + 1) * 2 : Nat) : Int) 44100 1 50 0 1
      = (limiter_processData realLibm 2 LimiterState.initial [1, 2] ((2 : Nat) : Int)
          ((1 * 2 : Nat) : Int) 44100 1 50 0 1).bind (fun runA =>
            (limiter_processData realLibm 2 runA.state [3, 4] ((2 : Nat) : Int)
              ((1 * 2 : Nat) : Int) 44100 1 50 0 1).bind (fun runB =>
                .ok ⟨runB.state, runA.data ++ runB.data, runA.gains ++ runB.gains⟩)) ∧
    (∃ runA runB,
        limiter_processData realLibm 2 LimiterState.initial [1, 2] ((2 : Nat) : Int)
          ((1 * 2 : Nat) : Int) 44100 1 50 0 1 = .ok runA ∧
        limiter_processData realLibm 2 runA.state [3, 4] ((2 : Nat) : Int)
          ((1 * 2 : Nat) : Int) 44100 1 50 0 1 = .ok runB ∧
        limiter_processData realLibm 3 LimiterState.initial ([1, 2] ++ [3, 4])
          ((2 : Nat) : Int) (((1 + 1) * 2 : Nat) : Int) 44100 1 50 0 1
          = .ok ⟨runB.state, runA.data ++ runB.data, runA.gains ++ runB.gains⟩ ∧
        runA.data.length = ([1, 2] : List ℝ).length ∧
        runB.data.length = ([3, 4] : List ℝ).length) :=
  have h := limiter_streaming realLibm LimiterState.initial [1, 2] [3, 4] 2 1 1 2 2 3
    44100 1 50 0 1 (by norm_num) (by norm_num) (by decide) (by decide) (by rfl) (by rfl)
    (by decide) (by decide) (by decide)
  ⟨h.1, h.2 (by simp [LimiterState.initial])⟩

end StreamingExample

section UnderflowFacts

/-- The linear threshold of `-7000` dB, `pow(10, -350)`, underflows to `0`. -/
theorem underflow_pow_threshold : underflowLibm.pow 10.0 (-7000 / 20.0) = 0 := by
  have e : (-7000 / 20.0 : ℝ) = -((350 : ℕ) : ℝ) := by norm_num
  have e10 : (10.0 : ℝ) = 10 := by norm_num
  simp only [underflowLibm, e, e10]
  rw [Real.rpow_neg (by norm_num), Real.rpow_natCast]
  rw [if_pos]
  rw [inv_eq_one_div]
  apply one_div_lt_one_div_of_lt (by positivity)
  norm_num

end UnderflowFacts

section LimiterImpulse

variable {K : Type} [LinearOrderedField K]

end LimiterImpulse

section ImpulseExamples

end ImpulseExamples

section LimiterUnitGain

variable {K : Type} [LinearOrderedField K]

/-- The smoothing step keeps a gain in `[0, 1]` when the threshold is not negative and
both coefficients lie in `[0, 1]`; with a positive threshold it keeps a positive gain
positive. -/
theorem smoothGain_unit (T a r peak g : K) (hT : 0 ≤ T) (ha0 : 0 ≤ a) (ha1 : a ≤ 1)
    (hr0 : 0 ≤ r) (hr1 : r ≤ 1) (hg0 : 0 ≤ g) (hg1 : g ≤ 1) :
    (0 ≤ smoothGain T a r peak g ∧ smoothGain T a r peak g ≤ 1) ∧
    (0 < T → 0 < g → 0 < smoothGain T a r peak g) := by
  rw [smoothGain_eq_spec]
  have ht : (0 ≤ (if peak ≤ T then (1 : K) else T / peak) ∧
      (if peak ≤ T then (1 : K) else T / peak) ≤ 1) ∧
      (0 < T → 0 < (if peak ≤ T then (1 : K) else T / peak)) := by
    split_ifs with h
    · exact ⟨⟨zero_le_one, le_refl _⟩, fun _ => zero_lt_one⟩
    · have hp : T < peak := not_le.mp h
      have hp0 : 0 < peak := lt_of_le_of_lt hT hp
      exact ⟨⟨div_nonneg hT (le_of_lt hp0), le_of_lt ((div_lt_one hp0).mpr hp)⟩,
        fun h0 => div_pos h0 hp0⟩
  obtain ⟨⟨t0, t1⟩, tpos⟩ := ht
  have blend : ∀ (t c : K), 0 ≤ t → t ≤ 1 → 0 ≤ c → c ≤ 1 →
      (0 ≤ (1 - c) * t + c * g ∧ (1 - c) * t + c * g ≤ 1) ∧
      (0 < t → 0 < g → 0 < (1 - c) * t + c * g) := by
    intro t c t0 t1 c0 c1
    have h1 : 0 ≤ (1 - c) * t := mul_nonneg (by linarith) t0
    have h2 : 0 ≤ c * g := mul_nonneg c0 hg0
    have h3 : (1 - c) * t ≤ (1 - c) * 1 := mul_le_mul_of_nonneg_left t1 (by linarith)
    have h4 : c * g ≤ c * 1 := mul_le_mul_of_nonneg_left hg1 c0
    refine ⟨⟨by linarith, by linarith⟩, fun ht hg => ?_⟩
    rcases eq_or_lt_of_le c0 with h0 | h0
    · rw [← h0]; simpa using ht
    · have : 0 < c * g := mul_pos h0 hg
      linarith
  have key : ∀ t : K, 0 ≤ t → t ≤ 1 →
      (0 ≤ (if t < g then (1 - a) * t + a * g else (1 - r) * t + r * g) ∧
        (if t < g then (1 - a) * t + a * g else (1 - r) * t + r * g) ≤ 1) ∧
      (0 < t → 0 < g →
        0 < (if t < g then (1 - a) * t + a * g else (1 - r) * t + r * g)) := by
    intro t t0 t1
    split_ifs with h
    · exact blend t a t0 t1 ha0 ha1
    · exact blend t r t0 t1 hr0 hr1
  obtain ⟨k1, k2⟩ := key _ t0 t1
  exact ⟨k1, fun h0 hg => k2 (tpos h0) hg⟩

/-- For a positive rate and release time, a `pow` that is never negative and an `exp`
with values in `[0, 1]` on negative arguments, the threshold is not negative and
both smoothing coefficients lie in `[0, 1]`. -/
theorem limiter_coeffs_unit (m : Libm K) (hpow : ∀ x, 0 ≤ m.pow 10.0 x)
    (hexp : ∀ x, x < 0 → 0 ≤ m.exp x ∧ m.exp x ≤ 1)
    (samplerate attack_ms release_ms threshold_db : K)
    (hsr : 0 < samplerate) (hrel : 0 < release_ms) :
    0 ≤ m.pow 10.0 (threshold_db / 20.0) ∧
    (0 ≤ (if attack_ms > 0.0 then m.exp (-1.0 / (attack_ms * samplerate / 1000.0))
      else 0.0) ∧
    (if attack_ms > 0.0 then m.exp (-1.0 / (attack_ms * samplerate / 1000.0))
      else 0.0) ≤ 1) ∧
    (0 ≤ m.exp (-1.0 / (release_ms * samplerate / 1000.0)) ∧
    m.exp (-1.0 / (release_ms * samplerate / 1000.0)) ≤ 1) := by
  have hneg : ∀ t : K, 0 < t → -1.0 / (t * samplerate / 1000.0) < 0 := by
    intro t ht
    have hden : 0 < t * samplerate / 1000.0 := by
      have : (0 : K) < 1000.0 := by norm_num
      positivity
    exact div_neg_of_neg_of_pos (by norm_num) hden
  refine ⟨hpow _, ?_, hexp _ (hneg _ hrel)⟩
  split_ifs with h
  · exact hexp _ (hneg _ (by norm_num at h; exact h))
  · norm_num

/-- A call that returns keeps the gain in `[0, 1]` and the cursor inside the delay
line, and records only gains in `[0, 1]`; when `pow` is positive, positive gains stay
positive. -/
theorem limiter_processData_keeps [FloorRing K] (m : Libm K)
    (hpow : ∀ x, 0 ≤ m.pow 10.0 x) (hexp : ∀ x, x < 0 → 0 ≤ m.exp x ∧ m.exp x ≤ 1)
    (fuel : Nat) (st : LimiterState K) (data : List K)
    (nc ns : Int) (sr att rel th la : K) (run : LimiterRun K)
    (h : limiter_processData m fuel st data nc ns sr att rel th la = .ok run)
    (hst : (0 ≤ st.current_gain ∧ st.current_gain ≤ 1) ∧
      (0 ≤ st.write_pos ∧ st.write_pos < 4096) ∧
      ((∀ x, 0 < m.pow 10.0 x) → 0 < st.current_gain)) :
    ((0 ≤ run.state.current_gain ∧ run.state.current_gain ≤ 1) ∧
      (0 ≤ run.state.write_pos ∧ run.state.write_pos < 4096) ∧
      ((∀ x, 0 < m.pow 10.0 x) → 0 < run.state.current_gain)) ∧
    ∀ g, g ∈ run.gains → (0 ≤ g ∧ g ≤ 1) ∧ ((∀ x, 0 < m.pow 10.0 x) → 0 < g) := by
  unfold limiter_processData at h
  by_cases h1 : sr ≤ 0 ∨ rel ≤ 0
  · rw [if_pos h1] at h
    simp only [Except.ok.injEq] at h
    subst h
    exact ⟨hst, fun g hg => absurd hg (List.not_mem_nil g)⟩
  rw [if_neg h1] at h
  by_cases h2 : nc > MAX_CHANNELS
  · rw [if_pos h2] at h
    simp only [Except.ok.injEq] at h
    subst h
    exact ⟨hst, fun g hg => absurd hg (List.not_mem_nil g)⟩
  rw [if_neg h2] at h
  push_neg at h1
  obtain ⟨hT, ⟨ha0, ha1⟩, hr0, hr1⟩ := limiter_coeffs_unit m hpow hexp sr att rel th h1.1 h1.2
  have hst0 : (fun s : LimiterState K => (0 ≤ s.current_gain ∧ s.current_gain ≤ 1) ∧
      (0 ≤ s.write_pos ∧ s.write_pos < 4096) ∧
      ((∀ x, 0 < m.pow 10.0 x) → 0 < s.current_gain))
      (if !st.state_initialized || lookaheadSamples la sr != st.current_lookahead_samples
        then LimiterState.reset (lookaheadSamples la sr) else st) := by
    split_ifs
    · simp only [LimiterState.reset]; norm_num
    · exact hst
  obtain ⟨p1, p2⟩ := limiterFrameLoop_ok_inv nc ns _ _ _
    (fun s : LimiterState K => (0 ≤ s.current_gain ∧ s.current_gain ≤ 1) ∧
      (0 ≤ s.write_pos ∧ s.write_pos < 4096) ∧
      ((∀ x, 0 < m.pow 10.0 x) → 0 < s.current_gain))
    (by
      intro s s' i d d' hs hf
      obtain ⟨⟨peak, hg⟩, hw, -, -⟩ := limiterFrame_ok _ _ _ _ _ _ _ _ _ hf
      obtain ⟨b1, b2⟩ := smoothGain_unit (m.pow 10.0 (th / 20.0)) _ _ peak s.current_gain hT
        ha0 ha1 hr0 hr1 hs.1.1 hs.1.2
      refine ⟨?_, ?_, ?_⟩
      · rw [hg]; exact b1
      · rw [hw, Int.tmod_eq_emod (by omega) (by norm_num)]
        omega
      · intro hpos
        rw [hg]; exact b2 (hpos _) (hs.2.2 hpos))
    fuel 0 _ data [] run h hst0
  refine ⟨p1, fun g hg => ?_⟩
  rcases p2 g hg with h3 | ⟨s, hs, rfl⟩
  · exact absurd h3 (List.not_mem_nil g)
  · exact ⟨hs.1, hs.2.2⟩

/-- Every reachable limiter state has its gain in `[0, 1]`, positive when `pow` is, and
its cursor inside the delay line. -/
theorem LimiterReachable.keeps [FloorRing K] (m : Libm K)
    (hpow : ∀ x, 0 ≤ m.pow 10.0 x) (hexp : ∀ x, x < 0 → 0 ≤ m.exp x ∧ m.exp x ≤ 1)
    (st : LimiterState K) (h : LimiterReachable m st) :
    (0 ≤ st.current_gain ∧ st.current_gain ≤ 1) ∧ (0 ≤ st.write_pos ∧ st.write_pos < 4096) ∧
      ((∀ x, 0 < m.pow 10.0 x) → 0 < st.current_gain) := by
  induction h with
  | initial => simp only [LimiterState.initial]; norm_num
  | call fuel data nc ns sr att rel th la run _ _ hcall ih =>
    exact (limiter_processData_keeps m hpow hexp fuel _ data nc ns sr att rel th la run
      hcall ih).1

/-- C16, amended: the gain invariant. For a `pow` that is never negative and an `exp`
with values in `[0, 1]` on negative arguments (as the functions of `<math.h>` are),
every state reachable from the initial one by calls with at least one channel has its
gain in `[0, 1]`; so has the gain after every frame of such a call and the state it
leaves; these gains are strictly positive when `pow` is strictly positive; valid calls
from reachable states do return; and in every frame from a state with gain in `[0, 1]`
each output sample is at most, in absolute value, the delayed sample it was computed
from. -/
theorem limiter_gain_invariant [FloorRing K] (m : Libm K)
    (hpow : ∀ x, 0 ≤ m.pow 10.0 x) (hexp : ∀ x, x < 0 → 0 ≤ m.exp x ∧ m.exp x ≤ 1) :
    (∀ st, LimiterReachable m st →
      (0 ≤ st.current_gain ∧ st.current_gain ≤ 1) ∧
      ((∀ x, 0 < m.pow 10.0 x) → 0 < st.current_gain)) ∧
    (∀ (st : LimiterState K) (fuel : Nat) (data : List K) (numChannels numSamples : Int)
        (samplerate attack_ms release_ms threshold_db lookahead_ms : K) (run : LimiterRun K),
      LimiterReachable m st → 1 ≤ numChannels →
      limiter_processData m fuel st data numChannels numSamples samplerate attack_ms
        release_ms threshold_db lookahead_ms = .ok run →
      (∀ g, g ∈ run.gains → (0 ≤ g ∧ g ≤ 1) ∧ ((∀ x, 0 < m.pow 10.0 x) → 0 < g)) ∧
        (0 ≤ run.state.current_gain ∧ run.state.current_gain ≤ 1) ∧
        ((∀ x, 0 < m.pow 10.0 x) → 0 < run.state.current_gain)) ∧
    (∀ (st : LimiterState K) (fuel : Nat) (data : List K) (c F : Nat)
        (samplerate attack_ms release_ms threshold_db lookahead_ms : K),
      LimiterReachable m st → 0 < samplerate → 0 < release_ms → 1 ≤ c → c ≤ 8 →
      data.length = F * c → F < fuel →
      ∃ run, limiter_processData m fuel st data c ((F * c : Nat) : Int) samplerate
        attack_ms release_ms threshold_db lookahead_ms = .ok run ∧ run.gains.length = F) ∧
    (∀ (s : LimiterState K) (d : List K) (c f : Nat)
        (samplerate attack_ms release_ms threshold_db : K),
      0 < samplerate → 0 < release_ms → c ≤ 8 → f * c + c ≤ d.length →
      (0 ≤ s.current_gain ∧ s.current_gain ≤ 1) →
      (0 ≤ s.write_pos ∧ s.write_pos < 4096) →
      (0 ≤ s.current_lookahead_samples ∧ s.current_lookahead_samples < 4096) →
      ∃ s' d', limiterFrame (c : Int) (m.pow 10.0 (threshold_db / 20.0))
          (if attack_ms > 0.0 then m.exp (-1.0 / (attack_ms * samplerate / 1000.0))
            else 0.0)
          (m.exp (-1.0 / (release_ms * samplerate / 1000.0)))
          ((f * c : Nat) : Int) s d = .ok (s', d') ∧
        (0 ≤ s'.current_gain ∧ s'.current_gain ≤ 1) ∧
        ∀ ch, ch < c → ∃ out, d'[f * c + ch]? = some out ∧
          |out| ≤ |s.delay_buffer ch
            ((s.write_pos - s.current_lookahead_samples + 4096) % 4096).toNat|) := by
  refine ⟨fun st h => ?_, ?_, ?_, ?_⟩
  · obtain ⟨k1, -, k3⟩ := LimiterReachable.keeps m hpow hexp st h
    exact ⟨k1, k3⟩
  · intro st fuel data nc ns sr att rel th la run hreach _ hcall
    obtain ⟨p1, p2⟩ := limiter_processData_keeps m hpow hexp fuel st data nc ns sr att rel
      th la run hcall (LimiterReachable.keeps m hpow hexp st hreach)
    exact ⟨p2, p1.1, p1.2.2⟩
  · intro st fuel data c F sr att rel th la hreach hsr hrel hc1 hc8 hlen hfuel
    obtain ⟨run, hrun, -, hg, -⟩ := (limiter_processData_returns m fuel st data c F
      sr att rel th la hsr hrel hc1 hc8 hlen
      (LimiterReachable.keeps m hpow hexp st hreach).2.1).1 hfuel
    exact ⟨run, hrun, hg⟩
  · intro s d c f sr att rel th hsr hrel hc8 hd hg hwp hL
    obtain ⟨hT, ⟨ha0, ha1⟩, hr0, hr1⟩ := limiter_coeffs_unit m hpow hexp sr att rel th hsr hrel
    obtain ⟨s', d', hframe, hspec⟩ := limiterFrame_spec c hc8
      (m.pow 10.0 (th / 20.0))
      (if att > 0.0 then m.exp (-1.0 / (att * sr / 1000.0)) else 0.0)
      (m.exp (-1.0 / (rel * sr / 1000.0))) f s d hd hwp hL
    obtain ⟨peak, -, hnew⟩ := hspec.gain
    have hb : 0 ≤ s'.current_gain ∧ s'.current_gain ≤ 1 := by
      rw [hnew]
      exact (smoothGain_unit _ _ _ _ _ hT ha0 ha1 hr0 hr1 hg.1 hg.2).1
    refine ⟨s', d', hframe, hb, fun ch hch => ⟨_, hspec.output ch hch, ?_⟩⟩
    rw [abs_mul, abs_of_nonneg hb.1]
    exact mul_le_of_le_one_right (abs_nonneg _) hb.2

end LimiterUnitGain

section GainExamples

/-- The real `pow` is positive and the real `exp` lies in `[0, 1]` on negative
arguments. -/
theorem realLibm_unit :
    (∀ x, 0 < realLibm.pow 10.0 x) ∧
    (∀ x, x < 0 → 0 ≤ realLibm.exp x ∧ realLibm.exp x ≤ 1) := by
  refine ⟨fun x => ?_, fun x hx => ⟨le_of_lt (Real.exp_pos x), ?_⟩⟩
  · simp only [realLibm]
    exact Real.rpow_pos_of_pos (by norm_num) _
  · exact le_of_lt (Real.exp_lt_one_iff.mpr hx)

/-- C16 as stated fails when the threshold underflows: with `threshold_db = -7000` the
linear threshold `pow(10, -350)` is `0`, the target gain of a frame with peak `1` is
`0 / 1 = 0`, and with `attack_ms = 0` the smoothed gain becomes exactly `0` on the
first frame of the first call. -/
theorem limiter_gain_underflow :
    ∃ run, limiter_processData underflowLibm 2 LimiterState.initial [1] 1 1 44100 0 50
        (-7000) 0 = .ok run ∧
      run.gains = [0] ∧ run.state.current_gain = 0 ∧ ¬ (0 < run.state.current_gain) := by
  have hmap : (limiter_processData underflowLibm 2 LimiterState.initial [1] 1 1 44100 0 50
      (-7000) 0).map (fun run => (run.state.current_gain, run.gains)) = .ok (0, [0]) := by
    have h1 : ¬ ((44100 : ℝ) ≤ 0 ∨ (50 : ℝ) ≤ 0) := by norm_num
    have hL : lookaheadSamples (0 : ℝ) 44100 = 0 := by
      simp [lookaheadSamples, doubleToInt, INT_MIN, INT_MAX, MAX_LOOKAHEAD_SAMPLES]
    simp [limiter_processData, h1, MAX_CHANNELS, hL, LimiterState.initial,
      LimiterState.reset, limiterFrameLoop, limiterFrame, peakLoop, delayLoop, delayLoad,
      delayStore, loadAt, storeAt, MAX_LOOKAHEAD_SAMPLES, bind, Except.bind, Except.map,
      underflow_pow_threshold, smoothGain]
    norm_num
  cases hcall : limiter_processData underflowLibm 2 LimiterState.initial [1] 1 1 44100 0 50
      (-7000) 0 with
  | error e => rw [hcall] at hmap; simp [Except.map] at hmap
  | ok run =>
    rw [hcall] at hmap
    simp only [Except.map, Except.ok.injEq, Prod.mk.injEq] at hmap
    exact ⟨run, rfl, hmap.2, hmap.1, by rw [hmap.1]; exact lt_irrefl 0⟩

theorem limiter_gain_invariant_witness :
    ∃ run, limiter_processData realLibm 3 LimiterState.initial [1 / 4, 3]
        ((1 : Nat) : Int) ((2 * 1 : Nat) : Int) 44100 1 50 0 1 = .ok run ∧
      run.gains.length = 2 ∧
      (∀ g, g ∈ run.gains → 0 < g ∧ g ≤ 1) ∧
      0 < run.state.current_gain ∧ run.state.current_gain ≤ 1 := by
  obtain ⟨run, hrun, hlen⟩ := (limiter_gain_invariant realLibm
    (fun x => le_of_lt (realLibm_unit.1 x)) realLibm_unit.2).2.2.1 LimiterState.initial 3
    [1 / 4, 3] 1 2 44100 1 50 0 1 LimiterReachable.initial (by norm_num) (by norm_num)
    (by decide) (by decide) (by rfl) (by decide)
  obtain ⟨hg, hs, hpos⟩ := (limiter_gain_invariant realLibm
    (fun x => le_of_lt (realLibm_unit.1 x)) realLibm_unit.2).2.1 LimiterState.initial 3
    [1 / 4, 3] 1 2 44100 1 50 0 1 run LimiterReachable.initial (by decide) hrun
  exact ⟨run, hrun, hlen, fun g hgm => ⟨(hg g hgm).2 realLibm_unit.1, (hg g hgm).1.2⟩,
    hpos realLibm_unit.1, hs.2⟩

end GainExamples

end EarCanvas
